import Mathlib

set_option maxHeartbeats 1600000

/-!
Verification development for the chain_kv transactional key-value layer
(src/include/chain_kv/chain_kv.hpp).

Byte strings (`chain_kv::bytes`, i.e. `std::vector<char>` compared with
`memcmp`, hence as unsigned octets) are modelled as lists over `Fin 256`.
Identifier note: several source names end in the word "prefix"
(`get_next_prefix`, `undo_prefix`, `state_prefix`, ...); in this development
those names are shortened to `...Pre` (`get_next_pre`, `undoPre`, ...), with
each definition's doc comment naming the source symbol it embeds.
-/

/-- A single byte as compared by `memcmp`: an unsigned octet. -/
abbrev Byte := Fin 256

/-- `chain_kv::bytes`. -/
abbrev Bytes := List Byte

/-- Embeds `chain_kv::compare_blob` (chain_kv.hpp): `memcmp` over the common
length, ties broken by length (shorter compares less). The elementwise
recursion below is exactly that order. -/
def compare_blob : Bytes → Bytes → Ordering
  | [], [] => Ordering.eq
  | [], _ :: _ => Ordering.lt
  | _ :: _, [] => Ordering.gt
  | a :: as, b :: bs =>
      if a < b then Ordering.lt
      else if b < a then Ordering.gt
      else compare_blob as bs

/-- `compare_blob a b < 0`, the strict order used throughout the source. -/
abbrev BLt (a b : Bytes) : Prop := compare_blob a b = Ordering.lt

/-- `compare_blob a b <= 0`. -/
abbrev BLe (a b : Bytes) : Prop := compare_blob a b ≠ Ordering.gt

theorem compare_blob_self (a : Bytes) : compare_blob a a = Ordering.eq := by
  induction a with
  | nil => rfl
  | cons x xs ih => simp [compare_blob, ih]

theorem compare_blob_eq_iff {a b : Bytes} : compare_blob a b = Ordering.eq ↔ a = b := by
  constructor
  · intro h
    induction a generalizing b with
    | nil => cases b with
      | nil => rfl
      | cons y ys => simp [compare_blob] at h
    | cons x xs ih =>
      cases b with
      | nil => simp [compare_blob] at h
      | cons y ys =>
        by_cases hxy : x < y
        · simp [compare_blob, hxy] at h
        · by_cases hyx : y < x
          · simp [compare_blob, hxy, hyx] at h
          · have hx : x = y := le_antisymm (not_lt.mp hyx) (not_lt.mp hxy)
            simp [compare_blob, hxy, hyx] at h
            simp [hx, ih h]
  · rintro rfl; exact compare_blob_self a

theorem compare_blob_swap (a b : Bytes) :
    compare_blob b a = (compare_blob a b).swap := by
  induction a generalizing b with
  | nil => cases b <;> rfl
  | cons x xs ih =>
    cases b with
    | nil => rfl
    | cons y ys =>
      by_cases hxy : x < y
      · have hyx : ¬ y < x := asymm hxy
        simp [compare_blob, hxy, hyx, Ordering.swap]
      · by_cases hyx : y < x
        · simp [compare_blob, hxy, hyx, Ordering.swap]
        · simp [compare_blob, hxy, hyx, ih ys]

theorem blt_asymm {a b : Bytes} (h : BLt a b) : ¬ BLt b a := by
  intro h2
  rw [BLt, compare_blob_swap, h] at h2
  simp [Ordering.swap] at h2

theorem blt_irrefl (a : Bytes) : ¬ BLt a a := by
  simp [BLt, compare_blob_self]

theorem blt_trans {a b c : Bytes} (h1 : BLt a b) (h2 : BLt b c) : BLt a c := by
  induction a generalizing b c with
  | nil =>
    cases c with
    | nil =>
      cases b with
      | nil => exact h1
      | cons y ys => simp [BLt, compare_blob] at h2
    | cons z zs => simp [BLt, compare_blob]
  | cons x xs ih =>
    cases b with
    | nil => simp [BLt, compare_blob] at h1
    | cons y ys =>
      cases c with
      | nil => simp [BLt, compare_blob] at h2
      | cons z zs =>
        simp only [BLt, compare_blob] at h1 h2 ⊢
        by_cases hxy : x < y
        · by_cases hyz : y < z
          · simp [lt_trans hxy hyz]
          · by_cases hzy : z < y
            · simp [hyz, hzy] at h2
            · have : y = z := le_antisymm (not_lt.mp hzy) (not_lt.mp hyz)
              subst this; simp [hxy]
        · by_cases hyx : y < x
          · simp [hxy, hyx] at h1
          · have hxe : x = y := le_antisymm (not_lt.mp hyx) (not_lt.mp hxy)
            subst hxe
            simp only [if_neg (lt_irrefl x)] at h1
            by_cases hxz : x < z
            · simp [hxz]
            · by_cases hzx : z < x
              · simp [hxz, hzx] at h2
              · have : x = z := le_antisymm (not_lt.mp hzx) (not_lt.mp hxz)
                subst this
                simp only [if_neg (lt_irrefl x)] at h2 ⊢
                exact ih h1 h2

theorem compare_blob_cases (a b : Bytes) :
    BLt a b ∨ a = b ∨ BLt b a := by
  rcases h : compare_blob a b with _ | _ | _
  · exact Or.inl h
  · exact Or.inr (Or.inl (compare_blob_eq_iff.mp h))
  · refine Or.inr (Or.inr ?_)
    rw [BLt, compare_blob_swap, h]; rfl

theorem ble_iff {a b : Bytes} : BLe a b ↔ (BLt a b ∨ a = b) := by
  constructor
  · intro h
    rcases compare_blob_cases a b with h1 | h1 | h1
    · exact Or.inl h1
    · exact Or.inr h1
    · exfalso; apply h
      rw [compare_blob_swap, h1]; rfl
  · rintro (h | rfl)
    · simp [BLe, h]
    · simp [BLe, compare_blob_self]

theorem blt_of_ble_of_blt {a b c : Bytes} (h1 : BLe a b) (h2 : BLt b c) : BLt a c := by
  rcases ble_iff.mp h1 with h | rfl
  · exact blt_trans h h2
  · exact h2

theorem blt_of_blt_of_ble {a b c : Bytes} (h1 : BLt a b) (h2 : BLe b c) : BLt a c := by
  rcases ble_iff.mp h2 with h | rfl
  · exact blt_trans h1 h
  · exact h1

theorem ble_trans {a b c : Bytes} (h1 : BLe a b) (h2 : BLe b c) : BLe a c := by
  rcases ble_iff.mp h1 with h | rfl
  · exact ble_iff.mpr (Or.inl (blt_of_blt_of_ble h h2))
  · exact h2

theorem blt_of_not_ble {a b : Bytes} (h : ¬ BLe a b) : BLt b a := by
  rcases compare_blob_cases a b with h1 | h1 | h1
  · exact absurd (ble_iff.mpr (Or.inl h1)) h
  · exact absurd (ble_iff.mpr (Or.inr h1)) h
  · exact h1

theorem ble_of_not_blt {a b : Bytes} (h : ¬ BLt a b) : BLe b a := by
  rcases compare_blob_cases a b with h1 | h1 | h1
  · exact absurd h1 h
  · exact ble_iff.mpr (Or.inr h1.symm)
  · exact ble_iff.mpr (Or.inl h1)

theorem not_blt_of_ble {a b : Bytes} (h : BLe a b) : ¬ BLt b a := by
  rcases ble_iff.mp h with h1 | rfl
  · exact blt_asymm h1
  · exact blt_irrefl a

/-- Stripping a common leading run does not change the comparison. -/
theorem compare_blob_append_same (a u v : Bytes) :
    compare_blob (a ++ u) (a ++ v) = compare_blob u v := by
  induction a with
  | nil => rfl
  | cons x xs ih => simp [compare_blob, ih]

theorem blt_cons_of_lt {x y : Byte} (h : x < y) (u v : Bytes) :
    BLt (x :: u) (y :: v) := by
  simp [BLt, compare_blob, h]

theorem blt_nil_cons (y : Byte) (v : Bytes) : BLt [] (y :: v) := rfl

/-- A proper initial segment is strictly smaller. -/
theorem blt_append_cons (a : Bytes) (y : Byte) (v : Bytes) :
    BLt a (a ++ y :: v) := by
  have h : compare_blob (a ++ []) (a ++ y :: v) = compare_blob [] (y :: v) :=
    compare_blob_append_same a [] (y :: v)
  rw [List.append_nil] at h
  rw [BLt, h]; rfl

/-- Helper for `get_next_pre`: the C++ loop
`while (!next.empty()) { if (++next.back()) break; next.pop_back(); }`
processed on the reversed byte list. A byte equal to 0xff increments to 0
(falsy), so it is popped and the loop continues; otherwise the incremented
byte is kept and the loop stops. -/
def bumpRev : Bytes → Bytes
  | [] => []
  | b :: rest => if b = 255 then bumpRev rest else (b + 1) :: rest

/-- Embeds `chain_kv::get_next_prefix` (chain_kv.hpp): increment the last
byte; on overflow drop it and retry; empty input stays empty. -/
def get_next_pre (p : Bytes) : Bytes := (bumpRev p.reverse).reverse

theorem bumpRev_replicate (m : Nat) :
    bumpRev (List.replicate m (255 : Byte)) = [] := by
  induction m with
  | zero => rfl
  | succ n ih => simp [List.replicate, bumpRev, ih]

theorem bumpRev_replicate_append (m : Nat) (c : Byte) (r : Bytes) (hc : c ≠ 255) :
    bumpRev (List.replicate m (255 : Byte) ++ c :: r) = (c + 1) :: r := by
  induction m with
  | zero => simp [bumpRev, hc]
  | succ n ih => simp [List.replicate, bumpRev, ih]

/-- If every byte of `p` is 0xff (or `p` is empty), the next prefix is empty. -/
theorem get_next_pre_all_ff {p : Bytes} (h : ∀ b ∈ p, b = (255 : Byte)) :
    get_next_pre p = [] := by
  have hrep : p = List.replicate p.length (255 : Byte) := List.eq_replicate_of_mem h
  rw [get_next_pre, hrep, List.reverse_replicate, bumpRev_replicate, List.reverse_nil]

/-- Splitting off the trailing run of 0xff bytes from a string that has at
least one other byte. -/
theorem exists_ff_split {l : Bytes} (h : ∃ b ∈ l, b ≠ (255 : Byte)) :
    ∃ m c r, (c : Byte) ≠ 255 ∧ l = List.replicate m (255 : Byte) ++ c :: r := by
  induction l with
  | nil => simp at h
  | cons x xs ih =>
    by_cases hx : x = (255 : Byte)
    · subst hx
      have hxs : ∃ b ∈ xs, b ≠ (255 : Byte) := by
        rcases h with ⟨b, hb, hbne⟩
        rcases List.mem_cons.mp hb with rfl | hb2
        · exact absurd rfl hbne
        · exact ⟨b, hb2, hbne⟩
      rcases ih hxs with ⟨m, c, r, hc, hl⟩
      exact ⟨m + 1, c, r, hc, by simp [List.replicate, hl]⟩
    · exact ⟨0, x, xs, hx, by simp⟩

theorem get_next_pre_decomp {p : Bytes} (h : ∃ b ∈ p, b ≠ (255 : Byte)) :
    ∃ a c m, (c : Byte) ≠ 255 ∧ p = a ++ c :: List.replicate m (255 : Byte) ∧
      get_next_pre p = a ++ [c + 1] := by
  have hrev : ∃ b ∈ p.reverse, b ≠ (255 : Byte) := by
    rcases h with ⟨b, hb, hbne⟩; exact ⟨b, List.mem_reverse.mpr hb, hbne⟩
  rcases exists_ff_split hrev with ⟨m, c, r, hc, hl⟩
  refine ⟨r.reverse, c, m, hc, ?_, ?_⟩
  · have := congrArg List.reverse hl
    simpa [List.reverse_replicate] using this
  · rw [get_next_pre, hl, bumpRev_replicate_append m c r hc]
    simp

theorem fin_lt_succ {c : Byte} (hc : c ≠ 255) : c < c + 1 := by
  have hv : (c : Nat) < 255 := by
    rcases Fin.lt_or_lt_of_ne hc with h | h
    · exact h
    · exact absurd (Fin.le_last c) (not_le.mpr (by simpa using h))
  have : ((c + 1 : Byte) : Nat) = (c : Nat) + 1 := by
    rw [Fin.add_def]
    simp [Nat.mod_eq_of_lt (by omega : (c : Nat) + 1 < 256)]
  exact Fin.lt_def.mpr (by omega)

/-- Sandwich lemma: a string strictly between `p = a ++ c :: 0xff^m` and
`a ++ [c+1]` must have `p` as a prefix. -/

theorem fin_succ_val {c : Byte} (hc : c ≠ 255) : ((c + 1 : Byte) : Nat) = (c : Nat) + 1 := by
  have hv : (c : Nat) < 255 := by
    rcases Fin.lt_or_lt_of_ne hc with h | h
    · exact h
    · exact absurd (Fin.le_last c) (not_le.mpr (by simpa using h))
  rw [Fin.add_def]
  simp [Nat.mod_eq_of_lt (by omega : (c : Nat) + 1 < 256)]

theorem pre_nil (q : Bytes) : [] <+: q := ⟨q, rfl⟩

theorem pre_refl (q : Bytes) : q <+: q := ⟨[], by simp⟩

theorem pre_cons {l1 l2 : Bytes} (a : Byte) (h : l1 <+: l2) : a :: l1 <+: a :: l2 := by
  rcases h with ⟨t, rfl⟩; exact ⟨t, rfl⟩

/-- A string `compare_blob`-above a run of 0xff bytes of length `m` starts
with that run. -/
theorem replicate_ff_pre {m : Nat} {q : Bytes}
    (h : compare_blob (List.replicate m (255 : Byte)) q = Ordering.lt) :
    List.replicate m (255 : Byte) <+: q := by
  induction m generalizing q with
  | zero => exact pre_nil q
  | succ n ih =>
    cases q with
    | nil => simp [List.replicate, compare_blob] at h
    | cons e q' =>
      simp only [List.replicate, compare_blob] at h ⊢
      have hne : ¬ (255 : Byte) < e := by
        intro hlt
        exact absurd (Fin.le_last e) (not_le.mpr (by simpa using hlt))
      rw [if_neg hne] at h
      by_cases heq : e < 255
      · rw [if_pos heq] at h; exact absurd h (by simp)
      · have he : e = (255 : Byte) := le_antisymm (Fin.le_last e) (not_lt.mp heq)
        subst he
        rw [if_neg heq] at h
        exact pre_cons _ (ih h)

/-- Sandwich lemma: a string strictly between `p = a ++ c :: 0xff^m` and
`a ++ [c+1]` must have `p` as a prefix. -/
theorem sandwich {a : Bytes} {c : Byte} {m : Nat} {q : Bytes} (hc : c ≠ 255)
    (h1 : BLt (a ++ c :: List.replicate m (255 : Byte)) q)
    (h2 : BLt q (a ++ [c + 1])) :
    (a ++ c :: List.replicate m (255 : Byte)) <+: q := by
  induction a generalizing q with
  | nil =>
    simp only [List.nil_append] at h1 h2 ⊢
    cases q with
    | nil => simp [BLt, compare_blob] at h1
    | cons d q' =>
      simp only [BLt, compare_blob] at h1 h2
      by_cases hcd : c < d
      · exfalso
        have hd1 : ¬ d < c + 1 := by
          intro hlt
          have h1n : (c : Nat) < (d : Nat) := hcd
          have h2n : (d : Nat) < ((c + 1 : Byte) : Nat) := hlt
          rw [fin_succ_val hc] at h2n
          omega
        rw [if_neg hd1] at h2
        by_cases hd2 : (c + 1 : Byte) < d
        · rw [if_pos hd2] at h2; exact absurd h2 (by simp)
        · rw [if_neg hd2] at h2
          cases q' with
          | nil => simp [compare_blob] at h2
          | cons e q'' => simp [compare_blob] at h2
      · by_cases hdc : d < c
        · rw [if_neg hcd, if_pos hdc] at h1; exact absurd h1 (by simp)
        · have hde : c = d := le_antisymm (not_lt.mp hdc) (not_lt.mp hcd)
          subst hde
          rw [if_neg hcd, if_neg hcd] at h1
          exact pre_cons _ (replicate_ff_pre h1)
  | cons x a' ih =>
    cases q with
    | nil => simp [BLt, compare_blob] at h1
    | cons y q' =>
      simp only [List.cons_append, BLt, compare_blob] at h1 h2
      by_cases hxy : x < y
      · exfalso
        have hyx : ¬ y < x := asymm hxy
        rw [if_neg hyx, if_pos hxy] at h2
        exact absurd h2 (by simp)
      · by_cases hyx : y < x
        · exfalso
          rw [if_neg hxy, if_pos hyx] at h1
          exact absurd h1 (by simp)
        · have hde : x = y := le_antisymm (not_lt.mp hyx) (not_lt.mp hxy)
          subst hde
          rw [if_neg hxy, if_neg hxy] at h1
          rw [if_neg hxy, if_neg hxy] at h2
          exact pre_cons _ (ih h1 h2)

/-- Claim C8: for every non-empty byte string `p` containing a byte other
than 0xff, `get_next_prefix p` is the least byte string strictly greater
(in the `compare_blob` order) than every byte string having `p` as a
prefix; if `p` is empty or all-0xff, the result is the empty string. -/
theorem claim_C8 (p : Bytes) :
    (p ≠ [] → (∃ b ∈ p, b ≠ (255 : Byte)) →
      (∀ s, p <+: s → BLt s (get_next_pre p)) ∧
      (∀ q, (∀ s, p <+: s → BLt s q) → ¬ BLt q (get_next_pre p))) ∧
    ((p = [] ∨ ∀ b ∈ p, b = (255 : Byte)) → get_next_pre p = []) := by
  constructor
  · intro _ hex
    rcases get_next_pre_decomp hex with ⟨a, c, m, hc, hp, hnext⟩
    constructor
    · intro s hpre
      rcases hpre with ⟨t, rfl⟩
      rw [hnext, hp]
      have key : BLt (c :: (List.replicate m (255 : Byte) ++ t)) [c + 1] :=
        blt_cons_of_lt (fin_lt_succ hc) _ _
      have hsame := compare_blob_append_same a
        (c :: (List.replicate m (255 : Byte) ++ t)) [c + 1]
      rw [BLt, List.append_assoc, List.cons_append, hsame]
      exact key
    · intro q hq hlt
      have hple : BLt p q := hq p (pre_refl p)
      rw [hp] at hple
      rw [hnext] at hlt
      have hpre : (a ++ c :: List.replicate m (255 : Byte)) <+: q :=
        sandwich hc hple hlt
      rw [← hp] at hpre
      exact blt_irrefl q (hq q hpre)
  · intro h
    rcases h with rfl | h
    · rfl
    · exact get_next_pre_all_ff h

/-- Witness for C8 at `p = [0x70, 0xff]`. -/
theorem claim_C8_witness :
    BLt [(0x70 : Byte), 0xff, 0x01] (get_next_pre [(0x70 : Byte), 0xff]) := by
  have h := (claim_C8 [(0x70 : Byte), 0xff]).1 (by decide) (by decide)
  exact h.1 [(0x70 : Byte), 0xff, 0x01] (by decide)

/-! ## The underlying ordered store

The external engine (rocksdb) is modelled as a strictly sorted association
list from full keys to byte values, with point get, sorted insert, delete,
half-open range delete (`DeleteRange` deletes `[lo, hi)`), and atomic
batches applied in order. -/

/-- The underlying ordered key-value store. -/
abbrev Store := List (Bytes × Bytes)

/-- The functions below are shared between the two key-ordered containers of
the source — the rocksdb store and the session's
`std::map<bytes, cached_value, less_blob>` cache — so they are generic over
the mapped type. -/
def storeKeys {α : Type} (s : List (Bytes × α)) : List Bytes := s.map Prod.fst

/-- Keys strictly ascending in `compare_blob` order. -/
abbrev storeWF {α : Type} (s : List (Bytes × α)) : Prop :=
  List.Pairwise BLt (storeKeys s)

def storeGet {α : Type} : List (Bytes × α) → Bytes → Option α
  | [], _ => none
  | (k', v') :: rest, k => if k = k' then some v' else storeGet rest k

def storePut {α : Type} : List (Bytes × α) → Bytes → α → List (Bytes × α)
  | [], k, v => [(k, v)]
  | (k', v') :: rest, k, v =>
      match compare_blob k k' with
      | Ordering.lt => (k, v) :: (k', v') :: rest
      | Ordering.eq => (k, v) :: rest
      | Ordering.gt => (k', v') :: storePut rest k v

def storeDel {α : Type} : List (Bytes × α) → Bytes → List (Bytes × α)
  | [], _ => []
  | (k', v') :: rest, k => if k = k' then rest else (k', v') :: storeDel rest k

/-- rocksdb `DeleteRange`: removes every key in `[lo, hi)`. -/
def storeDelRange {α : Type} (s : List (Bytes × α)) (lo hi : Bytes) :
    List (Bytes × α) :=
  s.filter (fun e => ¬ (BLe lo e.1 ∧ BLt e.1 hi))

/-- One operation recorded into a `rocksdb::WriteBatch`. -/
inductive BatchOp
  | put (k v : Bytes)
  | del (k : Bytes)
  | delRange (lo hi : Bytes)
deriving DecidableEq

abbrev Batch := List BatchOp

def applyOp (s : Store) : BatchOp → Store
  | BatchOp.put k v => storePut s k v
  | BatchOp.del k => storeDel s k
  | BatchOp.delRange lo hi => storeDelRange s lo hi

/-- `database::write`: a batch is applied atomically, in order. -/
def applyBatch (s : Store) (b : Batch) : Store := b.foldl applyOp s

/-! ## Machine integers and key encodings -/

def U64MOD : Nat := 2 ^ 64

/-- uint64_t subtraction (wraps). -/
def sub64 (a b : Nat) : Nat := (a + U64MOD - b % U64MOD) % U64MOD

theorem sub64_eq {a b : Nat} (ha : a < U64MOD) (hb : b ≤ a) : sub64 a b = a - b := by
  unfold sub64
  rw [Nat.mod_eq_of_lt (by omega : b < U64MOD)]
  have h1 : a + U64MOD - b = (a - b) + U64MOD := by omega
  rw [h1, Nat.add_mod_right, Nat.mod_eq_of_lt (by omega)]

def int64Max : Nat := 2 ^ 63 - 1

/-- The usual C++ arithmetic conversion of an `int64_t` to `uint64_t`. -/
def int64ToU64 (i : Int) : Nat := (i % (2 ^ 64 : Int)).toNat

def byteOf (n : Nat) : Byte := ⟨n % 256, Nat.mod_lt _ (by norm_num)⟩

/-- Big-endian fixed-width base-256 digits of `n` (most significant first). -/
def beBytes : Nat → Nat → Bytes
  | 0, _ => []
  | w + 1, n => byteOf (n / 256 ^ w) :: beBytes w (n % 256 ^ w)

/-- Embeds `chain_kv::append_key<uint64_t>`: append the 8 bytes of the value,
most significant first. -/
def append_key (dest : Bytes) (value : Nat) : Bytes := dest ++ beBytes 8 value

/-- Embeds `chain_kv::create_full_key`: `prefix ++ be64(contract) ++ key`. -/
def create_full_key (pre : Bytes) (contract : Nat) (key : Bytes) : Bytes :=
  append_key pre contract ++ key

theorem beBytes_lt {w : Nat} : ∀ {m n : Nat}, m < 256 ^ w → n < 256 ^ w → m < n →
    BLt (beBytes w m) (beBytes w n) := by
  induction w with
  | zero => intro m n hm hn h; omega
  | succ w ih =>
    intro m n hm hn h
    simp only [beBytes]
    have hm' : m < 256 ^ w * 256 := by rw [← pow_succ]; exact hm
    have hn' : n < 256 ^ w * 256 := by rw [← pow_succ]; exact hn
    have hmd : m / 256 ^ w < 256 := Nat.div_lt_of_lt_mul hm'
    have hnd : n / 256 ^ w < 256 := Nat.div_lt_of_lt_mul hn'
    rcases Nat.lt_trichotomy (m / 256 ^ w) (n / 256 ^ w) with hd | hd | hd
    · apply blt_cons_of_lt
      exact Fin.mk_lt_mk.mpr (by simpa [byteOf, Nat.mod_eq_of_lt hmd, Nat.mod_eq_of_lt hnd] using hd)
    · have hmod : m % 256 ^ w < n % 256 ^ w := by
        have hm2 := Nat.div_add_mod m (256 ^ w)
        have hn2 := Nat.div_add_mod n (256 ^ w)
        rw [hd] at hm2
        omega
      have htail := ih (Nat.mod_lt _ (Nat.pos_pow_of_pos w (by norm_num)))
        (Nat.mod_lt _ (Nat.pos_pow_of_pos w (by norm_num))) hmod
      have hhead : byteOf (m / 256 ^ w) = byteOf (n / 256 ^ w) := by rw [hd]
      rw [hhead]
      simp only [BLt, compare_blob, if_neg (lt_irrefl _)]
      exact htail
    · exact absurd (Nat.div_le_div_right (le_of_lt h)) (not_le.mpr hd)

theorem blt_beBytes_iff {w m n : Nat} (hm : m < 256 ^ w) (hn : n < 256 ^ w) :
    BLt (beBytes w m) (beBytes w n) ↔ m < n := by
  constructor
  · intro h
    rcases Nat.lt_trichotomy m n with h2 | h2 | h2
    · exact h2
    · subst h2; exact absurd h (blt_irrefl _)
    · exact absurd h (blt_asymm (beBytes_lt hn hm h2))
  · exact beBytes_lt hm hn

/-! ## Undo state and serialization

`fc::raw` serialization is not part of this repository; the spec only
requires a reversible encoding with variable-length unsigned integers as
length prefixes. -/

/-- Modelled from the spec: a variable-length unsigned integer
(7 bits per byte, least-significant group first, high bit set on all but
the last byte) as used for length prefixes. -/
def varint (n : Nat) : Bytes :=
  if h : n < 128 then [byteOf n]
  else byteOf (128 + n % 128) :: varint (n / 128)
termination_by n
decreasing_by exact Nat.div_lt_self (by omega) (by omega)

/-- Little-endian fixed-width base-256 digits (for fixed-size integers). -/
def leBytes : Nat → Nat → Bytes
  | 0, _ => []
  | w + 1, n => byteOf n :: leBytes w (n / 256)

/-- Embeds `chain_kv::undo_state` (chain_kv.hpp). `undo_stack` holds the
number of undo segments needed to go back each revision, oldest first
(`back()` is the top). -/
structure undo_state where
  format_version : Nat := 0
  revision : Int := 0
  undo_stack : List Nat := []
  next_undo_segment : Nat := 0
deriving DecidableEq

/-- Modelled from the spec: `fc::raw::pack` of `undo_state` — a reversible
flat encoding (format_version byte, revision as 8 bytes, varint-counted
u64 list, next segment id as 8 bytes). Only its reversibility matters. -/
def encode_state (s : undo_state) : Bytes :=
  byteOf s.format_version :: (leBytes 8 (int64ToU64 s.revision) ++
    varint s.undo_stack.length ++ s.undo_stack.flatMap (leBytes 8) ++
    leBytes 8 s.next_undo_segment)

/-- Embeds `chain_kv::pack_bytes`: reject byte strings whose length does not
fit `fc::unsigned_int` (32 bits), then length prefix followed by payload. -/
def pack_bytes (b : Bytes) : Except String Bytes :=
  if b.length < 2 ^ 32 then Except.ok (varint b.length ++ b)
  else Except.error "bytes is too big"

/-- One record of an undo segment, tag 0 = remove, tag 1 = put
(`chain_kv::undo_type`). -/
inductive UndoRec
  | remove (key : Bytes)
  | put (key value : Bytes)
deriving DecidableEq

/-- Embeds `chain_kv::pack_remove`. -/
def pack_remove (key : Bytes) : Except String Bytes := do
  let pk ← pack_bytes key
  Except.ok (byteOf 0 :: pk)

/-- Embeds `chain_kv::pack_put`. -/
def pack_put (key value : Bytes) : Except String Bytes := do
  let pk ← pack_bytes key
  let pv ← pack_bytes value
  Except.ok (byteOf 1 :: (pk ++ pv))

def parseVarint : Bytes → Option (Nat × Bytes)
  | [] => none
  | b :: rest =>
      if (b : Nat) < 128 then some ((b : Nat), rest)
      else
        match parseVarint rest with
        | none => none
        | some (n, r) => some (((b : Nat) - 128) + 128 * n, r)

/-- Embeds `chain_kv::get_bytes`: read a varint length, check it against the
remaining stream, return payload and rest. -/
def get_bytes (s : Bytes) : Except String (Bytes × Bytes) :=
  match parseVarint s with
  | none => Except.error "bad size for bytes"
  | some (n, rest) =>
      if n ≤ rest.length then Except.ok (rest.take n, rest.drop n)
      else Except.error "bad size for bytes"

theorem parseVarint_round (n : Nat) (rest : Bytes) :
    parseVarint (varint n ++ rest) = some (n, rest) := by
  induction n using Nat.strong_induction_on with
  | _ n ih =>
    by_cases h : n < 128
    · rw [varint, dif_pos h]
      simp [parseVarint, byteOf, Nat.mod_eq_of_lt (by omega : n < 256), h]
    · rw [varint, dif_neg h]
      have hb : ((byteOf (128 + n % 128) : Byte) : Nat) = 128 + n % 128 := by
        simp [byteOf, Nat.mod_eq_of_lt (by omega : 128 + n % 128 < 256)]
      simp only [List.cons_append, parseVarint, hb]
      rw [if_neg (by omega)]
      rw [List.append_eq, ih (n / 128) (Nat.div_lt_self (by omega) (by omega))]
      have hsum : n % 128 + 128 * (n / 128) = n := by
        have := Nat.div_add_mod n 128
        omega
      simp [hsum]

theorem get_bytes_round {b : Bytes} {p : Bytes} (h : pack_bytes b = Except.ok p)
    (rest : Bytes) : get_bytes (p ++ rest) = Except.ok (b, rest) := by
  unfold pack_bytes at h
  split at h
  · cases h
    unfold get_bytes
    rw [List.append_assoc, parseVarint_round]
    have hlen : b.length ≤ (b ++ rest).length := by simp
    simp [hlen]
  · cases h

/-- Embeds the record-parsing loop of `undo_stack::undo`
(`while (ds.remaining()) { unpack tag; ... }`), with explicit fuel (one unit
per record; callers pass the byte length, which suffices since every record
consumes at least its tag byte). -/
def parseSegRecs : Nat → Bytes → Except String (List UndoRec)
  | _, [] => Except.ok []
  | 0, _ :: _ => Except.error "out of fuel"
  | fuel + 1, t :: rest =>
      if (t : Nat) = 0 then
        match get_bytes rest with
        | Except.error e => Except.error e
        | Except.ok (k, r) =>
            match parseSegRecs fuel r with
            | Except.error e => Except.error e
            | Except.ok tl => Except.ok (UndoRec.remove k :: tl)
      else if (t : Nat) = 1 then
        match get_bytes rest with
        | Except.error e => Except.error e
        | Except.ok (k, r1) =>
            match get_bytes r1 with
            | Except.error e => Except.error e
            | Except.ok (v, r2) =>
                match parseSegRecs fuel r2 with
                | Except.error e => Except.error e
                | Except.ok tl => Except.ok (UndoRec.put k v :: tl)
      else Except.error "unknown undo_type"

/-- Serialized form of a whole undo segment: concatenation of its records. -/
def encodeSegRecs : List UndoRec → Except String Bytes
  | [] => Except.ok []
  | UndoRec.remove k :: tl => do
      let r ← pack_remove k
      let rest ← encodeSegRecs tl
      Except.ok (r ++ rest)
  | UndoRec.put k v :: tl => do
      let r ← pack_put k v
      let rest ← encodeSegRecs tl
      Except.ok (r ++ rest)

/-- The undo-stack bookkeeping prefixes, as computed in the `undo_stack`
constructor: `state_prefix = undo_prefix ++ 0x00`. -/
def statePreOf (u : Bytes) : Bytes := u ++ [byteOf 0]

/-- `segment_prefix = undo_prefix ++ 0x80`. -/
def segPreOf (u : Bytes) : Bytes := u ++ [byteOf 0x80]

/-- `segment_next_prefix = get_next_prefix(segment_prefix)`. -/
def segNextPreOf (u : Bytes) : Bytes := get_next_pre (segPreOf u)

/-- Embeds `chain_kv::undo_stack` (the persistent fields; the derived
prefixes are recomputed by the functions above). -/
structure undo_stack where
  undoPre : Bytes
  target_segment_size : Nat := 64 * 1024 * 1024
  state : undo_state
deriving DecidableEq

/-- Embeds `undo_stack::create_segment_key`:
`segment_prefix ++ be64(segment)`. -/
def undo_stack.create_segment_key (u : undo_stack) (segment : Nat) : Bytes :=
  append_key (segPreOf u.undoPre) segment

/-- Embeds `undo_stack::write_state`: append the put of the packed state at
`state_prefix` to the batch. -/
def undo_stack.write_state_batch (u : undo_stack) (batch : Batch) : Batch :=
  batch ++ [BatchOp.put (statePreOf u.undoPre) (encode_state u.state)]

/-- Embeds `undo_stack::set_revision`. The third check compares the
`uint64_t` argument with the `int64_t` current revision under the usual
C++ arithmetic conversion (both as `uint64_t`). On error, nothing changes
(the source throws before any mutation). -/
def undo_stack.set_revision (u : undo_stack) (store : Store) (revision : Nat) :
    Except String (undo_stack × Store) :=
  if u.state.undo_stack.length ≠ 0 then
    Except.error "cannot set revision while there is an existing undo stack"
  else if int64Max < revision then
    Except.error "revision to set is too high"
  else if revision < int64ToU64 u.state.revision then
    Except.error "revision cannot decrease"
  else
    let u' := { u with state := { u.state with revision := (revision : Int) } }
    Except.ok (u', applyBatch store (u'.write_state_batch []))

/-- Embeds `undo_stack::push`: append an empty frame, bump the revision,
persist the state. -/
def undo_stack.push (u : undo_stack) (store : Store) : undo_stack × Store :=
  let u' := { u with state := { u.state with
      undo_stack := u.state.undo_stack ++ [0],
      revision := u.state.revision + 1 } }
  (u', applyBatch store (u'.write_state_batch []))

/-- Embeds `undo_stack::squash`: fuse the top frame's segment count into the
one below (uint64 addition), drop it, decrement the revision. -/
def undo_stack.squash (u : undo_stack) (store : Store) :
    Except String (undo_stack × Store) :=
  if u.state.undo_stack.length < 2 then Except.error "nothing to squash"
  else
    let n := u.state.undo_stack.getLast?.getD 0
    let popped := u.state.undo_stack.dropLast
    let newBack := (popped.getLast?.getD 0 + n) % U64MOD
    let u' := { u with state := { u.state with
        undo_stack := popped.dropLast ++ [newBack],
        revision := u.state.revision - 1 } }
    Except.ok (u', applyBatch store (u'.write_state_batch []))

/-- Embeds `undo_stack::commit`: clamp the revision, drop the oldest frames,
and `DeleteRange` over the raw segment keys
`[create_segment_key(0), create_segment_key(keep_undo_segment - 1))`. -/
def undo_stack.commit (u : undo_stack) (store : Store) (revision : Int) :
    undo_stack × Store :=
  let rev := min revision u.state.revision
  let first_revision : Int := u.state.revision - u.state.undo_stack.length
  if first_revision < rev then
    let stack' := u.state.undo_stack.drop (rev - first_revision).toNat
    let keep_undo_segment := stack'.foldl sub64 u.state.next_undo_segment
    let store1 :=
      if 0 < keep_undo_segment then
        storeDelRange store (u.create_segment_key 0)
          (u.create_segment_key (keep_undo_segment - 1))
      else store
    let u' := { u with state := { u.state with undo_stack := stack' } }
    (u', applyBatch store1 (u'.write_state_batch []))
  else (u, store)

def recToOp : UndoRec → BatchOp
  | UndoRec.remove k => BatchOp.del k
  | UndoRec.put k v => BatchOp.put k v

/-- rocksdb iterator `Seek`: index of the first entry with key `>= k`
(`none` when the iterator becomes invalid). -/
def seekIdx (s : Store) (k : Bytes) : Option Nat :=
  s.findIdx? (fun e => ! decide (BLt e.1 k))

/-- The backward scan of `undo_stack::undo`: starting at `i` walk toward
index 0, stopping at the first key `< first`; per visited segment append its
parsed records (in stream order) and the deletion of the segment key. -/
def undoScanFrom (store : Store) (first : Bytes) (i : Nat) (batch : Batch) :
    Except String Batch :=
  match store[i]? with
  | none => Except.ok batch
  | some (key, value) =>
      if BLt key first then Except.ok batch
      else
        match parseSegRecs value.length value with
        | Except.error e => Except.error e
        | Except.ok recs =>
            let batch' := batch ++ recs.map recToOp ++ [BatchOp.del key]
            if i = 0 then Except.ok batch'
            else undoScanFrom store first (i - 1) batch'
termination_by i
decreasing_by
  rename_i h
  omega

/-- Embeds `undo_stack::undo`: seek to `segment_next_prefix`, step back once
if valid, replay the top frame's segments in descending id order into a
batch (deleting each segment record), pop the frame, decrement the
revision, persist state, apply the batch. -/
def undo_stack.undo (u : undo_stack) (store : Store) :
    Except String (undo_stack × Store) :=
  if u.state.undo_stack = [] then Except.error "nothing to undo"
  else
    let back := u.state.undo_stack.getLast?.getD 0
    let first := u.create_segment_key (sub64 u.state.next_undo_segment back)
    let scan :=
      match seekIdx store (segNextPreOf u.undoPre) with
      | none => Except.ok ([] : Batch)
      | some 0 => Except.ok ([] : Batch)
      | some (i + 1) => undoScanFrom store first i []
    match scan with
    | Except.error e => Except.error e
    | Except.ok batch =>
        let u' := { u with state := { u.state with
            next_undo_segment := sub64 u.state.next_undo_segment back,
            undo_stack := u.state.undo_stack.dropLast,
            revision := u.state.revision - 1 } }
        Except.ok (u', applyBatch store (u'.write_state_batch batch))

/-- Claim C6: `squash` with fewer than two frames, `undo` with an empty undo
stack, and `set_revision` with a non-empty stack / a revision above
`int64_t` max / a (uint64-converted) revision below the current one each
fail with the corresponding invalid-state error; in this embedding an error
result carries no new state or store, mirroring that the source throws
before any mutation, so nothing changes on failure. -/
theorem claim_C6 :
    (∀ (u : undo_stack) (store : Store), u.state.undo_stack.length < 2 →
        u.squash store = Except.error "nothing to squash") ∧
    (∀ (u : undo_stack) (store : Store), u.state.undo_stack = [] →
        u.undo store = Except.error "nothing to undo") ∧
    (∀ (u : undo_stack) (store : Store) (r : Nat),
        (u.state.undo_stack ≠ [] →
          u.set_revision store r =
            Except.error "cannot set revision while there is an existing undo stack") ∧
        (u.state.undo_stack = [] → int64Max < r →
          u.set_revision store r = Except.error "revision to set is too high") ∧
        (u.state.undo_stack = [] → r ≤ int64Max → r < int64ToU64 u.state.revision →
          u.set_revision store r = Except.error "revision cannot decrease")) := by
  refine ⟨?_, ?_, ?_⟩
  · intro u store h
    unfold undo_stack.squash
    rw [if_pos h]
  · intro u store h
    unfold undo_stack.undo
    rw [if_pos h]
  · intro u store r
    refine ⟨?_, ?_, ?_⟩
    · intro h
      unfold undo_stack.set_revision
      rw [if_pos (by simpa [List.length_eq_zero] using h)]
    · intro h1 h2
      unfold undo_stack.set_revision
      rw [if_neg (by simp [h1]), if_pos h2]
    · intro h1 h2 h3
      unfold undo_stack.set_revision
      rw [if_neg (by simp [h1]), if_neg (by omega), if_pos h3]

/-- Witness for C6 on a two-element stack / empty stack / fresh state. -/
theorem claim_C6_witness :
    ({ undoPre := [byteOf 0x10], state := {} } : undo_stack).squash [] =
        Except.error "nothing to squash" ∧
    ({ undoPre := [byteOf 0x10], state := {} } : undo_stack).undo [] =
        Except.error "nothing to undo" ∧
    ({ undoPre := [byteOf 0x10], state := { revision := 5 } } : undo_stack).set_revision [] 3 =
        Except.error "revision cannot decrease" := by
  refine ⟨?_, ?_, ?_⟩
  · exact claim_C6.1 _ [] (by simp)
  · exact claim_C6.2.1 _ [] rfl
  · exact (claim_C6.2.2 _ [] 3).2.2 rfl (by norm_num [int64Max]) (by norm_num [int64ToU64])

/-! ## Basic store lemmas -/

theorem storeGet_none_of_not_mem {α : Type} {s : List (Bytes × α)} {k : Bytes}
    (h : k ∉ storeKeys s) :
    storeGet s k = none := by
  induction s with
  | nil => rfl
  | cons e rest ih =>
    obtain ⟨k', v'⟩ := e
    simp [storeKeys] at h
    push_neg at h
    simp [storeGet, h.1, ih (by simp [storeKeys]; exact h.2)]

theorem storeGet_mem {α : Type} {s : List (Bytes × α)} {k : Bytes} {v : α}
    (h : storeGet s k = some v) :
    k ∈ storeKeys s := by
  by_contra hmem
  rw [storeGet_none_of_not_mem hmem] at h
  cases h

theorem storeGet_put_self {α : Type} (s : List (Bytes × α)) (k : Bytes) (v : α) :
    storeGet (storePut s k v) k = some v := by
  induction s with
  | nil => simp [storePut, storeGet]
  | cons e rest ih =>
    obtain ⟨k', v'⟩ := e
    rcases hcmp : compare_blob k k' with _ | _ | _
    · simp [storePut, hcmp, storeGet]
    · simp [storePut, hcmp, storeGet]
    · have hne : k ≠ k' := by
        intro h; subst h; rw [compare_blob_self] at hcmp; cases hcmp
      simp [storePut, hcmp, storeGet, hne, ih]

theorem storeGet_put_other {α : Type} {s : List (Bytes × α)} {k j : Bytes} (v : α)
    (hne : j ≠ k) :
    storeGet (storePut s k v) j = storeGet s j := by
  induction s with
  | nil => simp [storePut, storeGet, hne]
  | cons e rest ih =>
    obtain ⟨k', v'⟩ := e
    rcases hcmp : compare_blob k k' with _ | _ | _
    · simp [storePut, hcmp, storeGet, hne]
    · have hkk : k = k' := compare_blob_eq_iff.mp hcmp
      subst hkk
      simp [storePut, hcmp, storeGet, hne]
    · simp [storePut, hcmp, storeGet, ih]

theorem mem_storeKeys_put {α : Type} {s : List (Bytes × α)} {k j : Bytes} {v : α} :
    j ∈ storeKeys (storePut s k v) ↔ j = k ∨ j ∈ storeKeys s := by
  induction s with
  | nil => simp [storePut, storeKeys]
  | cons e rest ih =>
    obtain ⟨k', v'⟩ := e
    rcases hcmp : compare_blob k k' with _ | _ | _
    · simp [storePut, hcmp, storeKeys]
    · have hkk : k = k' := compare_blob_eq_iff.mp hcmp
      subst hkk
      simp [storePut, hcmp, storeKeys]
    · simp [storePut, hcmp, storeKeys] at ih ⊢
      tauto

theorem storeWF_put {α : Type} {s : List (Bytes × α)} (k : Bytes) (v : α)
    (h : storeWF s) :
    storeWF (storePut s k v) := by
  induction s with
  | nil => simp [storePut, storeWF, storeKeys]
  | cons e rest ih =>
    obtain ⟨k', v'⟩ := e
    simp only [storeWF, storeKeys, List.map_cons, List.pairwise_cons] at h
    rcases hcmp : compare_blob k k' with _ | _ | _
    · simp only [storePut, hcmp]
      show List.Pairwise BLt (k :: k' :: List.map Prod.fst rest)
      refine List.Pairwise.cons ?_ (List.Pairwise.cons h.1 h.2)
      intro j hj
      rcases List.mem_cons.mp hj with rfl | hj2
      · exact hcmp
      · exact blt_trans hcmp (h.1 j hj2)
    · have hkk : k = k' := compare_blob_eq_iff.mp hcmp
      subst hkk
      simp only [storePut, hcmp]
      show List.Pairwise BLt (k :: List.map Prod.fst rest)
      exact List.Pairwise.cons h.1 h.2
    · have hlt : BLt k' k := by rw [BLt, compare_blob_swap, hcmp]; rfl
      simp only [storePut, hcmp]
      show List.Pairwise BLt (k' :: storeKeys (storePut rest k v))
      refine List.Pairwise.cons ?_ (ih h.2)
      intro j hj
      rcases mem_storeKeys_put.mp hj with rfl | hj2
      · exact hlt
      · exact h.1 j hj2

theorem storePut_same {α : Type} [DecidableEq α] {s : List (Bytes × α)} {k : Bytes}
    {v : α} (hwf : storeWF s)
    (h : storeGet s k = some v) : storePut s k v = s := by
  induction s with
  | nil => cases h
  | cons e rest ih =>
    obtain ⟨k', v'⟩ := e
    simp only [storeWF, storeKeys, List.map_cons, List.pairwise_cons] at hwf
    by_cases hk : k = k'
    · subst hk
      have hv : v' = v := by simpa [storeGet] using h
      subst hv
      simp [storePut, compare_blob_self]
    · rw [storeGet, if_neg hk] at h
      rcases hcmp : compare_blob k k' with _ | _ | _
      · exfalso
        have hmem := storeGet_mem h
        have hba := hwf.1 k (by simpa [storeKeys] using hmem)
        exact absurd hba (blt_asymm hcmp)
      · exact absurd (compare_blob_eq_iff.mp hcmp) hk
      · simp [storePut, hcmp, ih hwf.2 h]

theorem storeKeys_delRange_sublist {α : Type} (s : List (Bytes × α)) (lo hi : Bytes) :
    (storeKeys (storeDelRange s lo hi)).Sublist (storeKeys s) :=
  List.Sublist.map Prod.fst (List.filter_sublist s)

theorem storeWF_delRange {α : Type} {s : List (Bytes × α)} (lo hi : Bytes)
    (h : storeWF s) :
    storeWF (storeDelRange s lo hi) :=
  List.Pairwise.sublist (storeKeys_delRange_sublist s lo hi) h

theorem storeGet_delRange {α : Type} {s : List (Bytes × α)} (lo hi k : Bytes)
    (hwf : storeWF s) :
    storeGet (storeDelRange s lo hi) k =
      if BLe lo k ∧ BLt k hi then none else storeGet s k := by
  induction s with
  | nil => simp [storeDelRange, storeGet]
  | cons e rest ih =>
    obtain ⟨k', v'⟩ := e
    simp only [storeWF, storeKeys, List.map_cons, List.pairwise_cons] at hwf
    have ihr := ih hwf.2
    by_cases hin : BLe lo k' ∧ BLt k' hi
    · have hdrop : storeDelRange ((k', v') :: rest) lo hi = storeDelRange rest lo hi := by
        simp [storeDelRange, List.filter, hin.1, hin.2]
      rw [hdrop]
      by_cases hk : k = k'
      · subst hk
        have hnm : k ∉ storeKeys (storeDelRange rest lo hi) := by
          intro hmem
          have := hwf.1 k ((storeKeys_delRange_sublist rest lo hi).mem hmem)
          exact blt_irrefl k this
        rw [storeGet_none_of_not_mem hnm, if_pos hin]
      · rw [ihr, storeGet, if_neg hk]
    · have hkeep : storeDelRange ((k', v') :: rest) lo hi =
          (k', v') :: storeDelRange rest lo hi := by
        simp only [storeDelRange, List.filter]
        split
        · rfl
        · rename_i hcond
          rw [decide_eq_false_iff_not] at hcond
          exact absurd (not_not.mp hcond) hin
      rw [hkeep]
      by_cases hk : k = k'
      · subst hk
        simp [storeGet, if_neg (by exact fun h => hin h : ¬ (BLe lo k ∧ BLt k hi))]
      · rw [storeGet, if_neg hk, ihr, storeGet, if_neg hk]

/-! ## Claim C3: commit -/

theorem beBytes_length (w n : Nat) : (beBytes w n).length = w := by
  induction w generalizing n with
  | zero => rfl
  | succ w ih => simp [beBytes, ih]

theorem U64MOD_eq_pow : U64MOD = 256 ^ 8 := by norm_num [U64MOD]

theorem create_segment_key_blt {u : undo_stack} {i j : Nat}
    (hi : i < U64MOD) (hj : j < U64MOD) :
    BLt (u.create_segment_key i) (u.create_segment_key j) ↔ i < j := by
  rw [U64MOD_eq_pow] at hi hj
  unfold undo_stack.create_segment_key append_key
  rw [BLt, compare_blob_append_same]
  exact blt_beBytes_iff hi hj

theorem create_segment_key_inj {u : undo_stack} {i j : Nat}
    (hi : i < U64MOD) (hj : j < U64MOD)
    (h : u.create_segment_key i = u.create_segment_key j) : i = j := by
  by_contra hne
  rcases Nat.lt_or_ge i j with hlt | hge
  · have h2 := (@create_segment_key_blt u i j hi hj).mpr hlt
    rw [h] at h2
    exact blt_irrefl _ h2
  · have hlt : j < i := by omega
    have h2 := (@create_segment_key_blt u j i hj hi).mpr hlt
    rw [h] at h2
    exact blt_irrefl _ h2

theorem create_segment_key_ble {u : undo_stack} {i j : Nat}
    (hi : i < U64MOD) (hj : j < U64MOD) :
    BLe (u.create_segment_key i) (u.create_segment_key j) ↔ i ≤ j := by
  rw [ble_iff]
  constructor
  · rintro (h | h)
    · exact le_of_lt ((create_segment_key_blt hi hj).mp h)
    · exact le_of_eq (create_segment_key_inj hi hj h)
  · intro h
    rcases Nat.lt_or_ge i j with hlt | hge
    · exact Or.inl ((create_segment_key_blt hi hj).mpr hlt)
    · have : i = j := by omega
      subst this
      exact Or.inr rfl

theorem create_segment_key_ne_statePre (u : undo_stack) (i : Nat) :
    u.create_segment_key i ≠ statePreOf u.undoPre := by
  intro h
  have := congrArg List.length h
  simp [undo_stack.create_segment_key, append_key, segPreOf, statePreOf,
    beBytes_length] at this

theorem foldl_sub64_eq : ∀ (l : List Nat) (a : Nat), a < U64MOD → l.sum ≤ a →
    l.foldl sub64 a = a - l.sum := by
  intro l
  induction l with
  | nil => intro a _ _; simp
  | cons n tl ih =>
    intro a ha hsum
    simp only [List.foldl_cons, List.sum_cons] at hsum ⊢
    rw [sub64_eq ha (by omega)]
    rw [ih (a - n) (by omega) (by omega)]
    omega

theorem sum_drop_le (l : List Nat) (k : Nat) : (l.drop k).sum ≤ l.sum := by
  conv_rhs => rw [← List.take_append_drop k l]
  rw [List.sum_append]
  omega

/-- The input state for the C3 counterexample: revision 2, two frames of
one segment each, next id 2. -/
def c3U : undo_stack :=
  { undoPre := [byteOf 0x10],
    state := { revision := 2, undo_stack := [1, 1], next_undo_segment := 2 } }

/-- Segments 0 and 1 exist on disk. -/
def c3Store : Store :=
  [(c3U.create_segment_key 0, []), (c3U.create_segment_key 1, [])]

/-- Counterexample to claim C3 as stated: committing revision 1 drops the
older frame, leaving only the frame that references segment id 1, so the
record with id 0 is obsolete; the claim asserts no obsolete segment record
remains, but `DeleteRange(create_segment_key(0), create_segment_key(keep-1))`
is end-exclusive with `keep = 1`, deletes nothing, and segment 0 survives. -/
theorem claim_C3_counterexample :
    (c3U.commit c3Store 1).1.state.undo_stack = [1] ∧
    storeGet (c3U.commit c3Store 1).2 (c3U.create_segment_key 0) = some [] ∧
    storeGet (c3U.commit c3Store 1).2 (c3U.create_segment_key 1) = some [] := by
  decide

/-- Claim C3, amended: `commit r` clamps `r` to `min r revision`, drops the
oldest `r − first_revision` frames, never touches the in-memory revision or
next segment id, and range-deletes exactly the segment ids in
`[0, keep − 1)` where `keep` is the smallest id still referenced by the
remaining frames — i.e. every obsolete segment record except the one with
id `keep − 1` (which survives, contrary to the original claim); no
referenced segment is deleted; a second `commit` with the same `r` changes
nothing. -/
theorem claim_C3_amended (u : undo_stack) (store : Store) (r : Int)
    (hwf : storeWF store)
    (hnext : u.state.next_undo_segment < U64MOD)
    (hsum : u.state.undo_stack.sum ≤ u.state.next_undo_segment) :
    (u.commit store r).1.state.undo_stack =
        u.state.undo_stack.drop
          (min r u.state.revision -
            (u.state.revision - (u.state.undo_stack.length : Int))).toNat ∧
    (u.commit store r).1.state.revision = u.state.revision ∧
    (u.commit store r).1.state.next_undo_segment = u.state.next_undo_segment ∧
    (∀ id, id < U64MOD →
      storeGet (u.commit store r).2 (u.create_segment_key id) =
        if u.state.revision - (u.state.undo_stack.length : Int) <
              min r u.state.revision ∧
            id + 1 < u.state.next_undo_segment -
              (u.state.undo_stack.drop
                (min r u.state.revision -
                  (u.state.revision - (u.state.undo_stack.length : Int))).toNat).sum
        then none
        else storeGet store (u.create_segment_key id)) ∧
    (u.commit store r).1.commit (u.commit store r).2 r = u.commit store r := by
  set k := (min r u.state.revision -
      (u.state.revision - (u.state.undo_stack.length : Int))).toNat with hk
  set stack2 := u.state.undo_stack.drop k with hstack2
  have hsum2 : stack2.sum ≤ u.state.next_undo_segment :=
    le_trans (sum_drop_le _ _) hsum
  have hfold : stack2.foldl sub64 u.state.next_undo_segment =
      u.state.next_undo_segment - stack2.sum :=
    foldl_sub64_eq _ _ hnext hsum2
  by_cases hbr :
      u.state.revision - (u.state.undo_stack.length : Int) < min r u.state.revision
  · have hres : u.commit store r =
        ({ u with state := { u.state with undo_stack := stack2 } },
         storePut
           (if 0 < u.state.next_undo_segment - stack2.sum then
              storeDelRange store (u.create_segment_key 0)
                (u.create_segment_key (u.state.next_undo_segment - stack2.sum - 1))
            else store)
           (statePreOf u.undoPre)
           (encode_state { u.state with undo_stack := stack2 })) := by
      simp only [undo_stack.commit]
      rw [if_pos hbr, ← hk, ← hstack2, hfold]
      simp [applyBatch, applyOp, undo_stack.write_state_batch]
    refine ⟨by rw [hres], by rw [hres], by rw [hres], ?_, ?_⟩
    · intro id hid
      rw [hres]
      simp only
      rw [storeGet_put_other _ (create_segment_key_ne_statePre u id)]
      by_cases hkeep0 : 0 < u.state.next_undo_segment - stack2.sum
      · rw [if_pos hkeep0, storeGet_delRange _ _ _ hwf]
        have h0 : (0 : Nat) < U64MOD := by norm_num [U64MOD]
        have hkm : u.state.next_undo_segment - stack2.sum - 1 < U64MOD := by omega
        by_cases hc : id + 1 < u.state.next_undo_segment - stack2.sum
        · rw [if_pos (⟨(@create_segment_key_ble u 0 id h0 hid).mpr (Nat.zero_le id),
              (@create_segment_key_blt u id _ hid hkm).mpr (by omega)⟩ :
                BLe (u.create_segment_key 0) (u.create_segment_key id) ∧
                BLt (u.create_segment_key id)
                  (u.create_segment_key (u.state.next_undo_segment - stack2.sum - 1))),
            if_pos ⟨hbr, hc⟩]
        · rw [if_neg (by
            rintro ⟨_, habs⟩
            have h2 := (@create_segment_key_blt u id _ hid hkm).mp habs
            omega), if_neg (by rintro ⟨_, habs⟩; exact hc habs)]
      · rw [if_neg hkeep0, if_neg (by rintro ⟨_, habs⟩; omega)]
    · have hkle : k ≤ u.state.undo_stack.length := by rw [hk]; omega
      have hlen2 : (stack2.length : Int) =
          (u.state.undo_stack.length : Int) - (k : Int) := by
        rw [hstack2, List.length_drop]
        omega
      have hkc : (k : Int) = min r u.state.revision -
          (u.state.revision - (u.state.undo_stack.length : Int)) := by
        rw [hk]
        omega
      rw [hres]
      simp only [undo_stack.commit]
      split
      · rename_i hcond
        exfalso
        have hcond2 : u.state.revision - (stack2.length : Int) <
            min r u.state.revision := hcond
        omega
      · rfl
  · have hres : u.commit store r = (u, store) := by
      simp only [undo_stack.commit]
      rw [if_neg hbr]
    have hk0 : k = 0 := by
      rw [hk]
      exact Int.toNat_of_nonpos (by omega)
    refine ⟨?_, by rw [hres], by rw [hres], ?_, ?_⟩
    · rw [hres, hstack2, hk0]
      rfl
    · intro id hid
      rw [hres]
      rw [if_neg (by rintro ⟨habs, _⟩; exact hbr habs)]
    · rw [hres]
      exact hres

/-- Witness for the amended C3 on the counterexample state: segment id 1
stays (it is referenced), and the bookkeeping matches. -/
theorem claim_C3_amended_witness :
    storeGet ((c3U.commit c3Store 1).2) (c3U.create_segment_key 1) = some [] ∧
    (c3U.commit c3Store 1).1.state.revision = 2 := by
  have h := claim_C3_amended c3U c3Store 1 (by decide) (by decide) (by decide)
  constructor
  · have h4 := h.2.2.2.1 1 (by norm_num [U64MOD])
    rw [h4, if_neg (by decide)]
    decide
  · rw [h.2.1]
    rfl

/-! ## Write session and cache -/

/-- Embeds `chain_kv::cached_value`. The intrusive `change_list_next` link is
modelled by the session's explicit change list below (spec design note:
"store the change list as ... an explicit LIFO of keys"). -/
structure cached_value where
  num_erases : Nat := 0
  orig_value : Option Bytes := none
  current_value : Option Bytes := none
  in_change_list : Bool := false
deriving DecidableEq

/-- `chain_kv::cache_map`: `std::map<bytes, cached_value, less_blob>` as a
strictly sorted association list. -/
abbrev Cache := List (Bytes × cached_value)

/-- Embeds `chain_kv::write_session` (cache plus change-list head; the chain
of `change_list_next` pointers is the key list, most recently linked
first). -/
structure write_session where
  cache : Cache := []
  change_list : List Bytes := []
deriving DecidableEq

/-- Embeds `write_session::changed`: link the entry at the head of the
change list unless it is already linked. (The source takes a valid map
iterator; an absent key leaves the session unchanged.) -/
def write_session.changed (s : write_session) (k : Bytes) : write_session :=
  match storeGet s.cache k with
  | none => s
  | some e =>
      if e.in_change_list then s
      else { cache := storePut s.cache k { e with in_change_list := true },
             change_list := k :: s.change_list }

/-- Embeds `write_session::get`: serve from the cache if present (erased
entries read as absent); otherwise read the store, caching a hit as a clean
entry and caching nothing on a miss. -/
def write_session.get (s : write_session) (store : Store) (k : Bytes) :
    Option Bytes × write_session :=
  match storeGet s.cache k with
  | some e => (e.current_value, s)
  | none =>
      match storeGet store k with
      | none => (none, s)
      | some v =>
          let e : cached_value :=
            { num_erases := 0, orig_value := some v, current_value := some v,
              in_change_list := false }
          (some v, { s with cache := storePut s.cache k e })

/-- Embeds `write_session::set`. -/
def write_session.set (s : write_session) (store : Store) (k : Bytes) (v : Bytes) :
    write_session :=
  match storeGet s.cache k with
  | some e =>
      if e.current_value ≠ some v then
        ({ s with cache := storePut s.cache k { e with current_value := some v } }).changed k
      else s
  | none =>
      match storeGet store k with
      | none =>
          let e : cached_value :=
            { num_erases := 0, orig_value := none, current_value := some v,
              in_change_list := false }
          ({ s with cache := storePut s.cache k e }).changed k
      | some orig =>
          if v ≠ orig then
            let e : cached_value :=
              { num_erases := 0, orig_value := some orig, current_value := some v,
                in_change_list := false }
            ({ s with cache := storePut s.cache k e }).changed k
          else
            let e : cached_value :=
              { num_erases := 0, orig_value := some orig, current_value := some orig,
                in_change_list := false }
            { s with cache := storePut s.cache k e }

/-- Embeds `write_session::erase`. -/
def write_session.erase (s : write_session) (store : Store) (k : Bytes) :
    write_session :=
  match storeGet s.cache k with
  | some e =>
      if e.current_value ≠ none then
        let e2 : cached_value :=
          { e with num_erases := e.num_erases + 1, current_value := none }
        ({ s with cache := storePut s.cache k e2 }).changed k
      else s
  | none =>
      match storeGet store k with
      | none =>
          let e : cached_value :=
            { num_erases := 0, orig_value := none, current_value := none,
              in_change_list := false }
          { s with cache := storePut s.cache k e }
      | some orig =>
          let e : cached_value :=
            { num_erases := 1, orig_value := some orig, current_value := none,
              in_change_list := false }
          ({ s with cache := storePut s.cache k e }).changed k

/-- Embeds `write_session::fill_cache`: insert a clean entry if the key is
not cached yet. -/
def write_session.fill_cache (s : write_session) (k v : Bytes) : write_session :=
  match storeGet s.cache k with
  | some _ => s
  | none =>
      let e : cached_value :=
        { num_erases := 0, orig_value := some v, current_value := some v,
          in_change_list := false }
      { s with cache := storePut s.cache k e }

/-- The session-visible ("merged") value of a key: the cache entry's
`current_value` when cached, the store value otherwise. -/
def mergedGet (store : Store) (s : write_session) (k : Bytes) : Option Bytes :=
  match storeGet s.cache k with
  | some e => e.current_value
  | none => storeGet store k

/-! ## write_changes -/

/-- Byte size of one serialized undo record (what the source's
`fc::datastream<size_t>` pass computes). -/
def recSize : UndoRec → Nat
  | UndoRec.remove k => 1 + (varint k.length).length + k.length
  | UndoRec.put k v =>
      1 + (varint k.length).length + k.length + (varint v.length).length + v.length

/-- Accumulator for `undo_stack::write_changes`: the batch built so far, the
current segment buffer (as records, with its byte size tracked exactly as
the source tracks `segment.size()`), and the evolving state. -/
structure WCAcc where
  batch : Batch
  seg : List UndoRec
  segSize : Nat
  state : undo_state

/-- Embeds the `write_segment` lambda: flush a non-empty buffer as a new
segment record keyed by `next_undo_segment`, increment it and the top
frame's count. -/
def wcFlush (pre : Bytes) (acc : WCAcc) : Except String WCAcc :=
  if acc.seg = [] then Except.ok acc
  else
    match encodeSegRecs acc.seg with
    | Except.error e => Except.error e
    | Except.ok bytes =>
        Except.ok
          { batch := acc.batch ++
              [BatchOp.put (append_key (segPreOf pre) acc.state.next_undo_segment) bytes],
            seg := [], segSize := 0,
            state := { acc.state with
              next_undo_segment := acc.state.next_undo_segment + 1,
              undo_stack := acc.state.undo_stack.dropLast ++
                [(acc.state.undo_stack.getLast?.getD 0) + 1] } }

/-- Embeds the `append_segment` lambda: flush first when the record would
overflow `target_segment_size`, then append it to the buffer. -/
def wcAppendRec (pre : Bytes) (target : Nat) (acc : WCAcc) (r : UndoRec) :
    Except String WCAcc := do
  let sz := recSize r
  let acc1 ← if acc.segSize + sz > target then wcFlush pre acc else Except.ok acc
  Except.ok { acc1 with seg := acc1.seg ++ [r], segSize := acc1.segSize + sz }

/-- One iteration of the change-list walk in `undo_stack::write_changes`:
for a dirty entry emit the forward put/delete and (when undo frames exist)
the reverse record. -/
def wcStep (cache : Cache) (pre : Bytes) (target : Nat) (acc : WCAcc) (k : Bytes) :
    Except String WCAcc :=
  match storeGet cache k with
  | none => Except.ok acc
  | some e =>
      if e.orig_value ≠ e.current_value then
        let acc1 := { acc with batch := acc.batch ++
          [match e.current_value with
           | some v => BatchOp.put k v
           | none => BatchOp.del k] }
        if acc1.state.undo_stack = [] then Except.ok acc1
        else
          match e.orig_value with
          | some ov => wcAppendRec pre target acc1 (UndoRec.put k ov)
          | none => wcAppendRec pre target acc1 (UndoRec.remove k)
      else Except.ok acc

/-- Embeds `undo_stack::write_changes`: walk the change list, flush the
residual segment, append the state record, apply the whole batch
atomically. -/
def undo_stack.write_changes (u : undo_stack) (store : Store) (cache : Cache)
    (change_list : List Bytes) : Except String (undo_stack × Store) := do
  let acc0 : WCAcc := { batch := [], seg := [], segSize := 0, state := u.state }
  let acc1 ← change_list.foldlM (wcStep cache u.undoPre u.target_segment_size) acc0
  let acc2 ← wcFlush u.undoPre acc1
  let u' := { u with state := acc2.state }
  Except.ok (u', applyBatch store (u'.write_state_batch acc2.batch))

/-- Embeds `write_session::write_changes`. -/
def write_session.write_changes (s : write_session) (u : undo_stack)
    (store : Store) : Except String (undo_stack × Store) :=
  u.write_changes store s.cache s.change_list

/-! ## Session invariants (claim C7) -/

/-- The cache/change-list invariants of a `write_session` (spec invariants
C1/C2 plus well-ordering of the map). -/
structure sessionWF (s : write_session) : Prop where
  wf : storeWF s.cache
  nodup : s.change_list.Nodup
  mem_iff : ∀ k, k ∈ s.change_list ↔
    ∃ e, storeGet s.cache k = some e ∧ e.in_change_list = true
  dirty_linked : ∀ k e, storeGet s.cache k = some e →
    e.orig_value ≠ e.current_value → e.in_change_list = true

/-- What one session step may do to the cache, as needed by claim C7: no key
disappears and no `num_erases` decreases. -/
def cacheMono (c c' : Cache) : Prop :=
  (∀ j, j ∈ storeKeys c → j ∈ storeKeys c') ∧
  (∀ j e e', storeGet c j = some e → storeGet c' j = some e' →
    e.num_erases ≤ e'.num_erases)

theorem cacheMono_refl (c : Cache) : cacheMono c c := by
  refine ⟨fun j h => h, fun j e e' h1 h2 => ?_⟩
  rw [h1] at h2
  cases h2
  exact le_refl _

theorem cacheMono_trans {a b c : Cache} (h1 : cacheMono a b) (h2 : cacheMono b c)
    (hb : ∀ j, j ∈ storeKeys b → ∃ e, storeGet b j = some e) :
    cacheMono a c := by
  refine ⟨fun j h => h2.1 j (h1.1 j h), fun j e e' hf1 hf2 => ?_⟩
  obtain ⟨eb, hfb⟩ := hb j (h1.1 j (storeGet_mem hf1))
  exact le_trans (h1.2 j e eb hf1 hfb) (h2.2 j eb e' hfb hf2)

theorem mem_storeKeys_get {α : Type} {c : List (Bytes × α)} {j : Bytes}
    (h : j ∈ storeKeys c) : ∃ e, storeGet c j = some e := by
  induction c with
  | nil => simp [storeKeys] at h
  | cons p rest ih =>
    obtain ⟨k', v'⟩ := p
    by_cases hk : j = k'
    · subst hk
      exact ⟨v', by simp [storeGet]⟩
    · simp [storeKeys, hk] at h
      obtain ⟨e, he⟩ := ih (by simpa [storeKeys] using h)
      exact ⟨e, by simpa [storeGet, hk] using he⟩

theorem changed_eq_none {s : write_session} {k : Bytes}
    (h : storeGet s.cache k = none) : s.changed k = s := by
  unfold write_session.changed
  rw [h]

theorem changed_eq_linked {s : write_session} {k : Bytes} {e : cached_value}
    (h : storeGet s.cache k = some e) (hf : e.in_change_list = true) :
    s.changed k = s := by
  unfold write_session.changed
  rw [h]
  simp [hf]

theorem changed_eq_link {s : write_session} {k : Bytes} {e : cached_value}
    (h : storeGet s.cache k = some e) (hf : e.in_change_list = false) :
    s.changed k =
      { cache := storePut s.cache k { e with in_change_list := true },
        change_list := k :: s.change_list } := by
  unfold write_session.changed
  rw [h]
  simp [hf]

/-- `changed` (re)establishes the invariants, removes nothing, and keeps
every erase counter. The dirty-implies-linked hypothesis is only needed for
keys other than the one being linked, so callers may apply this right after
dirtying `k`. -/
theorem changed_spec (s : write_session) (k : Bytes)
    (hwf : storeWF s.cache) (hnd : s.change_list.Nodup)
    (hmi : ∀ j, j ∈ s.change_list ↔
      ∃ e, storeGet s.cache j = some e ∧ e.in_change_list = true)
    (hdl : ∀ j e, storeGet s.cache j = some e →
      e.orig_value ≠ e.current_value → j ≠ k → e.in_change_list = true) :
    sessionWF (s.changed k) ∧ cacheMono s.cache (s.changed k).cache ∧
      (s.changed k).change_list.Sublist (k :: s.change_list) ∧
      s.change_list.Sublist (s.changed k).change_list := by
  cases hfind : storeGet s.cache k with
  | none =>
    rw [changed_eq_none hfind]
    refine ⟨⟨hwf, hnd, hmi, ?_⟩, cacheMono_refl _,
      List.sublist_cons_self _ _, List.Sublist.refl _⟩
    intro j e hfj hdj
    by_cases hj : j = k
    · subst hj; rw [hfind] at hfj; cases hfj
    · exact hdl j e hfj hdj hj
  | some e =>
    cases hflag : e.in_change_list with
    | true =>
      rw [changed_eq_linked hfind hflag]
      refine ⟨⟨hwf, hnd, hmi, ?_⟩, cacheMono_refl _,
        List.sublist_cons_self _ _, List.Sublist.refl _⟩
      intro j ej hfj hdj
      by_cases hj : j = k
      · subst hj; rw [hfind] at hfj; cases hfj; exact hflag
      · exact hdl j ej hfj hdj hj
    | false =>
      rw [changed_eq_link hfind hflag]
      have hknotin : k ∉ s.change_list := by
        intro hmem
        obtain ⟨e2, hf2, hfl2⟩ := (hmi k).mp hmem
        rw [hfind] at hf2
        cases hf2
        rw [hflag] at hfl2
        cases hfl2
      refine ⟨⟨?_, ?_, ?_, ?_⟩, ⟨?_, ?_⟩, List.Sublist.refl _, List.sublist_cons_self _ _⟩
      · exact storeWF_put k _ hwf
      · exact List.nodup_cons.mpr ⟨hknotin, hnd⟩
      · intro j
        by_cases hj : j = k
        · subst hj
          simp only [List.mem_cons, true_or, true_iff]
          exact ⟨_, storeGet_put_self _ _ _, rfl⟩
        · simp only [List.mem_cons, hj, false_or]
          rw [storeGet_put_other _ hj]
          exact hmi j
      · intro j ej hfj hdirty
        by_cases hj : j = k
        · subst hj
          rw [storeGet_put_self] at hfj
          cases hfj
          rfl
        · rw [storeGet_put_other _ hj] at hfj
          exact hdl j ej hfj hdirty hj
      · intro j hj
        exact mem_storeKeys_put.mpr (Or.inr hj)
      · intro j ej ej' hfj hfj'
        by_cases hj : j = k
        · subst hj
          rw [hfind] at hfj
          cases hfj
          rw [storeGet_put_self] at hfj'
          cases hfj'
          exact le_refl _
        · rw [storeGet_put_other _ hj, hfj] at hfj'
          cases hfj'
          exact le_refl _

theorem set_eq_found_ne {s : write_session} {store : Store} {k v : Bytes}
    {e : cached_value} (h : storeGet s.cache k = some e)
    (hne : e.current_value ≠ some v) :
    s.set store k v =
      ({ s with cache := storePut s.cache k { e with current_value := some v } }).changed k := by
  unfold write_session.set
  rw [h]
  simp [hne]

theorem set_eq_found_eq {s : write_session} {store : Store} {k v : Bytes}
    {e : cached_value} (h : storeGet s.cache k = some e)
    (heq : e.current_value = some v) :
    s.set store k v = s := by
  unfold write_session.set
  rw [h]
  simp [heq]

theorem set_eq_miss_none {s : write_session} {store : Store} {k v : Bytes}
    (h : storeGet s.cache k = none) (hs : storeGet store k = none) :
    s.set store k v =
      ({ s with cache := storePut s.cache k ⟨0, none, some v, false⟩ }).changed k := by
  unfold write_session.set
  rw [h, hs]

theorem set_eq_miss_ne {s : write_session} {store : Store} {k v orig : Bytes}
    (h : storeGet s.cache k = none) (hs : storeGet store k = some orig)
    (hne : v ≠ orig) :
    s.set store k v =
      ({ s with cache := storePut s.cache k ⟨0, some orig, some v, false⟩ }).changed k := by
  unfold write_session.set
  rw [h, hs]
  simp [hne]

theorem set_eq_miss_eq {s : write_session} {store : Store} {k v orig : Bytes}
    (h : storeGet s.cache k = none) (hs : storeGet store k = some orig)
    (heq : v = orig) :
    s.set store k v =
      { s with cache := storePut s.cache k ⟨0, some orig, some orig, false⟩ } := by
  unfold write_session.set
  rw [h, hs]
  simp [heq]

theorem erase_eq_found_some {s : write_session} {store : Store} {k : Bytes}
    {e : cached_value} (h : storeGet s.cache k = some e)
    (hne : e.current_value ≠ none) :
    s.erase store k =
      ({ s with cache := storePut s.cache k ⟨e.num_erases + 1, e.orig_value, none, e.in_change_list⟩ }).changed k := by
  unfold write_session.erase
  rw [h]
  simp [hne]

theorem erase_eq_found_none {s : write_session} {store : Store} {k : Bytes}
    {e : cached_value} (h : storeGet s.cache k = some e)
    (heq : e.current_value = none) :
    s.erase store k = s := by
  unfold write_session.erase
  rw [h]
  simp [heq]

theorem erase_eq_miss_none {s : write_session} {store : Store} {k : Bytes}
    (h : storeGet s.cache k = none) (hs : storeGet store k = none) :
    s.erase store k =
      { s with cache := storePut s.cache k ⟨0, none, none, false⟩ } := by
  unfold write_session.erase
  rw [h, hs]

theorem erase_eq_miss_some {s : write_session} {store : Store} {k orig : Bytes}
    (h : storeGet s.cache k = none) (hs : storeGet store k = some orig) :
    s.erase store k =
      ({ s with cache := storePut s.cache k ⟨1, some orig, none, false⟩ }).changed k := by
  unfold write_session.erase
  rw [h, hs]

theorem get_eq_found {s : write_session} {store : Store} {k : Bytes}
    {e : cached_value} (h : storeGet s.cache k = some e) :
    s.get store k = (e.current_value, s) := by
  unfold write_session.get
  rw [h]

theorem get_eq_miss_none {s : write_session} {store : Store} {k : Bytes}
    (h : storeGet s.cache k = none) (hs : storeGet store k = none) :
    s.get store k = (none, s) := by
  unfold write_session.get
  rw [h, hs]

theorem get_eq_miss_some {s : write_session} {store : Store} {k v : Bytes}
    (h : storeGet s.cache k = none) (hs : storeGet store k = some v) :
    s.get store k = (some v,
      { s with cache := storePut s.cache k ⟨0, some v, some v, false⟩ }) := by
  unfold write_session.get
  rw [h, hs]

theorem fill_eq_found {s : write_session} {k v : Bytes} {e : cached_value}
    (h : storeGet s.cache k = some e) :
    s.fill_cache k v = s := by
  unfold write_session.fill_cache
  rw [h]

theorem fill_eq_miss {s : write_session} {k v : Bytes}
    (h : storeGet s.cache k = none) :
    s.fill_cache k v =
      { s with cache := storePut s.cache k ⟨0, some v, some v, false⟩ } := by
  unfold write_session.fill_cache
  rw [h]

/-- Replacing an existing entry (without touching its change-list flag, and
without decreasing `num_erases`) keeps everything `changed` needs, except
possibly dirty-implies-linked at the replaced key itself. -/
theorem sessionStep_update {s : write_session} {k : Bytes} {e f : cached_value}
    (h : sessionWF s) (hfind : storeGet s.cache k = some e)
    (hflag : f.in_change_list = e.in_change_list)
    (hmono : e.num_erases ≤ f.num_erases) :
    storeWF (storePut s.cache k f) ∧
    (∀ j, j ∈ s.change_list ↔
      ∃ e2, storeGet (storePut s.cache k f) j = some e2 ∧ e2.in_change_list = true) ∧
    (∀ j e2, storeGet (storePut s.cache k f) j = some e2 →
      e2.orig_value ≠ e2.current_value → j ≠ k → e2.in_change_list = true) ∧
    cacheMono s.cache (storePut s.cache k f) := by
  refine ⟨storeWF_put k _ h.wf, ?_, ?_, ⟨?_, ?_⟩⟩
  · intro j
    by_cases hj : j = k
    · subst hj
      rw [storeGet_put_self]
      constructor
      · intro hmem
        obtain ⟨e2, hf2, hfl2⟩ := (h.mem_iff j).mp hmem
        rw [hfind] at hf2
        cases hf2
        exact ⟨f, rfl, by rw [hflag]; exact hfl2⟩
      · rintro ⟨e2, he2, hfl2⟩
        cases he2
        exact (h.mem_iff j).mpr ⟨e, hfind, by rw [← hflag]; exact hfl2⟩
    · rw [storeGet_put_other _ hj]
      exact h.mem_iff j
  · intro j e2 hfj hdj hjk
    rw [storeGet_put_other _ hjk] at hfj
    exact h.dirty_linked j e2 hfj hdj
  · intro j hj
    exact mem_storeKeys_put.mpr (Or.inr hj)
  · intro j ej ej' hfj hfj'
    by_cases hj : j = k
    · subst hj
      rw [hfind] at hfj
      cases hfj
      rw [storeGet_put_self] at hfj'
      cases hfj'
      exact hmono
    · rw [storeGet_put_other _ hj, hfj] at hfj'
      cases hfj'
      exact le_refl _

/-- Inserting a fresh unlinked entry keeps everything `changed` needs,
except possibly dirty-implies-linked at the new key itself. -/
theorem sessionStep_insert {s : write_session} {k : Bytes} {f : cached_value}
    (h : sessionWF s) (hfind : storeGet s.cache k = none)
    (hflag : f.in_change_list = false) :
    storeWF (storePut s.cache k f) ∧
    (∀ j, j ∈ s.change_list ↔
      ∃ e2, storeGet (storePut s.cache k f) j = some e2 ∧ e2.in_change_list = true) ∧
    (∀ j e2, storeGet (storePut s.cache k f) j = some e2 →
      e2.orig_value ≠ e2.current_value → j ≠ k → e2.in_change_list = true) ∧
    cacheMono s.cache (storePut s.cache k f) := by
  refine ⟨storeWF_put k _ h.wf, ?_, ?_, ⟨?_, ?_⟩⟩
  · intro j
    by_cases hj : j = k
    · subst hj
      rw [storeGet_put_self]
      constructor
      · intro hmem
        obtain ⟨e2, hf2, _⟩ := (h.mem_iff j).mp hmem
        rw [hfind] at hf2
        cases hf2
      · rintro ⟨e2, he2, hfl2⟩
        cases he2
        rw [hflag] at hfl2
        cases hfl2
    · rw [storeGet_put_other _ hj]
      exact h.mem_iff j
  · intro j e2 hfj hdj hjk
    rw [storeGet_put_other _ hjk] at hfj
    exact h.dirty_linked j e2 hfj hdj
  · intro j hj
    exact mem_storeKeys_put.mpr (Or.inr hj)
  · intro j ej ej' hfj hfj'
    by_cases hj : j = k
    · subst hj
      rw [hfind] at hfj
      cases hfj
    · rw [storeGet_put_other _ hj, hfj] at hfj'
      cases hfj'
      exact le_refl _

theorem set_spec (store : Store) (s : write_session) (k v : Bytes)
    (h : sessionWF s) :
    sessionWF (s.set store k v) ∧ cacheMono s.cache (s.set store k v).cache := by
  cases hfind : storeGet s.cache k with
  | some e =>
    by_cases hcur : e.current_value = some v
    · rw [set_eq_found_eq hfind hcur]
      exact ⟨h, cacheMono_refl _⟩
    · rw [set_eq_found_ne hfind hcur]
      obtain ⟨hwf1, hmi1, hdl1, hmono1⟩ :=
        sessionStep_update h hfind (f := { e with current_value := some v }) rfl (le_refl _)
      obtain ⟨hswf, hmono2, _, _⟩ :=
        changed_spec { s with cache := storePut s.cache k { e with current_value := some v } }
          k hwf1 h.nodup hmi1 hdl1
      exact ⟨hswf, cacheMono_trans hmono1 hmono2 (fun j hj => mem_storeKeys_get hj)⟩
  | none =>
    cases hstore : storeGet store k with
    | none =>
      rw [set_eq_miss_none hfind hstore]
      obtain ⟨hwf1, hmi1, hdl1, hmono1⟩ :=
        sessionStep_insert h hfind (f := ⟨0, none, some v, false⟩) rfl
      obtain ⟨hswf, hmono2, _, _⟩ :=
        changed_spec { s with cache := storePut s.cache k ⟨0, none, some v, false⟩ }
          k hwf1 h.nodup hmi1 hdl1
      exact ⟨hswf, cacheMono_trans hmono1 hmono2 (fun j hj => mem_storeKeys_get hj)⟩
    | some orig =>
      by_cases hvo : v = orig
      · rw [set_eq_miss_eq hfind hstore hvo]
        obtain ⟨hwf1, hmi1, hdl1, hmono1⟩ :=
          sessionStep_insert h hfind (f := ⟨0, some orig, some orig, false⟩) rfl
        refine ⟨⟨hwf1, h.nodup, hmi1, ?_⟩, hmono1⟩
        intro j e2 hfj hdj
        by_cases hj : j = k
        · subst hj
          rw [storeGet_put_self] at hfj
          cases hfj
          exact absurd rfl hdj
        · exact hdl1 j e2 hfj hdj hj
      · rw [set_eq_miss_ne hfind hstore hvo]
        obtain ⟨hwf1, hmi1, hdl1, hmono1⟩ :=
          sessionStep_insert h hfind (f := ⟨0, some orig, some v, false⟩) rfl
        obtain ⟨hswf, hmono2, _, _⟩ :=
          changed_spec { s with cache := storePut s.cache k ⟨0, some orig, some v, false⟩ }
            k hwf1 h.nodup hmi1 hdl1
        exact ⟨hswf, cacheMono_trans hmono1 hmono2 (fun j hj => mem_storeKeys_get hj)⟩

theorem erase_spec (store : Store) (s : write_session) (k : Bytes)
    (h : sessionWF s) :
    sessionWF (s.erase store k) ∧ cacheMono s.cache (s.erase store k).cache := by
  cases hfind : storeGet s.cache k with
  | some e =>
    by_cases hcur : e.current_value = none
    · rw [erase_eq_found_none hfind hcur]
      exact ⟨h, cacheMono_refl _⟩
    · rw [erase_eq_found_some hfind hcur]
      obtain ⟨hwf1, hmi1, hdl1, hmono1⟩ :=
        sessionStep_update h hfind
          (f := ⟨e.num_erases + 1, e.orig_value, none, e.in_change_list⟩) rfl
          (Nat.le_succ _)
      obtain ⟨hswf, hmono2, _, _⟩ :=
        changed_spec
          { s with cache := storePut s.cache k ⟨e.num_erases + 1, e.orig_value, none, e.in_change_list⟩ }
          k hwf1 h.nodup hmi1 hdl1
      exact ⟨hswf, cacheMono_trans hmono1 hmono2 (fun j hj => mem_storeKeys_get hj)⟩
  | none =>
    cases hstore : storeGet store k with
    | none =>
      rw [erase_eq_miss_none hfind hstore]
      obtain ⟨hwf1, hmi1, hdl1, hmono1⟩ :=
        sessionStep_insert h hfind (f := ⟨0, none, none, false⟩) rfl
      refine ⟨⟨hwf1, h.nodup, hmi1, ?_⟩, hmono1⟩
      intro j e2 hfj hdj
      by_cases hj : j = k
      · subst hj
        rw [storeGet_put_self] at hfj
        cases hfj
        exact absurd rfl hdj
      · exact hdl1 j e2 hfj hdj hj
    | some orig =>
      rw [erase_eq_miss_some hfind hstore]
      obtain ⟨hwf1, hmi1, hdl1, hmono1⟩ :=
        sessionStep_insert h hfind (f := ⟨1, some orig, none, false⟩) rfl
      obtain ⟨hswf, hmono2, _, _⟩ :=
        changed_spec { s with cache := storePut s.cache k ⟨1, some orig, none, false⟩ }
          k hwf1 h.nodup hmi1 hdl1
      exact ⟨hswf, cacheMono_trans hmono1 hmono2 (fun j hj => mem_storeKeys_get hj)⟩

theorem get_spec (store : Store) (s : write_session) (k : Bytes)
    (h : sessionWF s) :
    sessionWF (s.get store k).2 ∧ cacheMono s.cache (s.get store k).2.cache := by
  cases hfind : storeGet s.cache k with
  | some e =>
    rw [get_eq_found hfind]
    exact ⟨h, cacheMono_refl _⟩
  | none =>
    cases hstore : storeGet store k with
    | none =>
      rw [get_eq_miss_none hfind hstore]
      exact ⟨h, cacheMono_refl _⟩
    | some v =>
      rw [get_eq_miss_some hfind hstore]
      obtain ⟨hwf1, hmi1, hdl1, hmono1⟩ :=
        sessionStep_insert h hfind (f := ⟨0, some v, some v, false⟩) rfl
      refine ⟨⟨hwf1, h.nodup, hmi1, ?_⟩, hmono1⟩
      intro j e2 hfj hdj
      by_cases hj : j = k
      · subst hj
        rw [storeGet_put_self] at hfj
        cases hfj
        exact absurd rfl hdj
      · exact hdl1 j e2 hfj hdj hj

theorem fill_spec (s : write_session) (k v : Bytes) (h : sessionWF s) :
    sessionWF (s.fill_cache k v) ∧ cacheMono s.cache (s.fill_cache k v).cache := by
  cases hfind : storeGet s.cache k with
  | some e =>
    rw [fill_eq_found hfind]
    exact ⟨h, cacheMono_refl _⟩
  | none =>
    rw [fill_eq_miss hfind]
    obtain ⟨hwf1, hmi1, hdl1, hmono1⟩ :=
      sessionStep_insert h hfind (f := ⟨0, some v, some v, false⟩) rfl
    refine ⟨⟨hwf1, h.nodup, hmi1, ?_⟩, hmono1⟩
    intro j e2 hfj hdj
    by_cases hj : j = k
    · subst hj
      rw [storeGet_put_self] at hfj
      cases hfj
      exact absurd rfl hdj
    · exact hdl1 j e2 hfj hdj hj

/-- Claim C7: every write_session operation (get, set, erase, fill_cache,
changed) preserves the cache invariants — every dirty entry (orig differs
from current) is linked into the change list, which lists each key at most
once (`sessionWF`); no cache entry is ever removed; and no entry's
`num_erases` decreases (`cacheMono`). -/
theorem claim_C7 :
    ∀ (store : Store) (s : write_session) (k v : Bytes), sessionWF s →
      (sessionWF (s.get store k).2 ∧ cacheMono s.cache (s.get store k).2.cache) ∧
      (sessionWF (s.set store k v) ∧ cacheMono s.cache (s.set store k v).cache) ∧
      (sessionWF (s.erase store k) ∧ cacheMono s.cache (s.erase store k).cache) ∧
      (sessionWF (s.fill_cache k v) ∧ cacheMono s.cache (s.fill_cache k v).cache) ∧
      (sessionWF (s.changed k) ∧ cacheMono s.cache (s.changed k).cache) := by
  intro store s k v h
  have hch := changed_spec s k h.wf h.nodup h.mem_iff
    (fun j e hf hd _ => h.dirty_linked j e hf hd)
  exact ⟨get_spec store s k h, set_spec store s k v h, erase_spec store s k h,
    fill_spec s k v h, hch.1, hch.2.1⟩

/-- Witness for C7: one concrete `set` on a fresh session over a one-key
store keeps the invariants. -/
theorem claim_C7_witness :
    sessionWF (write_session.set {} [([byteOf 0x20], [byteOf 1])] [byteOf 0x20] [byteOf 2]) := by
  have h := claim_C7 [([byteOf 0x20], [byteOf 1])] {} [byteOf 0x20] [byteOf 2]
    ⟨by constructor, by constructor, by simp [storeGet], by simp [storeGet]⟩
  exact h.2.1.1

/-! ## Session-visible values (claims C10, C1) -/

theorem changed_cache_find (s : write_session) (k j : Bytes) :
    storeGet (s.changed k).cache j = storeGet s.cache j ∨
    (j = k ∧ ∃ e, storeGet s.cache k = some e ∧
      storeGet (s.changed k).cache j = some { e with in_change_list := true }) := by
  cases hfind : storeGet s.cache k with
  | none => rw [changed_eq_none hfind]; exact Or.inl rfl
  | some e =>
    cases hflag : e.in_change_list with
    | true => rw [changed_eq_linked hfind hflag]; exact Or.inl rfl
    | false =>
      rw [changed_eq_link hfind hflag]
      by_cases hj : j = k
      · subst hj
        refine Or.inr ⟨rfl, e, rfl, ?_⟩
        simp [storeGet_put_self]
      · exact Or.inl (storeGet_put_other _ hj)

theorem changed_merged (store : Store) (s : write_session) (k j : Bytes) :
    mergedGet store (s.changed k) j = mergedGet store s j := by
  rcases changed_cache_find s k j with h | ⟨rfl, e, hfind, h⟩
  · unfold mergedGet
    rw [h]
  · unfold mergedGet
    rw [h, hfind]

theorem changed_change_list_eq {s : write_session} {k : Bytes}
    (hmem : ∀ e, storeGet s.cache k = some e → e.in_change_list = true) :
    (s.changed k).change_list = s.change_list := by
  cases hfind : storeGet s.cache k with
  | none => rw [changed_eq_none hfind]
  | some e => rw [changed_eq_linked hfind (hmem e hfind)]

theorem set_merged (store : Store) (s : write_session) (k v j : Bytes) :
    mergedGet store (s.set store k v) j =
      if j = k then some v else mergedGet store s j := by
  cases hfind : storeGet s.cache k with
  | some e =>
    by_cases hcur : e.current_value = some v
    · rw [set_eq_found_eq hfind hcur]
      by_cases hj : j = k
      · subst hj; simp [mergedGet, hfind, hcur]
      · simp [hj]
    · rw [set_eq_found_ne hfind hcur, changed_merged]
      by_cases hj : j = k
      · subst hj; simp [mergedGet, storeGet_put_self]
      · simp [hj, mergedGet, storeGet_put_other _ hj]
  | none =>
    cases hstore : storeGet store k with
    | none =>
      rw [set_eq_miss_none hfind hstore, changed_merged]
      by_cases hj : j = k
      · subst hj; simp [mergedGet, storeGet_put_self]
      · simp [hj, mergedGet, storeGet_put_other _ hj]
    | some orig =>
      by_cases hvo : v = orig
      · rw [set_eq_miss_eq hfind hstore hvo]
        by_cases hj : j = k
        · subst hj; simp [mergedGet, storeGet_put_self, hvo]
        · simp [hj, mergedGet, storeGet_put_other _ hj]
      · rw [set_eq_miss_ne hfind hstore hvo, changed_merged]
        by_cases hj : j = k
        · subst hj; simp [mergedGet, storeGet_put_self]
        · simp [hj, mergedGet, storeGet_put_other _ hj]

theorem erase_merged (store : Store) (s : write_session) (k j : Bytes) :
    mergedGet store (s.erase store k) j =
      if j = k then none else mergedGet store s j := by
  cases hfind : storeGet s.cache k with
  | some e =>
    by_cases hcur : e.current_value = none
    · rw [erase_eq_found_none hfind hcur]
      by_cases hj : j = k
      · subst hj; simp [mergedGet, hfind, hcur]
      · simp [hj]
    · rw [erase_eq_found_some hfind hcur, changed_merged]
      by_cases hj : j = k
      · subst hj; simp [mergedGet, storeGet_put_self]
      · simp [hj, mergedGet, storeGet_put_other _ hj]
  | none =>
    cases hstore : storeGet store k with
    | none =>
      rw [erase_eq_miss_none hfind hstore]
      by_cases hj : j = k
      · subst hj; simp [mergedGet, storeGet_put_self]
      · simp [hj, mergedGet, storeGet_put_other _ hj]
    | some orig =>
      rw [erase_eq_miss_some hfind hstore, changed_merged]
      by_cases hj : j = k
      · subst hj; simp [mergedGet, storeGet_put_self]
      · simp [hj, mergedGet, storeGet_put_other _ hj]

/-- Claim C10: `get` and `fill_cache` change no session-visible value, touch
no existing entry, link nothing into the change list, and only ever insert
clean unlinked entries; consequently `write_changes` after only such calls
(change list still empty) writes nothing but the state record. (The
`fill_cache` part assumes the value passed is the store's value for the key,
which is how the source always calls it — from the rocksdb iterator.) -/
theorem claim_C10 (store : Store) (s : write_session) (k v : Bytes)
    (u : undo_stack) :
    ((s.get store k).2.change_list = s.change_list ∧
     (∀ j, mergedGet store (s.get store k).2 j = mergedGet store s j) ∧
     (∀ j e, storeGet s.cache j = some e → storeGet (s.get store k).2.cache j = some e) ∧
     (∀ j e', storeGet (s.get store k).2.cache j = some e' → storeGet s.cache j = none →
        e'.orig_value = e'.current_value ∧ e'.in_change_list = false)) ∧
    (storeGet store k = some v →
      ((s.fill_cache k v).change_list = s.change_list ∧
       (∀ j, mergedGet store (s.fill_cache k v) j = mergedGet store s j) ∧
       (∀ j e, storeGet s.cache j = some e → storeGet (s.fill_cache k v).cache j = some e) ∧
       (∀ j e', storeGet (s.fill_cache k v).cache j = some e' → storeGet s.cache j = none →
          e'.orig_value = e'.current_value ∧ e'.in_change_list = false))) ∧
    (s.change_list = [] →
      s.write_changes u store =
        Except.ok (u, storePut store (statePreOf u.undoPre) (encode_state u.state)) ∧
      ∀ j, j ≠ statePreOf u.undoPre →
        storeGet (storePut store (statePreOf u.undoPre) (encode_state u.state)) j =
          storeGet store j) := by
  refine ⟨?_, ?_, ?_⟩
  · cases hfind : storeGet s.cache k with
    | some e =>
      rw [get_eq_found hfind]
      exact ⟨rfl, fun j => rfl, fun j e2 h => h, fun j e' h1 h2 => by rw [h1] at h2; cases h2⟩
    | none =>
      cases hstore : storeGet store k with
      | none =>
        rw [get_eq_miss_none hfind hstore]
        exact ⟨rfl, fun j => rfl, fun j e2 h => h, fun j e' h1 h2 => by rw [h1] at h2; cases h2⟩
      | some w =>
        rw [get_eq_miss_some hfind hstore]
        refine ⟨rfl, ?_, ?_, ?_⟩
        · intro j
          by_cases hj : j = k
          · subst hj; simp [mergedGet, storeGet_put_self, hfind, hstore]
          · simp [mergedGet, storeGet_put_other _ hj]
        · intro j e2 hj
          by_cases hjk : j = k
          · subst hjk; rw [hfind] at hj; cases hj
          · rw [storeGet_put_other _ hjk]; exact hj
        · intro j e' h1 h2
          by_cases hjk : j = k
          · subst hjk
            rw [storeGet_put_self] at h1
            cases h1
            exact ⟨rfl, rfl⟩
          · rw [storeGet_put_other _ hjk, h2] at h1; cases h1
  · intro hv
    cases hfind : storeGet s.cache k with
    | some e =>
      rw [fill_eq_found hfind]
      exact ⟨rfl, fun j => rfl, fun j e2 h => h, fun j e' h1 h2 => by rw [h1] at h2; cases h2⟩
    | none =>
      rw [fill_eq_miss hfind]
      refine ⟨rfl, ?_, ?_, ?_⟩
      · intro j
        by_cases hj : j = k
        · subst hj; simp [mergedGet, storeGet_put_self, hfind, hv]
        · simp [mergedGet, storeGet_put_other _ hj]
      · intro j e2 hj
        by_cases hjk : j = k
        · subst hjk; rw [hfind] at hj; cases hj
        · rw [storeGet_put_other _ hjk]; exact hj
      · intro j e' h1 h2
        by_cases hjk : j = k
        · subst hjk
          rw [storeGet_put_self] at h1
          cases h1
          exact ⟨rfl, rfl⟩
        · rw [storeGet_put_other _ hjk, h2] at h1; cases h1
  · intro hempty
    constructor
    · unfold write_session.write_changes undo_stack.write_changes
      rw [hempty]
      rfl
    · intro j hj
      exact storeGet_put_other _ hj

/-- Witness for C10 on a one-key store and a fresh session. -/
theorem claim_C10_witness :
    storeGet (write_session.get ({} : write_session) [([byteOf 0x00], [])] [byteOf 0x00]).2.cache
        [byteOf 0x00] = some ⟨0, some [], some [], false⟩ ∧
    (write_session.write_changes {} { undoPre := [byteOf 0x10], state := {} }
        [([byteOf 0x00], [])]) =
      Except.ok ({ undoPre := [byteOf 0x10], state := {} },
        storePut [([byteOf 0x00], [])] (statePreOf [byteOf 0x10]) (encode_state {})) := by
  have h := claim_C10 [([byteOf 0x00], [])] {} [byteOf 0x00] []
    { undoPre := [byteOf 0x10], state := {} }
  constructor
  · decide
  · exact (h.2.2 rfl).1

/-! ## Batch effects -/

theorem storeKeys_del_sublist {α : Type} (s : List (Bytes × α)) (k : Bytes) :
    (storeKeys (storeDel s k)).Sublist (storeKeys s) := by
  induction s with
  | nil => simp [storeDel]
  | cons e rest ih =>
    obtain ⟨k', v'⟩ := e
    by_cases hk : k = k'
    · simp [storeDel, hk, storeKeys]
    · simp only [storeDel, if_neg hk, storeKeys, List.map_cons]
      exact List.Sublist.cons₂ _ ih

theorem storeWF_del {α : Type} {s : List (Bytes × α)} (k : Bytes) (h : storeWF s) :
    storeWF (storeDel s k) :=
  List.Pairwise.sublist (storeKeys_del_sublist s k) h

theorem storeGet_del {α : Type} {s : List (Bytes × α)} (k j : Bytes)
    (hwf : storeWF s) :
    storeGet (storeDel s k) j = if j = k then none else storeGet s j := by
  induction s with
  | nil => simp [storeDel, storeGet]
  | cons e rest ih =>
    obtain ⟨k', v'⟩ := e
    simp only [storeWF, storeKeys, List.map_cons, List.pairwise_cons] at hwf
    by_cases hk : k = k'
    · subst hk
      rw [show storeDel ((k, v') :: rest) k = rest by simp [storeDel]]
      by_cases hj : j = k
      · subst hj
        rw [if_pos rfl]
        apply storeGet_none_of_not_mem
        intro hmem
        exact blt_irrefl j (hwf.1 j hmem)
      · rw [if_neg hj, storeGet, if_neg hj]
    · rw [show storeDel ((k', v') :: rest) k = (k', v') :: storeDel rest k by
        simp [storeDel, hk]]
      by_cases hj : j = k'
      · subst hj
        rw [storeGet, if_pos rfl, if_neg (fun h2 => hk h2.symm), storeGet, if_pos rfl]
      · rw [storeGet, if_neg hj, ih hwf.2, storeGet, if_neg hj]

theorem storeWF_applyOp {s : Store} (o : BatchOp) (h : storeWF s) :
    storeWF (applyOp s o) := by
  cases o with
  | put k v => exact storeWF_put k v h
  | del k => exact storeWF_del k h
  | delRange lo hi => exact storeWF_delRange lo hi h

/-- Per-key effect of one batch operation. -/
def opEffect (j : Bytes) (cur : Option Bytes) : BatchOp → Option Bytes
  | BatchOp.put k v => if j = k then some v else cur
  | BatchOp.del k => if j = k then none else cur
  | BatchOp.delRange lo hi => if BLe lo j ∧ BLt j hi then none else cur

/-- Per-key effect of a whole batch, applied left to right. -/
def batchEffect (j : Bytes) (b : Batch) (init : Option Bytes) : Option Bytes :=
  b.foldl (opEffect j) init

theorem batchEffect_append (j : Bytes) (b1 b2 : Batch) (init : Option Bytes) :
    batchEffect j (b1 ++ b2) init = batchEffect j b2 (batchEffect j b1 init) := by
  unfold batchEffect
  rw [List.foldl_append]

theorem storeGet_applyOp {s : Store} (o : BatchOp) (j : Bytes) (hwf : storeWF s) :
    storeGet (applyOp s o) j = opEffect j (storeGet s j) o := by
  cases o with
  | put k v =>
    by_cases hj : j = k
    · subst hj
      simp [applyOp, opEffect, storeGet_put_self]
    · simp [applyOp, opEffect, hj, storeGet_put_other _ hj]
  | del k =>
    simp [applyOp, opEffect, storeGet_del k j hwf]
  | delRange lo hi =>
    simp [applyOp, opEffect, storeGet_delRange lo hi j hwf]

theorem storeGet_applyBatch {s : Store} (b : Batch) (j : Bytes) (hwf : storeWF s) :
    storeGet (applyBatch s b) j = batchEffect j b (storeGet s j) := by
  induction b generalizing s with
  | nil => rfl
  | cons o rest ih =>
    show storeGet (applyBatch (applyOp s o) rest) j = _
    rw [ih (storeWF_applyOp o hwf)]
    unfold batchEffect
    simp only [List.foldl_cons]
    rw [storeGet_applyOp o j hwf]

theorem storeWF_applyBatch {s : Store} (b : Batch) (h : storeWF s) :
    storeWF (applyBatch s b) := by
  induction b generalizing s with
  | nil => exact h
  | cons o rest ih => exact ih (storeWF_applyOp o h)

/-- Whether one batch operation can change key `j`. -/
def opTargets (j : Bytes) : BatchOp → Prop
  | BatchOp.put k _ => j = k
  | BatchOp.del k => j = k
  | BatchOp.delRange lo hi => BLe lo j ∧ BLt j hi

theorem opEffect_of_not_targets {j : Bytes} {o : BatchOp} (h : ¬ opTargets j o)
    (cur : Option Bytes) : opEffect j cur o = cur := by
  cases o with
  | put k v => simp only [opEffect]; rw [if_neg (by exact h)]
  | del k => simp only [opEffect]; rw [if_neg (by exact h)]
  | delRange lo hi => simp only [opEffect]; rw [if_neg (by exact h)]

theorem batchEffect_of_not_targets {j : Bytes} {b : Batch}
    (h : ∀ o ∈ b, ¬ opTargets j o) (init : Option Bytes) :
    batchEffect j b init = init := by
  induction b generalizing init with
  | nil => rfl
  | cons o rest ih =>
    have h1 : batchEffect j (o :: rest) init = batchEffect j rest (opEffect j init o) := rfl
    rw [h1, opEffect_of_not_targets (h o (by simp)) init]
    exact ih (fun o2 ho2 => h o2 (by simp [ho2])) init

/-! ## write_changes specification -/

/-- The entry for `k` is dirty: cached with `orig_value ≠ current_value`
(the `compare_value` test of the source). -/
def dirtyB (cache : Cache) (k : Bytes) : Bool :=
  match storeGet cache k with
  | some e => decide (e.orig_value ≠ e.current_value)
  | none => false

/-- The reverse record `write_changes` emits for a dirty key. -/
def mkRec (cache : Cache) (k : Bytes) : UndoRec :=
  match storeGet cache k with
  | some e =>
      match e.orig_value with
      | some ov => UndoRec.put k ov
      | none => UndoRec.remove k
  | none => UndoRec.remove k

/-- The session-visible value of a cached key. -/
def curOf (cache : Cache) (k : Bytes) : Option Bytes :=
  match storeGet cache k with
  | some e => e.current_value
  | none => none

/-- Key/value lengths small enough for `pack_bytes`. -/
def recLenOK : UndoRec → Prop
  | UndoRec.remove k => k.length < 2 ^ 32
  | UndoRec.put k v => k.length < 2 ^ 32 ∧ v.length < 2 ^ 32

/-- The encoded segment body (meaningful when every record is `recLenOK`). -/
def encodeOK (rs : List UndoRec) : Bytes :=
  match encodeSegRecs rs with
  | Except.ok b => b
  | Except.error _ => []

theorem pack_bytes_ok {b : Bytes} (h : b.length < 2 ^ 32) :
    pack_bytes b = Except.ok (varint b.length ++ b) := by
  unfold pack_bytes
  rw [if_pos h]

theorem encodeSegRecs_isOk {rs : List UndoRec} (h : ∀ r ∈ rs, recLenOK r) :
    ∃ b, encodeSegRecs rs = Except.ok b := by
  induction rs with
  | nil => exact ⟨[], rfl⟩
  | cons r tl ih =>
    obtain ⟨bt, hbt⟩ := ih (fun r2 h2 => h r2 (by simp [h2]))
    cases r with
    | remove k =>
      have hk := h (UndoRec.remove k) (by simp)
      rw [recLenOK] at hk
      refine ⟨byteOf 0 :: (varint k.length ++ k) ++ bt, ?_⟩
      rw [show encodeSegRecs (UndoRec.remove k :: tl) = do
            let r ← pack_remove k
            let rest ← encodeSegRecs tl
            Except.ok (r ++ rest) from rfl]
      rw [show pack_remove k = do
            let pk ← pack_bytes k
            Except.ok (byteOf 0 :: pk) from rfl]
      rw [pack_bytes_ok hk, hbt]
      rfl
    | put k v =>
      have hk := h (UndoRec.put k v) (by simp)
      rw [recLenOK] at hk
      refine ⟨byteOf 1 :: ((varint k.length ++ k) ++ (varint v.length ++ v)) ++ bt, ?_⟩
      rw [show encodeSegRecs (UndoRec.put k v :: tl) = do
            let r ← pack_put k v
            let rest ← encodeSegRecs tl
            Except.ok (r ++ rest) from rfl]
      rw [show pack_put k v = do
            let pk ← pack_bytes k
            let pv ← pack_bytes v
            Except.ok (byteOf 1 :: (pk ++ pv)) from rfl]
      rw [pack_bytes_ok hk.1, pack_bytes_ok hk.2, hbt]
      rfl

theorem encodeSegRecs_ok {rs : List UndoRec} (h : ∀ r ∈ rs, recLenOK r) :
    encodeSegRecs rs = Except.ok (encodeOK rs) := by
  obtain ⟨b, hb⟩ := encodeSegRecs_isOk h
  rw [hb]
  unfold encodeOK
  rw [hb]

theorem segKey_has_undoPre (u : undo_stack) (id : Nat) :
    u.undoPre <+: u.create_segment_key id := by
  unfold undo_stack.create_segment_key append_key segPreOf
  exact ⟨[byteOf 0x80] ++ beBytes 8 id, by simp⟩

theorem statePre_has_undoPre (u : Bytes) : u <+: statePreOf u := ⟨[byteOf 0], rfl⟩

theorem dropLast_append_getLast {l : List Nat} (h : l ≠ []) :
    l.dropLast ++ [l.getLast?.getD 0] = l := by
  rw [List.getLast?_eq_getLast l h]
  exact List.dropLast_append_getLast h

/-- Invariant of the change-list walk in `write_changes` when undo frames
exist. `processed` are the change-list keys already handled; `flushed` the
bodies of the segments flushed so far. -/
def WCInvS (u : undo_stack) (store : Store) (cache : Cache)
    (processed : List Bytes) (R : List UndoRec) (acc : WCAcc)
    (flushed : List (List UndoRec)) : Prop :=
  acc.state.format_version = u.state.format_version ∧
  acc.state.revision = u.state.revision ∧
  acc.state.next_undo_segment = u.state.next_undo_segment + flushed.length ∧
  acc.state.undo_stack = u.state.undo_stack.dropLast ++
    [u.state.undo_stack.getLast?.getD 0 + flushed.length] ∧
  (∀ seg ∈ flushed, seg ≠ []) ∧
  flushed.flatten ++ acc.seg = R ∧
  (∀ r ∈ flushed.flatten ++ acc.seg, recLenOK r) ∧
  (∀ j, ¬ u.undoPre <+: j →
    batchEffect j acc.batch (storeGet store j) =
      if j ∈ processed ∧ dirtyB cache j = true then curOf cache j else storeGet store j) ∧
  (∀ i, i < flushed.length →
    batchEffect (u.create_segment_key (u.state.next_undo_segment + i)) acc.batch
      (storeGet store (u.create_segment_key (u.state.next_undo_segment + i))) =
      some (encodeOK (flushed.getD i []))) ∧
  (∀ j, u.undoPre <+: j →
    (∀ i, i < flushed.length → j ≠ u.create_segment_key (u.state.next_undo_segment + i)) →
    batchEffect j acc.batch (storeGet store j) = storeGet store j)

theorem flushed_length_le {u : undo_stack} {store : Store} {cache : Cache}
    {processed : List Bytes} {R : List UndoRec} {acc : WCAcc}
    {flushed : List (List UndoRec)}
    (h : WCInvS u store cache processed R acc flushed) :
    flushed.length ≤ R.length := by
  obtain ⟨-, -, -, -, hne, hrecs, -⟩ := h
  have h1 : flushed.length ≤ flushed.flatten.length := by
    clear hrecs
    induction flushed with
    | nil => simp
    | cons seg tl ih =>
      simp only [List.flatten_cons, List.length_append, List.length_cons]
      have hseg : seg ≠ [] := hne seg (by simp)
      have : 1 ≤ seg.length := by
        cases seg with
        | nil => exact absurd rfl hseg
        | cons a b => simp
      have ht := ih (fun s hs => hne s (by simp [hs]))
      omega
  have h2 : flushed.flatten.length ≤ (flushed.flatten ++ acc.seg).length := by simp
  rw [hrecs] at h2
  exact le_trans h1 h2

/-- `wcFlush` preserves the invariant (appending the buffer as a fresh
segment when it is non-empty). -/
theorem wcFlush_inv {u : undo_stack} {store : Store} {cache : Cache}
    {processed : List Bytes} {R : List UndoRec} {acc : WCAcc}
    {flushed : List (List UndoRec)}
    (h : WCInvS u store cache processed R acc flushed)
    (hid : u.state.next_undo_segment + flushed.length < U64MOD) :
    ∃ acc' flushed', wcFlush u.undoPre acc = Except.ok acc' ∧
      WCInvS u store cache processed R acc' flushed' ∧ acc'.seg = [] ∧
      ((flushed' = flushed ∧ acc'.batch = acc.batch) ∨
       (flushed' = flushed ++ [acc.seg] ∧
        acc'.batch = acc.batch ++
          [BatchOp.put (u.create_segment_key (u.state.next_undo_segment + flushed.length))
            (encodeOK acc.seg)])) := by
  obtain ⟨hfv, hrev, hnext, hstk, hne, hrecs, hlen, huser, hsegs, hother⟩ := h
  by_cases hempty : acc.seg = []
  · refine ⟨acc, flushed, ?_, ?_, hempty, ?_⟩
    · unfold wcFlush
      rw [if_pos hempty]
    · exact ⟨hfv, hrev, hnext, hstk, hne, hrecs, hlen, huser, hsegs, hother⟩
    · exact Or.inl ⟨rfl, rfl⟩
  · have hlenseg : ∀ r ∈ acc.seg, recLenOK r := fun r hr => hlen r (by simp [hr])
    have henc := encodeSegRecs_ok hlenseg
    have hkey : append_key (segPreOf u.undoPre) acc.state.next_undo_segment =
        u.create_segment_key (u.state.next_undo_segment + flushed.length) := by
      rw [hnext]
      rfl
    refine ⟨{ batch := acc.batch ++
                  [BatchOp.put
                    (u.create_segment_key (u.state.next_undo_segment + flushed.length))
                    (encodeOK acc.seg)],
              seg := [], segSize := 0,
              state := { acc.state with
                          next_undo_segment := acc.state.next_undo_segment + 1,
                          undo_stack := acc.state.undo_stack.dropLast ++
                                          [(acc.state.undo_stack.getLast?.getD 0) + 1] } },
      flushed ++ [acc.seg], ?_, ?_, rfl, Or.inr ⟨rfl, rfl⟩⟩
    · unfold wcFlush
      rw [if_neg hempty, henc, hkey]
    · refine ⟨hfv, hrev, ?_, ?_, ?_, ?_, ?_, ?_, ?_, ?_⟩
      · show acc.state.next_undo_segment + 1 =
          u.state.next_undo_segment + (flushed ++ [acc.seg]).length
        simp only [List.length_append, List.length_cons, List.length_nil]
        omega
      · show acc.state.undo_stack.dropLast ++
            [(acc.state.undo_stack.getLast?.getD 0) + 1] =
          u.state.undo_stack.dropLast ++
            [u.state.undo_stack.getLast?.getD 0 + (flushed ++ [acc.seg]).length]
        rw [hstk, List.dropLast_concat, List.getLast?_concat]
        simp only [Option.getD_some, List.length_append, List.length_cons, List.length_nil]
        congr 2
      · intro seg hseg
        rcases List.mem_append.mp hseg with h1 | h1
        · exact hne seg h1
        · simp at h1
          subst h1
          exact hempty
      · simp only [List.flatten_append, List.flatten_cons, List.flatten_nil,
          List.append_nil, List.append_assoc]
        simpa using hrecs
      · intro r hr
        simp only [List.flatten_append, List.flatten_cons, List.flatten_nil,
          List.append_nil, List.append_assoc] at hr
        apply hlen
        simpa using hr
      · intro j hj
        show batchEffect j (acc.batch ++ _) _ = _
        rw [batchEffect_append]
        rw [huser j hj]
        apply batchEffect_of_not_targets
        intro o ho
        simp only [List.mem_singleton] at ho
        subst ho
        intro htar
        have hje : j = u.create_segment_key (u.state.next_undo_segment + flushed.length) := htar
        subst hje
        exact hj (segKey_has_undoPre u _)
      · intro i hi
        simp only [List.length_append, List.length_cons, List.length_nil] at hi
        show batchEffect _ (acc.batch ++ _) _ = _
        rw [batchEffect_append]
        by_cases hlt : i < flushed.length
        · rw [hsegs i hlt]
          have hgetd : (flushed ++ [acc.seg]).getD i [] = flushed.getD i [] := by
            unfold List.getD
            rw [List.get?_append hlt]
          rw [hgetd]
          apply batchEffect_of_not_targets
          intro o ho
          simp only [List.mem_singleton] at ho
          subst ho
          intro htar
          have heq : u.create_segment_key (u.state.next_undo_segment + i) =
              u.create_segment_key (u.state.next_undo_segment + flushed.length) := htar
          have := create_segment_key_inj (by omega) hid heq
          omega
        · have hieq : i = flushed.length := by omega
          subst hieq
          have hgetd : (flushed ++ [acc.seg]).getD flushed.length [] = acc.seg := by
            unfold List.getD
            rw [List.get?_concat_length]
            rfl
          rw [hgetd]
          simp [batchEffect, opEffect]
      · intro j hj hnot
        show batchEffect j (acc.batch ++ _) _ = _
        rw [batchEffect_append]
        rw [hother j hj (fun i hi => hnot i (by simp; omega))]
        apply batchEffect_of_not_targets
        intro o ho
        simp only [List.mem_singleton] at ho
        subst ho
        intro htar
        exact hnot flushed.length (by simp) htar

theorem WCInvS_extend_clean {u : undo_stack} {store : Store} {cache : Cache}
    {processed : List Bytes} {R : List UndoRec} {acc : WCAcc}
    {flushed : List (List UndoRec)} {k : Bytes}
    (h : WCInvS u store cache processed R acc flushed)
    (hclean : dirtyB cache k = false) :
    WCInvS u store cache (processed ++ [k]) R acc flushed := by
  obtain ⟨hfv, hrev, hnext, hstk, hne, hrecs, hlen, huser, hsegs, hother⟩ := h
  refine ⟨hfv, hrev, hnext, hstk, hne, hrecs, hlen, ?_, hsegs, hother⟩
  intro j hj
  rw [huser j hj]
  by_cases hmem : j ∈ processed ∧ dirtyB cache j = true
  · rw [if_pos hmem, if_pos ⟨by simp [hmem.1], hmem.2⟩]
  · rw [if_neg hmem, if_neg ?_]
    rintro ⟨hm2, hd2⟩
    rcases List.mem_append.mp hm2 with hm3 | hm3
    · exact hmem ⟨hm3, hd2⟩
    · simp at hm3
      subst hm3
      rw [hclean] at hd2
      cases hd2

theorem WCInvS_append_rec {u : undo_stack} {store : Store} {cache : Cache}
    {processed : List Bytes} {R : List UndoRec} {acc : WCAcc}
    {flushed : List (List UndoRec)} {r : UndoRec} {sz : Nat}
    (h : WCInvS u store cache processed R acc flushed) (hr : recLenOK r) :
    WCInvS u store cache processed (R ++ [r])
      { acc with seg := acc.seg ++ [r], segSize := sz } flushed := by
  obtain ⟨hfv, hrev, hnext, hstk, hne, hrecs, hlen, huser, hsegs, hother⟩ := h
  refine ⟨hfv, hrev, hnext, hstk, hne, ?_, ?_, huser, hsegs, hother⟩
  · show flushed.flatten ++ (acc.seg ++ [r]) = R ++ [r]
    rw [← List.append_assoc, hrecs]
  · intro r2 hr2
    rw [show ({ acc with seg := acc.seg ++ [r], segSize := sz } : WCAcc).seg =
      acc.seg ++ [r] from rfl, ← List.append_assoc] at hr2
    rcases List.mem_append.mp hr2 with h1 | h1
    · exact hlen r2 h1
    · simp at h1
      subst h1
      exact hr

theorem WCInvS_fwd {u : undo_stack} {store : Store} {cache : Cache}
    {processed : List Bytes} {R : List UndoRec} {acc : WCAcc}
    {flushed : List (List UndoRec)} {k : Bytes} {e : cached_value}
    (h : WCInvS u store cache processed R acc flushed)
    (hfind : storeGet cache k = some e)
    (hdirty : e.orig_value ≠ e.current_value)
    (hk : ¬ u.undoPre <+: k) :
    WCInvS u store cache (processed ++ [k]) R
      { acc with batch := acc.batch ++
          [match e.current_value with
           | some v => BatchOp.put k v
           | none => BatchOp.del k] } flushed := by
  obtain ⟨hfv, hrev, hnext, hstk, hne, hrecs, hlen, huser, hsegs, hother⟩ := h
  have hop : ∀ j, j ≠ k → ¬ opTargets j (match e.current_value with
      | some v => BatchOp.put k v
      | none => BatchOp.del k) := by
    intro j hj
    cases e.current_value with
    | some v => exact hj
    | none => exact hj
  refine ⟨hfv, hrev, hnext, hstk, hne, hrecs, hlen, ?_, ?_, ?_⟩
  · intro j hj
    show batchEffect j (acc.batch ++ _) _ = _
    rw [batchEffect_append]
    by_cases hjk : j = k
    · subst hjk
      have heff : batchEffect j [match e.current_value with
          | some v => BatchOp.put j v
          | none => BatchOp.del j] (batchEffect j acc.batch (storeGet store j)) =
          e.current_value := by
        cases hcv : e.current_value with
        | some v => simp [batchEffect, opEffect]
        | none => simp [batchEffect, opEffect]
      rw [heff, if_pos ⟨by simp, by simp [dirtyB, hfind, hdirty]⟩]
      simp [curOf, hfind]
    · rw [batchEffect_of_not_targets (by
        intro o ho
        simp only [List.mem_singleton] at ho
        subst ho
        exact hop j hjk) _]
      rw [huser j hj]
      by_cases hmem : j ∈ processed ∧ dirtyB cache j = true
      · rw [if_pos hmem, if_pos ⟨by simp [hmem.1], hmem.2⟩]
      · rw [if_neg hmem, if_neg ?_]
        rintro ⟨hm2, hd2⟩
        rcases List.mem_append.mp hm2 with hm3 | hm3
        · exact hmem ⟨hm3, hd2⟩
        · simp at hm3
          exact absurd hm3 hjk
  · intro i hi
    show batchEffect _ (acc.batch ++ _) _ = _
    rw [batchEffect_append]
    rw [hsegs i hi]
    apply batchEffect_of_not_targets
    intro o ho
    simp only [List.mem_singleton] at ho
    subst ho
    apply hop
    intro heq
    exact hk (heq ▸ segKey_has_undoPre u (u.state.next_undo_segment + i))
  · intro j hj hnot
    show batchEffect j (acc.batch ++ _) _ = _
    rw [batchEffect_append]
    rw [hother j hj hnot]
    apply batchEffect_of_not_targets
    intro o ho
    simp only [List.mem_singleton] at ho
    subst ho
    apply hop
    intro heq
    subst heq
    exact hk hj

theorem wcAppendRec_inv {u : undo_stack} {store : Store} {cache : Cache}
    {processed : List Bytes} {R : List UndoRec} {acc : WCAcc}
    {flushed : List (List UndoRec)} {r : UndoRec}
    (h : WCInvS u store cache processed R acc flushed) (hr : recLenOK r)
    (hid : u.state.next_undo_segment + flushed.length < U64MOD) :
    ∃ acc' flushed',
      wcAppendRec u.undoPre u.target_segment_size acc r = Except.ok acc' ∧
      WCInvS u store cache processed (R ++ [r]) acc' flushed' ∧
      flushed.length ≤ flushed'.length ∧ flushed'.length ≤ flushed.length + 1 := by
  by_cases hc : acc.segSize + recSize r > u.target_segment_size
  · obtain ⟨acc1, flushed1, hfl, hinv1, hseg1, hcase⟩ := wcFlush_inv h hid
    have hlen1 : flushed.length ≤ flushed1.length ∧ flushed1.length ≤ flushed.length + 1 := by
      rcases hcase with ⟨rfl, -⟩ | ⟨rfl, -⟩
      · omega
      · simp
    refine ⟨{ acc1 with seg := acc1.seg ++ [r], segSize := acc1.segSize + recSize r },
      flushed1, ?_, WCInvS_append_rec hinv1 hr, hlen1.1, hlen1.2⟩
    simp only [wcAppendRec]
    rw [if_pos hc, hfl]
    rfl
  · refine ⟨{ acc with seg := acc.seg ++ [r], segSize := acc.segSize + recSize r },
      flushed, ?_, WCInvS_append_rec h hr, le_refl _, by omega⟩
    simp only [wcAppendRec]
    rw [if_neg hc]
    rfl

theorem wcStep_inv {u : undo_stack} {store : Store} {cache : Cache}
    {processed : List Bytes} {acc : WCAcc} {flushed : List (List UndoRec)}
    {k : Bytes}
    (h : WCInvS u store cache processed
      ((processed.filter (dirtyB cache)).map (mkRec cache)) acc flushed)
    (hid : u.state.next_undo_segment + flushed.length < U64MOD)
    (hk1 : ¬ u.undoPre <+: k) (hk2 : k.length < 2 ^ 32)
    (hk3 : ∀ e, storeGet cache k = some e →
      ∀ ov, e.orig_value = some ov → ov.length < 2 ^ 32) :
    ∃ acc' flushed',
      wcStep cache u.undoPre u.target_segment_size acc k = Except.ok acc' ∧
      WCInvS u store cache (processed ++ [k])
        (((processed ++ [k]).filter (dirtyB cache)).map (mkRec cache)) acc' flushed' ∧
      flushed.length ≤ flushed'.length ∧ flushed'.length ≤ flushed.length + 1 := by
  have hfilter : ∀ (b : Bool), dirtyB cache k = b →
      ((processed ++ [k]).filter (dirtyB cache)).map (mkRec cache) =
        (processed.filter (dirtyB cache)).map (mkRec cache) ++
          (if b then [mkRec cache k] else []) := by
    intro b hb
    rw [List.filter_append, List.map_append]
    congr 1
    cases b with
    | true => simp [List.filter, hb]
    | false => simp [List.filter, hb]
  cases hfind : storeGet cache k with
  | none =>
    have hclean : dirtyB cache k = false := by simp [dirtyB, hfind]
    refine ⟨acc, flushed, ?_, ?_, le_refl _, by omega⟩
    · unfold wcStep
      rw [hfind]
    · rw [hfilter false hclean]
      simpa using WCInvS_extend_clean h hclean
  | some e =>
    by_cases hd : e.orig_value = e.current_value
    · have hclean : dirtyB cache k = false := by simp [dirtyB, hfind, hd]
      refine ⟨acc, flushed, ?_, ?_, le_refl _, by omega⟩
      · unfold wcStep
        rw [hfind]
        simp [hd]
      · rw [hfilter false hclean]
        simpa using WCInvS_extend_clean h hclean
    · have hdirty : dirtyB cache k = true := by simp [dirtyB, hfind, hd]
      have hinv1 := WCInvS_fwd h hfind hd hk1
      have hstack1 : ¬ acc.state.undo_stack = [] := by
        obtain ⟨-, -, -, hstk, -⟩ := h
        rw [hstk]
        simp
      have hmk : mkRec cache k = (match e.orig_value with
          | some ov => UndoRec.put k ov
          | none => UndoRec.remove k) := by
        unfold mkRec
        rw [hfind]
      cases hov : e.orig_value with
      | some ov =>
        have hrlen : recLenOK (UndoRec.put k ov) := ⟨hk2, hk3 e hfind ov hov⟩
        obtain ⟨acc', flushed', happ, hinv', hl1, hl2⟩ :=
          wcAppendRec_inv hinv1 (r := UndoRec.put k ov) hrlen hid
        refine ⟨acc', flushed', ?_, ?_, hl1, hl2⟩
        · simp only [wcStep, hfind]
          rw [if_pos hd, if_neg hstack1]
          simp only [hov]
          exact happ
        · rw [hfilter true hdirty]
          simp only [if_pos rfl]
          rw [hmk, hov]
          exact hinv'
      | none =>
        have hrlen : recLenOK (UndoRec.remove k) := hk2
        obtain ⟨acc', flushed', happ, hinv', hl1, hl2⟩ :=
          wcAppendRec_inv hinv1 (r := UndoRec.remove k) hrlen hid
        refine ⟨acc', flushed', ?_, ?_, hl1, hl2⟩
        · simp only [wcStep, hfind]
          rw [if_pos hd, if_neg hstack1]
          simp only [hov]
          exact happ
        · rw [hfilter true hdirty]
          simp only [if_pos rfl]
          rw [hmk, hov]
          exact hinv'

theorem wc_fold_inv {u : undo_stack} {store : Store} {cache : Cache} :
    ∀ (cl' processed : List Bytes) (acc : WCAcc) (flushed : List (List UndoRec)),
    WCInvS u store cache processed
      ((processed.filter (dirtyB cache)).map (mkRec cache)) acc flushed →
    (∀ k ∈ cl', ¬ u.undoPre <+: k ∧ k.length < 2 ^ 32 ∧
      ∀ e, storeGet cache k = some e →
        ∀ ov, e.orig_value = some ov → ov.length < 2 ^ 32) →
    u.state.next_undo_segment + processed.length + cl'.length < U64MOD →
    ∃ acc' flushed',
      List.foldlM (wcStep cache u.undoPre u.target_segment_size) acc cl' =
        Except.ok acc' ∧
      WCInvS u store cache (processed ++ cl')
        (((processed ++ cl').filter (dirtyB cache)).map (mkRec cache)) acc' flushed' := by
  intro cl'
  induction cl' with
  | nil =>
    intro processed acc flushed hinv _ _
    exact ⟨acc, flushed, rfl, by simpa using hinv⟩
  | cons k rest ih =>
    intro processed acc flushed hinv hgood hbound
    have hkg := hgood k (by simp)
    have hflen : flushed.length ≤ processed.length := by
      have h1 := flushed_length_le hinv
      have h2 : ((processed.filter (dirtyB cache)).map (mkRec cache)).length ≤
          processed.length := by
        simpa using List.length_filter_le (dirtyB cache) processed
      omega
    have hbound2 : u.state.next_undo_segment + flushed.length < U64MOD := by
      simp only [List.length_cons] at hbound
      omega
    obtain ⟨acc1, flushed1, hstep, hinv1, hl1, hl2⟩ :=
      wcStep_inv hinv hbound2 hkg.1 hkg.2.1 hkg.2.2
    obtain ⟨acc', flushed', hfold, hinv'⟩ :=
      ih (processed ++ [k]) acc1 flushed1 hinv1
        (fun k2 h2 => hgood k2 (by simp [h2]))
        (by simp only [List.length_append, List.length_cons, List.length_nil] at hbound ⊢; omega)
    refine ⟨acc', flushed', ?_, ?_⟩
    · rw [show List.foldlM (wcStep cache u.undoPre u.target_segment_size) acc (k :: rest) =
        wcStep cache u.undoPre u.target_segment_size acc k >>= fun a =>
          List.foldlM (wcStep cache u.undoPre u.target_segment_size) a rest from rfl]
      rw [hstep]
      exact hfold
    · simpa [List.append_assoc] using hinv'

/-! ## write_changes with an empty undo stack -/

/-- Invariant of the change-list walk when the undo stack is empty: no
reverse records are buffered, the state never changes, and the batch's
per-key effect is the forward writes of the dirty processed keys. -/
def WCInvN (u : undo_stack) (store : Store) (cache : Cache)
    (processed : List Bytes) (acc : WCAcc) : Prop :=
  acc.state = u.state ∧
  acc.seg = [] ∧
  (∀ j, ¬ u.undoPre <+: j →
    batchEffect j acc.batch (storeGet store j) =
      if j ∈ processed ∧ dirtyB cache j = true then curOf cache j else storeGet store j) ∧
  (∀ j, u.undoPre <+: j →
    batchEffect j acc.batch (storeGet store j) = storeGet store j)

theorem wcStep_nostack {u : undo_stack} {store : Store} {cache : Cache}
    {processed : List Bytes} {acc : WCAcc} {k : Bytes}
    (hstk : u.state.undo_stack = [])
    (h : WCInvN u store cache processed acc)
    (hk : ¬ u.undoPre <+: k) :
    ∃ acc', wcStep cache u.undoPre u.target_segment_size acc k = Except.ok acc' ∧
      WCInvN u store cache (processed ++ [k]) acc' := by
  obtain ⟨hst, hseg, huser, hother⟩ := h
  have hclean_ext : dirtyB cache k = false →
      WCInvN u store cache (processed ++ [k]) acc := by
    intro hclean
    refine ⟨hst, hseg, ?_, hother⟩
    intro j hj
    rw [huser j hj]
    by_cases hmem : j ∈ processed ∧ dirtyB cache j = true
    · rw [if_pos hmem, if_pos ⟨by simp [hmem.1], hmem.2⟩]
    · rw [if_neg hmem, if_neg ?_]
      rintro ⟨hm2, hd2⟩
      rcases List.mem_append.mp hm2 with hm3 | hm3
      · exact hmem ⟨hm3, hd2⟩
      · simp at hm3
        subst hm3
        rw [hclean] at hd2
        cases hd2
  cases hfind : storeGet cache k with
  | none =>
    refine ⟨acc, ?_, hclean_ext (by simp [dirtyB, hfind])⟩
    unfold wcStep
    rw [hfind]
  | some e =>
    by_cases hd : e.orig_value = e.current_value
    · refine ⟨acc, ?_, hclean_ext (by simp [dirtyB, hfind, hd])⟩
      unfold wcStep
      rw [hfind]
      simp [hd]
    · have hstack1 : ({ acc with batch := acc.batch ++
          [match e.current_value with
           | some v => BatchOp.put k v
           | none => BatchOp.del k] } : WCAcc).state.undo_stack = [] := by
        show acc.state.undo_stack = []
        rw [hst, hstk]
      refine ⟨{ acc with batch := acc.batch ++
          [match e.current_value with
           | some v => BatchOp.put k v
           | none => BatchOp.del k] }, ?_, ?_⟩
      · simp only [wcStep, hfind]
        rw [if_pos hd, if_pos hstack1]
      · have hop : ∀ j, j ≠ k → ¬ opTargets j (match e.current_value with
            | some v => BatchOp.put k v
            | none => BatchOp.del k) := by
          intro j hj
          cases e.current_value with
          | some v => exact hj
          | none => exact hj
        refine ⟨hst, hseg, ?_, ?_⟩
        · intro j hj
          show batchEffect j (acc.batch ++ _) _ = _
          rw [batchEffect_append]
          by_cases hjk : j = k
          · subst hjk
            have heff : batchEffect j [match e.current_value with
                | some v => BatchOp.put j v
                | none => BatchOp.del j] (batchEffect j acc.batch (storeGet store j)) =
                e.current_value := by
              cases hcv : e.current_value with
              | some v => simp [batchEffect, opEffect]
              | none => simp [batchEffect, opEffect]
            rw [heff, if_pos ⟨by simp, by simp [dirtyB, hfind, hd]⟩]
            simp [curOf, hfind]
          · rw [batchEffect_of_not_targets (by
              intro o ho
              simp only [List.mem_singleton] at ho
              subst ho
              exact hop j hjk) _]
            rw [huser j hj]
            by_cases hmem : j ∈ processed ∧ dirtyB cache j = true
            · rw [if_pos hmem, if_pos ⟨by simp [hmem.1], hmem.2⟩]
            · rw [if_neg hmem, if_neg ?_]
              rintro ⟨hm2, hd2⟩
              rcases List.mem_append.mp hm2 with hm3 | hm3
              · exact hmem ⟨hm3, hd2⟩
              · simp at hm3
                exact absurd hm3 hjk
        · intro j hj
          show batchEffect j (acc.batch ++ _) _ = _
          rw [batchEffect_append]
          rw [hother j hj]
          apply batchEffect_of_not_targets
          intro o ho
          simp only [List.mem_singleton] at ho
          subst ho
          apply hop
          intro heq
          subst heq
          exact hk hj

theorem wc_fold_nostack {u : undo_stack} {store : Store} {cache : Cache}
    (hstk : u.state.undo_stack = []) :
    ∀ (cl' processed : List Bytes) (acc : WCAcc),
    WCInvN u store cache processed acc →
    (∀ k ∈ cl', ¬ u.undoPre <+: k) →
    ∃ acc',
      List.foldlM (wcStep cache u.undoPre u.target_segment_size) acc cl' =
        Except.ok acc' ∧
      WCInvN u store cache (processed ++ cl') acc' := by
  intro cl'
  induction cl' with
  | nil =>
    intro processed acc hinv _
    exact ⟨acc, rfl, by simpa using hinv⟩
  | cons k rest ih =>
    intro processed acc hinv hgood
    obtain ⟨acc1, hstep, hinv1⟩ := wcStep_nostack hstk hinv (hgood k (by simp))
    obtain ⟨acc', hfold, hinv'⟩ :=
      ih (processed ++ [k]) acc1 hinv1 (fun k2 h2 => hgood k2 (by simp [h2]))
    refine ⟨acc', ?_, ?_⟩
    · rw [show List.foldlM (wcStep cache u.undoPre u.target_segment_size) acc (k :: rest) =
        wcStep cache u.undoPre u.target_segment_size acc k >>= fun a =>
          List.foldlM (wcStep cache u.undoPre u.target_segment_size) a rest from rfl]
      rw [hstep]
      exact hfold
    · simpa [List.append_assoc] using hinv'

/-! ## Assembled user-visible effect of write_changes -/

theorem write_changes_do_eq (u : undo_stack) (store : Store) (cache : Cache)
    (cl : List Bytes) :
    undo_stack.write_changes u store cache cl =
      (List.foldlM (wcStep cache u.undoPre u.target_segment_size)
        ({ batch := [], seg := [], segSize := 0, state := u.state } : WCAcc) cl) >>=
        fun a1 => (wcFlush u.undoPre a1) >>= fun a2 =>
          Except.ok ({ u with state := a2.state },
            applyBatch store
              (undo_stack.write_state_batch { u with state := a2.state } a2.batch)) := rfl

/-- The effect of `undo_stack::write_changes` on every key outside the undo
prefix: each dirty change-list key takes its session value (a put of the
current value, or a delete), every other such key is untouched, and the
whole write succeeds whenever the change-list keys avoid the undo prefix,
fit in `pack_bytes`, and the segment-id counter cannot wrap. -/
theorem write_changes_user_view
    (u : undo_stack) (store : Store) (cache : Cache) (cl : List Bytes)
    (hwf : storeWF store)
    (hgood : ∀ k ∈ cl, ¬ u.undoPre <+: k ∧ k.length < 2 ^ 32 ∧
      ∀ e, storeGet cache k = some e →
        ∀ ov, e.orig_value = some ov → ov.length < 2 ^ 32)
    (hbound : u.state.next_undo_segment + cl.length < U64MOD) :
    ∃ u' store', undo_stack.write_changes u store cache cl = Except.ok (u', store') ∧
      storeWF store' ∧ u'.undoPre = u.undoPre ∧
      ∀ j, ¬ u.undoPre <+: j →
        storeGet store' j =
          if j ∈ cl ∧ dirtyB cache j = true then curOf cache j else storeGet store j := by
  have hfinal : ∀ (acc : WCAcc),
      (∀ j, ¬ u.undoPre <+: j →
        batchEffect j acc.batch (storeGet store j) =
          if j ∈ cl ∧ dirtyB cache j = true then curOf cache j else storeGet store j) →
      ∀ j, ¬ u.undoPre <+: j →
        storeGet (applyBatch store
            (undo_stack.write_state_batch { u with state := acc.state } acc.batch)) j =
          if j ∈ cl ∧ dirtyB cache j = true then curOf cache j else storeGet store j := by
    intro acc huser j hj
    have hne : j ≠ statePreOf u.undoPre := by
      intro heq
      exact hj (heq ▸ statePre_has_undoPre u.undoPre)
    have hb : undo_stack.write_state_batch { u with state := acc.state } acc.batch =
        acc.batch ++ [BatchOp.put (statePreOf u.undoPre) (encode_state acc.state)] := rfl
    rw [hb, storeGet_applyBatch _ _ hwf, batchEffect_append]
    rw [show batchEffect j [BatchOp.put (statePreOf u.undoPre) (encode_state acc.state)]
        (batchEffect j acc.batch (storeGet store j)) =
        opEffect j (batchEffect j acc.batch (storeGet store j))
          (BatchOp.put (statePreOf u.undoPre) (encode_state acc.state)) from rfl]
    rw [show opEffect j (batchEffect j acc.batch (storeGet store j))
        (BatchOp.put (statePreOf u.undoPre) (encode_state acc.state)) =
        if j = statePreOf u.undoPre then some (encode_state acc.state)
        else batchEffect j acc.batch (storeGet store j) from rfl]
    rw [if_neg hne]
    exact huser j hj
  by_cases hstk : u.state.undo_stack = []
  · have hinv0 : WCInvN u store cache []
        { batch := [], seg := [], segSize := 0, state := u.state } := by
      refine ⟨rfl, rfl, ?_, fun j _ => rfl⟩
      intro j hj
      simp [batchEffect]
    obtain ⟨acc1, hfold, hinv1⟩ :=
      wc_fold_nostack hstk cl []
        { batch := [], seg := [], segSize := 0, state := u.state }
        hinv0 (fun k hk => (hgood k hk).1)
    simp only [List.nil_append] at hinv1
    obtain ⟨hst1, hseg1, huser1, _⟩ := hinv1
    have hflush_eq : wcFlush u.undoPre acc1 = Except.ok acc1 := by
      unfold wcFlush
      rw [if_pos hseg1]
    have step1 : undo_stack.write_changes u store cache cl =
        (wcFlush u.undoPre acc1) >>= fun a2 =>
          Except.ok ({ u with state := a2.state },
            applyBatch store
              (undo_stack.write_state_batch { u with state := a2.state } a2.batch)) := by
      rw [write_changes_do_eq, hfold]
      rfl
    have hwc : undo_stack.write_changes u store cache cl =
        Except.ok ({ u with state := acc1.state },
          applyBatch store
            (undo_stack.write_state_batch { u with state := acc1.state } acc1.batch)) := by
      rw [step1, hflush_eq]
      rfl
    refine ⟨_, _, hwc, storeWF_applyBatch _ hwf, rfl, hfinal acc1 huser1⟩
  · have hinv0 : WCInvS u store cache [] []
        { batch := [], seg := [], segSize := 0, state := u.state } [] := by
      refine ⟨rfl, rfl, rfl, ?_, ?_, rfl, ?_, ?_, ?_, fun j _ _ => rfl⟩
      · simpa using (dropLast_append_getLast hstk).symm
      · intro seg hseg
        cases hseg
      · intro r hr
        cases hr
      · intro j hj
        simp [batchEffect]
      · intro i hi
        exact absurd hi (Nat.not_lt_zero i)
    obtain ⟨acc1, flushed1, hfold, hinv1⟩ :=
      wc_fold_inv cl []
        { batch := [], seg := [], segSize := 0, state := u.state } []
        (by simpa using hinv0) hgood (by simpa using hbound)
    simp only [List.nil_append] at hinv1
    have hbound2 : u.state.next_undo_segment + flushed1.length < U64MOD := by
      have h1 := flushed_length_le hinv1
      have h2 : ((cl.filter (dirtyB cache)).map (mkRec cache)).length ≤ cl.length := by
        simpa using List.length_filter_le (dirtyB cache) cl
      omega
    obtain ⟨acc2, flushed2, hflush, hinv2, hseg2, -⟩ := wcFlush_inv hinv1 hbound2
    obtain ⟨-, -, -, -, -, -, -, huser2, -, -⟩ := hinv2
    have step1 : undo_stack.write_changes u store cache cl =
        (wcFlush u.undoPre acc1) >>= fun a2 =>
          Except.ok ({ u with state := a2.state },
            applyBatch store
              (undo_stack.write_state_batch { u with state := a2.state } a2.batch)) := by
      rw [write_changes_do_eq, hfold]
      rfl
    have hwc : undo_stack.write_changes u store cache cl =
        Except.ok ({ u with state := acc2.state },
          applyBatch store
            (undo_stack.write_state_batch { u with state := acc2.state } acc2.batch)) := by
      rw [step1, hflush]
      rfl
    refine ⟨_, _, hwc, storeWF_applyBatch _ hwf, rfl, hfinal acc2 huser2⟩

/-! ## Replay of a session (claim C1) -/

/-- One user operation against a write session. -/
inductive SessOp where
  | set (k v : Bytes) : SessOp
  | erase (k : Bytes) : SessOp
deriving DecidableEq

/-- The key an operation touches. -/
def SessOp.key : SessOp → Bytes
  | SessOp.set k _ => k
  | SessOp.erase k => k

/-- Run one operation against the session (the store is only read, for the
original values; the session's own methods do the work). -/
def applySessOp (store : Store) (s : write_session) : SessOp → write_session
  | SessOp.set k v => s.set store k v
  | SessOp.erase k => s.erase store k

/-- Run a whole program-order sequence of operations. -/
def runSess (store : Store) (s : write_session) (ops : List SessOp) : write_session :=
  ops.foldl (applySessOp store) s

/-- Spec-side reference definition (from the claim's words, to be compared
with the code's behaviour): replaying the operations in program order on
one key — the last operation on that key wins, keys never touched keep
their initial value. -/
def replayVal (ops : List SessOp) (j : Bytes) (init : Option Bytes) : Option Bytes :=
  ops.foldl (fun cur op =>
    match op with
    | SessOp.set k v => if j = k then some v else cur
    | SessOp.erase k => if j = k then none else cur) init

theorem replayVal_cons (op : SessOp) (ops : List SessOp) (j : Bytes)
    (init : Option Bytes) :
    replayVal (op :: ops) j init =
      replayVal ops j
        (match op with
         | SessOp.set k v => if j = k then some v else init
         | SessOp.erase k => if j = k then none else init) := rfl

/-- Every cached entry's `orig_value` is the store's value for that key
(true for a session whose store never changed underneath it). -/
def origInv (store : Store) (c : Cache) : Prop :=
  ∀ k e, storeGet c k = some e → e.orig_value = storeGet store k

theorem origInv_put {store : Store} {c : Cache} {k : Bytes} {e : cached_value}
    (h : origInv store c) (he : e.orig_value = storeGet store k) :
    origInv store (storePut c k e) := by
  intro j e2 hj
  by_cases hjk : j = k
  · subst hjk
    rw [storeGet_put_self] at hj
    cases hj
    exact he
  · rw [storeGet_put_other _ hjk] at hj
    exact h j e2 hj

theorem changed_orig {store : Store} {s : write_session} {k : Bytes}
    (h : origInv store s.cache) : origInv store (s.changed k).cache := by
  intro j e hj
  rcases changed_cache_find s k j with heq | ⟨rfl, e0, hf0, heq⟩
  · rw [heq] at hj
    exact h j e hj
  · rw [heq] at hj
    cases hj
    exact h j e0 hf0

theorem set_orig (store : Store) (s : write_session) (k v : Bytes)
    (h : origInv store s.cache) : origInv store (s.set store k v).cache := by
  cases hfind : storeGet s.cache k with
  | some e =>
    by_cases hcur : e.current_value = some v
    · rw [set_eq_found_eq hfind hcur]
      exact h
    · rw [set_eq_found_ne hfind hcur]
      exact changed_orig (origInv_put h (h k e hfind))
  | none =>
    cases hstore : storeGet store k with
    | none =>
      rw [set_eq_miss_none hfind hstore]
      exact changed_orig (origInv_put h hstore.symm)
    | some orig =>
      by_cases hvo : v = orig
      · rw [set_eq_miss_eq hfind hstore hvo]
        exact origInv_put h hstore.symm
      · rw [set_eq_miss_ne hfind hstore hvo]
        exact changed_orig (origInv_put h hstore.symm)

theorem erase_orig (store : Store) (s : write_session) (k : Bytes)
    (h : origInv store s.cache) : origInv store (s.erase store k).cache := by
  cases hfind : storeGet s.cache k with
  | some e =>
    by_cases hcur : e.current_value = none
    · rw [erase_eq_found_none hfind hcur]
      exact h
    · rw [erase_eq_found_some hfind hcur]
      exact changed_orig (origInv_put h (h k e hfind))
  | none =>
    cases hstore : storeGet store k with
    | none =>
      rw [erase_eq_miss_none hfind hstore]
      exact origInv_put h hstore.symm
    | some orig =>
      rw [erase_eq_miss_some hfind hstore]
      exact changed_orig (origInv_put h hstore.symm)

theorem changed_cl_sub (s : write_session) (k : Bytes) :
    ∀ j ∈ (s.changed k).change_list, j = k ∨ j ∈ s.change_list := by
  intro j hj
  cases hfind : storeGet s.cache k with
  | none =>
    rw [changed_eq_none hfind] at hj
    exact Or.inr hj
  | some e =>
    cases hflag : e.in_change_list with
    | true =>
      rw [changed_eq_linked hfind hflag] at hj
      exact Or.inr hj
    | false =>
      rw [changed_eq_link hfind hflag] at hj
      rcases List.mem_cons.mp hj with h1 | h1
      · exact Or.inl h1
      · exact Or.inr h1

theorem changed_cl_len (s : write_session) (k : Bytes) :
    (s.changed k).change_list.length ≤ s.change_list.length + 1 := by
  cases hfind : storeGet s.cache k with
  | none =>
    rw [changed_eq_none hfind]
    omega
  | some e =>
    cases hflag : e.in_change_list with
    | true =>
      rw [changed_eq_linked hfind hflag]
      omega
    | false =>
      rw [changed_eq_link hfind hflag]
      show (k :: s.change_list).length ≤ _
      simp

theorem set_cl_sub (store : Store) (s : write_session) (k v : Bytes) :
    ∀ j ∈ (s.set store k v).change_list, j = k ∨ j ∈ s.change_list := by
  intro j hj
  cases hfind : storeGet s.cache k with
  | some e =>
    by_cases hcur : e.current_value = some v
    · rw [set_eq_found_eq hfind hcur] at hj
      exact Or.inr hj
    · rw [set_eq_found_ne hfind hcur] at hj
      have h9 := changed_cl_sub _ k j hj
      exact h9
  | none =>
    cases hstore : storeGet store k with
    | none =>
      rw [set_eq_miss_none hfind hstore] at hj
      have h9 := changed_cl_sub _ k j hj
      exact h9
    | some orig =>
      by_cases hvo : v = orig
      · rw [set_eq_miss_eq hfind hstore hvo] at hj
        exact Or.inr hj
      · rw [set_eq_miss_ne hfind hstore hvo] at hj
        have h9 := changed_cl_sub _ k j hj
        exact h9

theorem erase_cl_sub (store : Store) (s : write_session) (k : Bytes) :
    ∀ j ∈ (s.erase store k).change_list, j = k ∨ j ∈ s.change_list := by
  intro j hj
  cases hfind : storeGet s.cache k with
  | some e =>
    by_cases hcur : e.current_value = none
    · rw [erase_eq_found_none hfind hcur] at hj
      exact Or.inr hj
    · rw [erase_eq_found_some hfind hcur] at hj
      have h9 := changed_cl_sub _ k j hj
      exact h9
  | none =>
    cases hstore : storeGet store k with
    | none =>
      rw [erase_eq_miss_none hfind hstore] at hj
      exact Or.inr hj
    | some orig =>
      rw [erase_eq_miss_some hfind hstore] at hj
      have h9 := changed_cl_sub _ k j hj
      exact h9

theorem set_cl_len (store : Store) (s : write_session) (k v : Bytes) :
    (s.set store k v).change_list.length ≤ s.change_list.length + 1 := by
  cases hfind : storeGet s.cache k with
  | some e =>
    by_cases hcur : e.current_value = some v
    · rw [set_eq_found_eq hfind hcur]
      omega
    · rw [set_eq_found_ne hfind hcur]
      exact changed_cl_len _ k
  | none =>
    cases hstore : storeGet store k with
    | none =>
      rw [set_eq_miss_none hfind hstore]
      exact changed_cl_len _ k
    | some orig =>
      by_cases hvo : v = orig
      · rw [set_eq_miss_eq hfind hstore hvo]
        show s.change_list.length ≤ s.change_list.length + 1
        omega
      · rw [set_eq_miss_ne hfind hstore hvo]
        exact changed_cl_len _ k

theorem erase_cl_len (store : Store) (s : write_session) (k : Bytes) :
    (s.erase store k).change_list.length ≤ s.change_list.length + 1 := by
  cases hfind : storeGet s.cache k with
  | some e =>
    by_cases hcur : e.current_value = none
    · rw [erase_eq_found_none hfind hcur]
      omega
    · rw [erase_eq_found_some hfind hcur]
      exact changed_cl_len _ k
  | none =>
    cases hstore : storeGet store k with
    | none =>
      rw [erase_eq_miss_none hfind hstore]
      show s.change_list.length ≤ s.change_list.length + 1
      omega
    | some orig =>
      rw [erase_eq_miss_some hfind hstore]
      exact changed_cl_len _ k

theorem runSess_wf (store : Store) (ops : List SessOp) :
    ∀ s : write_session, sessionWF s → sessionWF (runSess store s ops) := by
  induction ops with
  | nil => exact fun s h => h
  | cons op rest ih =>
    intro s h
    show sessionWF (runSess store (applySessOp store s op) rest)
    apply ih
    cases op with
    | set k v => exact (set_spec store s k v h).1
    | erase k => exact (erase_spec store s k h).1

theorem runSess_orig (store : Store) (ops : List SessOp) :
    ∀ s : write_session, origInv store s.cache →
      origInv store (runSess store s ops).cache := by
  induction ops with
  | nil => exact fun s h => h
  | cons op rest ih =>
    intro s h
    show origInv store (runSess store (applySessOp store s op) rest).cache
    apply ih
    cases op with
    | set k v => exact set_orig store s k v h
    | erase k => exact erase_orig store s k h

theorem runSess_cl_sub (store : Store) (ops : List SessOp) :
    ∀ (s : write_session) (j : Bytes), j ∈ (runSess store s ops).change_list →
      (∃ op ∈ ops, j = SessOp.key op) ∨ j ∈ s.change_list := by
  induction ops with
  | nil => exact fun s j hj => Or.inr hj
  | cons op rest ih =>
    intro s j hj
    rcases ih (applySessOp store s op) j hj with h1 | h1
    · obtain ⟨op2, hop2, hkey⟩ := h1
      exact Or.inl ⟨op2, by simp [hop2], hkey⟩
    · have h2 : j = SessOp.key op ∨ j ∈ s.change_list := by
        cases op with
        | set k v => exact set_cl_sub store s k v j h1
        | erase k => exact erase_cl_sub store s k j h1
      rcases h2 with h3 | h3
      · exact Or.inl ⟨op, by simp, h3⟩
      · exact Or.inr h3

theorem runSess_cl_len (store : Store) (ops : List SessOp) :
    ∀ s : write_session,
      (runSess store s ops).change_list.length ≤
        s.change_list.length + ops.length := by
  induction ops with
  | nil => exact fun s => by simp [runSess]
  | cons op rest ih =>
    intro s
    have h1 := ih (applySessOp store s op)
    have h2 : (applySessOp store s op).change_list.length ≤
        s.change_list.length + 1 := by
      cases op with
      | set k v => exact set_cl_len store s k v
      | erase k => exact erase_cl_len store s k
    show (runSess store (applySessOp store s op) rest).change_list.length ≤ _
    simp only [List.length_cons]
    omega

theorem runSess_merged (store : Store) (ops : List SessOp) :
    ∀ (s : write_session) (j : Bytes),
      mergedGet store (runSess store s ops) j =
        replayVal ops j (mergedGet store s j) := by
  induction ops with
  | nil => exact fun s j => rfl
  | cons op rest ih =>
    intro s j
    rw [show runSess store s (op :: rest) =
        runSess store (applySessOp store s op) rest from rfl]
    rw [ih (applySessOp store s op) j, replayVal_cons]
    congr 1
    cases op with
    | set k v =>
      rw [show applySessOp store s (SessOp.set k v) = s.set store k v from rfl]
      rw [set_merged store s k v j]
    | erase k =>
      rw [show applySessOp store s (SessOp.erase k) = s.erase store k from rfl]
      rw [erase_merged store s k j]

/-- Under the session invariants, the per-key effect `write_changes`
produces (session value for dirty change-list keys, store value otherwise)
is exactly the merged session view of the key. -/
theorem session_if_eq_merged (store : Store) (s : write_session)
    (hwfs : sessionWF s) (ho : origInv store s.cache) (j : Bytes) :
    (if j ∈ s.change_list ∧ dirtyB s.cache j = true then curOf s.cache j
     else storeGet store j) = mergedGet store s j := by
  cases hfind : storeGet s.cache j with
  | none =>
    have hd : dirtyB s.cache j = false := by simp [dirtyB, hfind]
    rw [if_neg (by rintro ⟨-, h2⟩; rw [hd] at h2; cases h2)]
    unfold mergedGet
    rw [hfind]
  | some e =>
    by_cases hdirty : e.orig_value = e.current_value
    · have hd : dirtyB s.cache j = false := by simp [dirtyB, hfind, hdirty]
      rw [if_neg (by rintro ⟨-, h2⟩; rw [hd] at h2; cases h2)]
      unfold mergedGet
      rw [hfind]
      show storeGet store j = e.current_value
      rw [← hdirty]
      exact (ho j e hfind).symm
    · have hd : dirtyB s.cache j = true := by simp [dirtyB, hfind, hdirty]
      have hlink := hwfs.dirty_linked j e hfind hdirty
      have hmem : j ∈ s.change_list := (hwfs.mem_iff j).mpr ⟨e, hfind, hlink⟩
      rw [if_pos ⟨hmem, hd⟩]
      unfold curOf mergedGet
      rw [hfind]

theorem mergedGet_empty (store : Store) (j : Bytes) :
    mergedGet store {} j = storeGet store j := by
  unfold mergedGet
  simp [storeGet]

/-- Claim C1: for every sequence of `write_session::set` / `write_session::erase`
operations on a fresh session followed by a single `write_changes`, the
externally visible store contents (every key outside the undo-stack's own
prefix) equal the replay of the operations in program order against the
initial store: the last operation on each touched key wins (a `set` puts
its value, an `erase` removes the key), and keys never touched are
unchanged. (Hypotheses: the store is well formed with `pack_bytes`-sized
values, the touched keys avoid the undo prefix and fit `pack_bytes`, and
the undo-segment counter cannot overflow.) -/
theorem claim_C1 (store : Store) (u : undo_stack) (ops : List SessOp)
    (hwf : storeWF store)
    (hkeys : ∀ op ∈ ops, ¬ u.undoPre <+: SessOp.key op ∧ (SessOp.key op).length < 2 ^ 32)
    (hvals : ∀ k v, storeGet store k = some v → v.length < 2 ^ 32)
    (hbound : u.state.next_undo_segment + ops.length < U64MOD) :
    ∃ u' store',
      write_session.write_changes (runSess store {} ops) u store =
        Except.ok (u', store') ∧
      ∀ j, ¬ u.undoPre <+: j →
        storeGet store' j = replayVal ops j (storeGet store j) := by
  have hwfs0 : sessionWF ({} : write_session) :=
    ⟨by constructor, by constructor, by simp [storeGet], by simp [storeGet]⟩
  have ho0 : origInv store ({} : write_session).cache := by
    intro k e h
    simp [storeGet] at h
  have hwfs1 := runSess_wf store ops {} hwfs0
  have ho1 := runSess_orig store ops {} ho0
  have hgood : ∀ k ∈ (runSess store {} ops).change_list,
      ¬ u.undoPre <+: k ∧ k.length < 2 ^ 32 ∧
      ∀ e, storeGet (runSess store {} ops).cache k = some e →
        ∀ ov, e.orig_value = some ov → ov.length < 2 ^ 32 := by
    intro k hk
    have hov : ∀ e, storeGet (runSess store {} ops).cache k = some e →
        ∀ ov, e.orig_value = some ov → ov.length < 2 ^ 32 := by
      intro e he ov hov
      have h1 := ho1 k e he
      rw [hov] at h1
      exact hvals k ov h1.symm
    rcases runSess_cl_sub store ops {} k hk with ⟨op, hop, rfl⟩ | h0
    · exact ⟨(hkeys op hop).1, (hkeys op hop).2, hov⟩
    · cases h0
  have hbound' : u.state.next_undo_segment +
      (runSess store {} ops).change_list.length < U64MOD := by
    have h1 := runSess_cl_len store ops {}
    have h2 : (({} : write_session)).change_list.length = 0 := rfl
    omega
  obtain ⟨u', store', hwc, hswf, hupre, huser⟩ :=
    write_changes_user_view u store (runSess store {} ops).cache
      (runSess store {} ops).change_list hwf hgood hbound'
  refine ⟨u', store', hwc, ?_⟩
  intro j hj
  rw [huser j hj, session_if_eq_merged store (runSess store {} ops) hwfs1 ho1 j]
  rw [runSess_merged store ops {} j, mergedGet_empty]

/-- Witness for C1: a `set`, an `erase` of the same key, and a `set` of a
second key, written out against an empty store. -/
theorem claim_C1_witness :
    ∃ u' store',
      write_session.write_changes
        (runSess [] {} [SessOp.set [byteOf 0x20] [byteOf 1],
                        SessOp.erase [byteOf 0x20],
                        SessOp.set [byteOf 0x21] [byteOf 2]])
        { undoPre := [byteOf 0x10], target_segment_size := 64,
          state := { format_version := 0, revision := 0, undo_stack := [0],
                     next_undo_segment := 0 } } [] =
        Except.ok (u', store') ∧
      ∀ j, ¬ [byteOf 0x10] <+: j →
        storeGet store' j =
          replayVal [SessOp.set [byteOf 0x20] [byteOf 1],
                     SessOp.erase [byteOf 0x20],
                     SessOp.set [byteOf 0x21] [byteOf 2]] j (storeGet [] j) :=
  claim_C1 []
    { undoPre := [byteOf 0x10], target_segment_size := 64,
      state := { format_version := 0, revision := 0, undo_stack := [0],
                 next_undo_segment := 0 } }
    [SessOp.set [byteOf 0x20] [byteOf 1], SessOp.erase [byteOf 0x20],
     SessOp.set [byteOf 0x21] [byteOf 2]]
    (by constructor) (by decide) (by intro k v h; simp [storeGet] at h) (by decide)

/-! ## The view iterator (claims C4, C5, C9)

The rocksdb iterator is modelled as an optional position in the (fixed)
sorted store: `some k` means positioned at store key `k`; `none` is the
engine's invalid state. Reading the key/value of an invalid iterator is an
error (the unsafe access claim C9 is about). The `std::map` cache iterator
of `iterator_impl` is an optional cache key (`none` = `end()`), and
dereferencing `end()` is likewise an error. The source's unbounded loops
take explicit fuel; running out of fuel is an error, and the loop lemmas
show the fuel bounds used never run out. -/

def rocksSeek (store : Store) (k : Bytes) : Option Bytes :=
  (storeKeys store).find? (fun x => decide (BLe k x))

def rocksNextKey (store : Store) (k : Bytes) : Option Bytes :=
  (storeKeys store).find? (fun x => decide (BLt k x))

def rocksPrevKey (store : Store) (k : Bytes) : Option Bytes :=
  ((storeKeys store).filter (fun x => decide (BLt x k))).getLast?

def rocksRead (store : Store) (pos : Option Bytes) : Except String (Bytes × Bytes) :=
  match pos with
  | none => Except.error "iterator read while invalid"
  | some k =>
      match storeGet store k with
      | some v => Except.ok (k, v)
      | none => Except.error "iterator read while invalid"

def cacheLowerBound (c : Cache) (k : Bytes) : Option Bytes :=
  (storeKeys c).find? (fun x => decide (BLe k x))

def cacheNextKey (c : Cache) (k : Bytes) : Option Bytes :=
  (storeKeys c).find? (fun x => decide (BLt k x))

def cachePrevKey (c : Cache) (pos : Option Bytes) : Option Bytes :=
  match pos with
  | some k => ((storeKeys c).filter (fun x => decide (BLt x k))).getLast?
  | none => (storeKeys c).getLast?

def numErasesOf (c : Cache) (k : Bytes) : Nat :=
  match storeGet c k with
  | some e => e.num_erases
  | none => 0

/-- Embeds `view::iterator_impl` (minus the back-reference to the view; the
prefix, next prefix and session travel alongside). -/
structure IterImpl where
  cache_it : Option Bytes := none
  cache_it_num_erases : Nat := 0
  rocks_it : Option Bytes := none
deriving DecidableEq

/-- The inner loop of `lower_bound_full_key`, `operator++`:
`while (compare_blob(rocks_it->key(), bound) <= 0) { rocks_it->Next();
fill_cache(key, value); }`. -/
def pullUpTo (store : Store) : Nat → write_session → Option Bytes → Bytes →
    Except String (write_session × Option Bytes)
  | 0, _, _, _ => Except.error "fuel exhausted"
  | fuel + 1, s, rpos, bound => do
    let kv ← rocksRead store rpos
    if BLe kv.1 bound then do
      let rpos2 := rocksNextKey store kv.1
      let kv2 ← rocksRead store rpos2
      pullUpTo store fuel (s.fill_cache kv2.1 kv2.2) rpos2 bound
    else Except.ok (s, rpos)

/-- The inner loop of `operator--`:
`while (compare_blob(rocks_it->key(), bound) >= 0) { rocks_it->Prev();
fill_cache(key, value); }`. -/
def pullDownTo (store : Store) : Nat → write_session → Option Bytes → Bytes →
    Except String (write_session × Option Bytes)
  | 0, _, _, _ => Except.error "fuel exhausted"
  | fuel + 1, s, rpos, bound => do
    let kv ← rocksRead store rpos
    if BLe bound kv.1 then do
      let rpos2 := rocksPrevKey store kv.1
      let kv2 ← rocksRead store rpos2
      pullDownTo store fuel (s.fill_cache kv2.1 kv2.2) rpos2 bound
    else Except.ok (s, rpos)

/-- The outer loop of `lower_bound_full_key` and (after its first step)
`operator++`: `while (!cache_it->second.current_value) { <pull rocks ≤
cache_it->first>; ++cache_it; }`. Returns the grown session, the cache key
stopped at, and the rocksdb position. -/
def skipAbsent (store : Store) : Nat → write_session → Option Bytes → Option Bytes →
    Except String (write_session × Bytes × Option Bytes)
  | 0, _, _, _ => Except.error "fuel exhausted"
  | fuel + 1, s, pos, rpos =>
    match pos with
    | none => Except.error "cache end dereference"
    | some q =>
      match storeGet s.cache q with
      | none => Except.error "cache end dereference"
      | some e =>
        if e.current_value = none then do
          let r ← pullUpTo store ((storeKeys store).length + 1) s rpos q
          skipAbsent store fuel r.1 (cacheNextKey r.1.cache q) r.2
        else Except.ok (s, q, rpos)

/-- The outer loop of `operator--`. -/
def skipAbsentDown (store : Store) : Nat → write_session → Option Bytes → Option Bytes →
    Except String (write_session × Bytes × Option Bytes)
  | 0, _, _, _ => Except.error "fuel exhausted"
  | fuel + 1, s, pos, rpos =>
    match pos with
    | none => Except.error "cache end dereference"
    | some q =>
      match storeGet s.cache q with
      | none => Except.error "cache end dereference"
      | some e =>
        if e.current_value = none then do
          let r ← pullDownTo store ((storeKeys store).length + 1) s rpos q
          skipAbsentDown store fuel r.1 (cachePrevKey r.1.cache (some q)) r.2
        else Except.ok (s, q, rpos)

/-- Embeds `view::iterator_impl::lower_bound_full_key`. -/
def lower_bound_full_key (store : Store) (npre : Bytes) (fuel : Nat)
    (s : write_session) (it : IterImpl) (full_key : Bytes) :
    Except String (write_session × IterImpl) := do
  let rpos := rocksSeek store full_key
  let kv ← rocksRead store rpos
  let s1 := s.fill_cache kv.1 kv.2
  let pos0 := if kv.1 ≠ full_key then cacheLowerBound s1.cache full_key else some kv.1
  let r ← skipAbsent store fuel s1 pos0 rpos
  if BLe npre r.2.1 then
    Except.ok (r.1, { it with cache_it := none, rocks_it := r.2.2 })
  else
    Except.ok (r.1, { cache_it := some r.2.1,
                      cache_it_num_erases := numErasesOf r.1.cache r.2.1,
                      rocks_it := r.2.2 })

/-- Embeds `view::iterator_impl::operator++` (with `move_to_begin` for the
end position, which is `lower_bound_full_key(prefix)`). -/
def iter_inc (store : Store) (pre npre : Bytes) (fuel : Nat) (s : write_session)
    (it : IterImpl) : Except String (write_session × IterImpl) :=
  match it.cache_it with
  | none => lower_bound_full_key store npre fuel s it pre
  | some q =>
    match storeGet s.cache q with
    | none => Except.error "cache end dereference"
    | some e =>
      if it.cache_it_num_erases ≠ e.num_erases then
        Except.error "kv iterator is at an erased value"
      else do
        let r1 ← pullUpTo store ((storeKeys store).length + 1) s it.rocks_it q
        let r ← skipAbsent store fuel r1.1 (cacheNextKey r1.1.cache q) r1.2
        if BLe npre r.2.1 then
          Except.ok (r.1, { it with cache_it := none, rocks_it := r.2.2 })
        else
          Except.ok (r.1, { cache_it := some r.2.1,
                            cache_it_num_erases := numErasesOf r.1.cache r.2.1,
                            rocks_it := r.2.2 })

/-- The shared tail of `operator--`: the do-loop from a cache position,
then the begin-boundary check. -/
def iter_dec_from (store : Store) (pre : Bytes) (fuel : Nat) (s : write_session)
    (pos rpos : Option Bytes) (it : IterImpl) :
    Except String (write_session × IterImpl) :=
  match pos with
  | none => Except.error "cache end dereference"
  | some q => do
    let r1 ← pullDownTo store ((storeKeys store).length + 1) s rpos q
    let r ← skipAbsentDown store fuel r1.1 (cachePrevKey r1.1.cache (some q)) r1.2
    if BLt r.2.1 pre then
      Except.ok (r.1, { it with cache_it := none, rocks_it := r.2.2 })
    else
      Except.ok (r.1, { cache_it := some r.2.1,
                        cache_it_num_erases := numErasesOf r.1.cache r.2.1,
                        rocks_it := r.2.2 })

/-- Embeds `view::iterator_impl::operator--`. -/
def iter_dec (store : Store) (pre npre : Bytes) (fuel : Nat) (s : write_session)
    (it : IterImpl) : Except String (write_session × IterImpl) :=
  match it.cache_it with
  | none => do
    let rpos := rocksSeek store npre
    let kv ← rocksRead store rpos
    let s1 := s.fill_cache kv.1 kv.2
    let pos0 := if kv.1 ≠ npre then cacheLowerBound s1.cache npre else some kv.1
    iter_dec_from store pre fuel s1 pos0 rpos it
  | some q =>
    match storeGet s.cache q with
    | none => Except.error "cache end dereference"
    | some e =>
      if it.cache_it_num_erases ≠ e.num_erases then
        Except.error "kv iterator is at an erased value"
      else iter_dec_from store pre fuel s (some q) it.rocks_it it

/-- Embeds the `iterator_impl` constructor: build the full prefix's next
prefix, warm the cache around both ends of the range, and start at end. -/
def iter_ctor (store : Store) (s : write_session) (pre : Bytes) :
    Except String (write_session × IterImpl) := do
  let npre := get_next_pre pre
  let r0 := rocksSeek store pre
  let kv0 ← rocksRead store r0
  let s1 := s.fill_cache kv0.1 kv0.2
  let r1 := rocksPrevKey store kv0.1
  let kv1 ← rocksRead store r1
  let s2 := s1.fill_cache kv1.1 kv1.2
  let r2 := rocksSeek store npre
  let kv2 ← rocksRead store r2
  let s3 := s2.fill_cache kv2.1 kv2.2
  Except.ok (s3, { cache_it := none, cache_it_num_erases := 0, rocks_it := r2 })

/-- Embeds `view::iterator_impl::get_kv` (the key is returned with the
hidden prefix stripped). -/
def iter_get_kv (hiddenSz : Nat) (s : write_session) (it : IterImpl) :
    Except String (Option (Bytes × Bytes)) :=
  match it.cache_it with
  | none => Except.ok none
  | some q =>
    match storeGet s.cache q with
    | none => Except.error "cache end dereference"
    | some e =>
      if it.cache_it_num_erases ≠ e.num_erases then
        Except.error "kv iterator is at an erased value"
      else
        match e.current_value with
        | some v => Except.ok (some (q.drop hiddenSz, v))
        | none => Except.error "dereference of erased value"

/-! ## Erase-invalidation (claim C5) -/

/-- Erasing a cached key whose value is present bumps the entry's
`num_erases` by one (the entry survives under `changed`). -/
theorem erase_found_entry (store : Store) (s : write_session) (k v : Bytes)
    (e : cached_value) (hfind : storeGet s.cache k = some e)
    (hlive : e.current_value = some v) :
    ∃ e2, storeGet (s.erase store k).cache k = some e2 ∧
      e2.num_erases = e.num_erases + 1 := by
  have hcur : e.current_value ≠ none := by rw [hlive]; simp
  rw [erase_eq_found_some hfind hcur]
  rcases changed_cache_find
      { s with cache := storePut s.cache k ⟨e.num_erases + 1, e.orig_value, none, e.in_change_list⟩ }
      k k with heq | ⟨-, e3, hf3, heq⟩
  · rw [heq]
    refine ⟨⟨e.num_erases + 1, e.orig_value, none, e.in_change_list⟩, ?_, rfl⟩
    show storeGet (storePut s.cache k ⟨e.num_erases + 1, e.orig_value, none, e.in_change_list⟩) k = _
    rw [storeGet_put_self]
  · rw [heq]
    have hf3' : storeGet (storePut s.cache k
        ⟨e.num_erases + 1, e.orig_value, none, e.in_change_list⟩) k = some e3 := hf3
    rw [storeGet_put_self] at hf3'
    cases hf3'
    exact ⟨_, rfl, rfl⟩

/-- Overwriting a cached key leaves `num_erases` unchanged and makes the
current value the new one. -/
theorem set_found_entry (store : Store) (s : write_session) (k w : Bytes)
    (e : cached_value) (hfind : storeGet s.cache k = some e) :
    ∃ e2, storeGet (s.set store k w).cache k = some e2 ∧
      e2.num_erases = e.num_erases ∧ e2.current_value = some w := by
  by_cases hcur : e.current_value = some w
  · rw [set_eq_found_eq hfind hcur]
    exact ⟨e, hfind, rfl, hcur⟩
  · rw [set_eq_found_ne hfind hcur]
    rcases changed_cache_find
        { s with cache := storePut s.cache k { e with current_value := some w } }
        k k with heq | ⟨-, e3, hf3, heq⟩
    · rw [heq]
      refine ⟨{ e with current_value := some w }, ?_, rfl, rfl⟩
      show storeGet (storePut s.cache k { e with current_value := some w }) k = _
      rw [storeGet_put_self]
    · rw [heq]
      have hf3' : storeGet (storePut s.cache k { e with current_value := some w }) k =
          some e3 := hf3
      rw [storeGet_put_self] at hf3'
      cases hf3'
      exact ⟨_, rfl, rfl, rfl⟩

/-- Claim C5, amended: if an iterator is positioned on key `k` (not at end,
snapshot matching the entry), then after `erase k` through the same session
the next `get_kv`, `++` or `--` on it fails with the "kv iterator is at an
erased value" error; but after a `set` (overwrite) of `k` the iterator is
NOT invalidated: `get_kv` succeeds and returns the new value. -/
theorem claim_C5_amended (store : Store) (pre npre : Bytes) (hiddenSz fuel : Nat)
    (s : write_session) (it : IterImpl) (k v w : Bytes) (e : cached_value)
    (hpos : it.cache_it = some k)
    (hfind : storeGet s.cache k = some e)
    (hsnap : it.cache_it_num_erases = e.num_erases)
    (hlive : e.current_value = some v) :
    (iter_get_kv hiddenSz (s.erase store k) it =
        Except.error "kv iterator is at an erased value" ∧
     iter_inc store pre npre fuel (s.erase store k) it =
        Except.error "kv iterator is at an erased value" ∧
     iter_dec store pre npre fuel (s.erase store k) it =
        Except.error "kv iterator is at an erased value") ∧
    iter_get_kv hiddenSz (s.set store k w) it =
      Except.ok (some (k.drop hiddenSz, w)) := by
  obtain ⟨e2, hf2, hn2⟩ := erase_found_entry store s k v e hfind hlive
  obtain ⟨e3, hf3, hn3, hc3⟩ := set_found_entry store s k w e hfind
  have hmis : it.cache_it_num_erases ≠ e2.num_erases := by omega
  have hok : ¬ it.cache_it_num_erases ≠ e3.num_erases := by omega
  refine ⟨⟨?_, ?_, ?_⟩, ?_⟩
  · unfold iter_get_kv
    rw [hpos]
    simp only [hf2]
    rw [if_pos hmis]
  · unfold iter_inc
    rw [hpos]
    simp only [hf2]
    rw [if_pos hmis]
  · unfold iter_dec
    rw [hpos]
    simp only [hf2]
    rw [if_pos hmis]
  · unfold iter_get_kv
    rw [hpos]
    simp only [hf3]
    rw [if_neg hok]
    simp only [hc3]

/-- A three-key store (both sentinels plus one key of the `0x70` contract
range) used to refute claim C5 as stated. -/
def c5Store : Store :=
  [([byteOf 0x00], []), ([byteOf 0x70, byteOf 1], [byteOf 5]), ([byteOf 0xff], [])]

/-- Counterexample to claim C5 as stated: build a real iterator with the
constructor, step it onto key `0x70 01` with `++`, then OVERWRITE that key
through the same session with `set`. The claim says the next `get_kv` must
fail with the iterator-erased error; instead it succeeds and returns the
new value (`set` does not change `num_erases`; only `erase` does). -/
theorem claim_C5_counterexample :
    ∃ s1 it0 s2 it1,
      iter_ctor c5Store {} [byteOf 0x70] = Except.ok (s1, it0) ∧
      iter_inc c5Store [byteOf 0x70] (get_next_pre [byteOf 0x70]) 10 s1 it0 =
        Except.ok (s2, it1) ∧
      it1.cache_it = some [byteOf 0x70, byteOf 1] ∧
      iter_get_kv 1 (s2.set c5Store [byteOf 0x70, byteOf 1] [byteOf 7]) it1 =
        Except.ok (some ([byteOf 1], [byteOf 7])) := by
  exact ⟨_, _, _, _, rfl, rfl, rfl, rfl⟩

/-- Witness for the amended C5: a concrete positioned iterator really is
invalidated by `erase`. -/
theorem claim_C5_amended_witness :
    iter_get_kv 0 (write_session.erase
        ⟨[([byteOf 0x20], ⟨0, some [byteOf 5], some [byteOf 5], false⟩)], []⟩ []
        [byteOf 0x20])
      ⟨some [byteOf 0x20], 0, none⟩ =
      Except.error "kv iterator is at an erased value" :=
  (claim_C5_amended [] [] [] 0 3
    ⟨[([byteOf 0x20], ⟨0, some [byteOf 5], some [byteOf 5], false⟩)], []⟩
    ⟨some [byteOf 0x20], 0, none⟩ [byteOf 0x20] [byteOf 5] [byteOf 7]
    ⟨0, some [byteOf 5], some [byteOf 5], false⟩ rfl (by decide) rfl rfl).1.1

/-! ## Sorted-search facts for the iterator loops (claims C4, C9) -/

theorem ble_refl (a : Bytes) : BLe a a := by
  rw [BLe, compare_blob_self]
  simp

theorem ble_antisymm {a b : Bytes} (h1 : BLe a b) (h2 : BLe b a) : a = b := by
  rcases ble_iff.mp h1 with h3 | h3
  · rcases ble_iff.mp h2 with h4 | h4
    · exact absurd h4 (blt_asymm h3)
    · exact h4.symm
  · exact h3

theorem ble_of_blt {a b : Bytes} (h : BLt a b) : BLe a b := ble_iff.mpr (Or.inl h)

theorem sorted_find?_spec {l : List Bytes} (hs : List.Pairwise BLt l) (p : Bytes → Bool) :
    (∀ r, l.find? p = some r → r ∈ l ∧ p r = true ∧ ∀ x ∈ l, p x = true → BLe r x) ∧
    (l.find? p = none → ∀ x ∈ l, p x = false) := by
  induction l with
  | nil => exact ⟨(fun r hr => nomatch hr), (fun _ x hx => nomatch hx)⟩
  | cons a tl ih =>
    obtain ⟨ihs, ihn⟩ := ih (List.Pairwise.sublist (List.sublist_cons_self a tl) hs)
    have hlt : ∀ x ∈ tl, BLt a x := fun x hx => (List.pairwise_cons.mp hs).1 x hx
    cases hpa : p a with
    | true =>
      refine ⟨?_, ?_⟩
      · intro r hr
        rw [List.find?_cons_of_pos _ hpa] at hr
        cases hr
        refine ⟨by simp, hpa, ?_⟩
        intro x hx _
        rcases List.mem_cons.mp hx with rfl | hx2
        · exact ble_refl x
        · exact ble_of_blt (hlt x hx2)
      · intro hn
        rw [List.find?_cons_of_pos _ hpa] at hn
        cases hn
    | false =>
      refine ⟨?_, ?_⟩
      · intro r hr
        rw [List.find?_cons_of_neg _ (by simp [hpa])] at hr
        obtain ⟨hm, hp, hmin⟩ := ihs r hr
        refine ⟨by simp [hm], hp, ?_⟩
        intro x hx hpx
        rcases List.mem_cons.mp hx with rfl | hx2
        · rw [hpa] at hpx
          cases hpx
        · exact hmin x hx2 hpx
      · intro hn
        rw [List.find?_cons_of_neg _ (by simp [hpa])] at hn
        intro x hx
        rcases List.mem_cons.mp hx with rfl | hx2
        · exact hpa
        · exact ihn hn x hx2

theorem sorted_getLast?_spec {l : List Bytes} (hs : List.Pairwise BLt l) :
    (∀ r, l.getLast? = some r → r ∈ l ∧ ∀ x ∈ l, BLe x r) ∧
    (l.getLast? = none → l = []) := by
  induction l with
  | nil => exact ⟨(fun r hr => nomatch hr), (fun _ => rfl)⟩
  | cons a tl ih =>
    obtain ⟨ihs, -⟩ := ih (List.Pairwise.sublist (List.sublist_cons_self a tl) hs)
    have hlt : ∀ x ∈ tl, BLt a x := fun x hx => (List.pairwise_cons.mp hs).1 x hx
    refine ⟨?_, ?_⟩
    · intro r hr
      cases htl : tl with
      | nil =>
        subst htl
        rw [List.getLast?_singleton] at hr
        cases hr
        refine ⟨by simp, ?_⟩
        intro x hx
        rcases List.mem_cons.mp hx with rfl | h2
        · exact ble_refl x
        · cases h2
      | cons b tl2 =>
        rw [htl] at hr ihs hlt
        rw [List.getLast?_cons_cons] at hr
        obtain ⟨hm, hmax⟩ := ihs r hr
        refine ⟨by simp [hm], ?_⟩
        intro x hx
        rcases List.mem_cons.mp hx with rfl | hx2
        · exact ble_of_blt (blt_of_blt_of_ble (hlt _ (by simp)) (hmax b (by simp)))
        · exact hmax x hx2
    · intro hn
      cases htl : tl with
      | nil =>
        rw [htl, List.getLast?_singleton] at hn
        cases hn
      | cons b tl2 =>
        rw [htl, List.getLast?_cons_cons] at hn
        have h2 : (b :: tl2).getLast?.isSome := List.getLast?_isSome.mpr (by simp)
        rw [hn] at h2
        cases h2

theorem lbKey_some {l : List Bytes} {k r : Bytes} (hs : List.Pairwise BLt l)
    (h : l.find? (fun x => decide (BLe k x)) = some r) :
    r ∈ l ∧ BLe k r ∧ ∀ x ∈ l, BLe k x → BLe r x := by
  obtain ⟨hm, hp, hmin⟩ := (sorted_find?_spec hs _).1 r h
  exact ⟨hm, of_decide_eq_true hp, fun x hx hkx => hmin x hx (decide_eq_true hkx)⟩

theorem lbKey_none {l : List Bytes} {k : Bytes} (hs : List.Pairwise BLt l)
    (h : l.find? (fun x => decide (BLe k x)) = none) :
    ∀ x ∈ l, ¬ BLe k x := by
  intro x hx hkx
  have h2 := (sorted_find?_spec hs _).2 h x hx
  rw [decide_eq_true hkx] at h2
  cases h2

theorem nextKey_some {l : List Bytes} {k r : Bytes} (hs : List.Pairwise BLt l)
    (h : l.find? (fun x => decide (BLt k x)) = some r) :
    r ∈ l ∧ BLt k r ∧ ∀ x ∈ l, BLt k x → BLe r x := by
  obtain ⟨hm, hp, hmin⟩ := (sorted_find?_spec hs _).1 r h
  exact ⟨hm, of_decide_eq_true hp, fun x hx hkx => hmin x hx (decide_eq_true hkx)⟩

theorem nextKey_none {l : List Bytes} {k : Bytes} (hs : List.Pairwise BLt l)
    (h : l.find? (fun x => decide (BLt k x)) = none) :
    ∀ x ∈ l, ¬ BLt k x := by
  intro x hx hkx
  have h2 := (sorted_find?_spec hs _).2 h x hx
  rw [decide_eq_true hkx] at h2
  cases h2

theorem prevKey_some {l : List Bytes} {k r : Bytes} (hs : List.Pairwise BLt l)
    (h : (l.filter (fun x => decide (BLt x k))).getLast? = some r) :
    r ∈ l ∧ BLt r k ∧ ∀ x ∈ l, BLt x k → BLe x r := by
  obtain ⟨hm, hmax⟩ := (sorted_getLast?_spec (List.Pairwise.filter _ hs)).1 r h
  obtain ⟨hm2, hp2⟩ := List.mem_filter.mp hm
  exact ⟨hm2, of_decide_eq_true hp2, fun x hx hxk =>
    hmax x (List.mem_filter.mpr ⟨hx, decide_eq_true hxk⟩)⟩

theorem prevKey_none {l : List Bytes} {k : Bytes} (hs : List.Pairwise BLt l)
    (h : (l.filter (fun x => decide (BLt x k))).getLast? = none) :
    ∀ x ∈ l, ¬ BLt x k := by
  intro x hx hxk
  have h2 := (sorted_getLast?_spec (List.Pairwise.filter _ hs)).2 h
  have h3 : x ∈ l.filter (fun x => decide (BLt x k)) :=
    List.mem_filter.mpr ⟨hx, decide_eq_true hxk⟩
  rw [h2] at h3
  cases h3

theorem lastKey_some {l : List Bytes} {r : Bytes} (hs : List.Pairwise BLt l)
    (h : l.getLast? = some r) : r ∈ l ∧ ∀ x ∈ l, BLe x r :=
  (sorted_getLast?_spec hs).1 r h

theorem lastKey_none {l : List Bytes} (hs : List.Pairwise BLt l)
    (h : l.getLast? = none) : l = [] :=
  (sorted_getLast?_spec hs).2 h

/-! ## Cache warming (fills) during iteration -/

/-- What warming the cache from the store does to a session: the change
list is untouched, existing entries are untouched, any new entry is the
clean image of the store's value at its key, and so the merged view is
unchanged. -/
def fillExt (store : Store) (s s2 : write_session) : Prop :=
  s2.change_list = s.change_list ∧
  (∀ k e, storeGet s.cache k = some e → storeGet s2.cache k = some e) ∧
  (∀ k, storeGet s2.cache k = storeGet s.cache k ∨
    (storeGet s.cache k = none ∧ ∃ v, storeGet store k = some v ∧
      storeGet s2.cache k = some ⟨0, some v, some v, false⟩)) ∧
  (∀ j, mergedGet store s2 j = mergedGet store s j)

theorem fillExt_refl (store : Store) (s : write_session) : fillExt store s s :=
  ⟨rfl, fun _ _ h => h, fun _ => Or.inl rfl, fun _ => rfl⟩

theorem fillExt_trans {store : Store} {s1 s2 s3 : write_session}
    (h1 : fillExt store s1 s2) (h2 : fillExt store s2 s3) : fillExt store s1 s3 := by
  obtain ⟨hcl1, hkeep1, hnew1, hm1⟩ := h1
  obtain ⟨hcl2, hkeep2, hnew2, hm2⟩ := h2
  refine ⟨hcl2.trans hcl1, fun k e h => hkeep2 k e (hkeep1 k e h), ?_,
    fun j => (hm2 j).trans (hm1 j)⟩
  intro k
  rcases hnew2 k with h3 | ⟨h3, v, hv, h4⟩
  · rw [h3]
    exact hnew1 k
  · rcases hnew1 k with h5 | ⟨h5, w, hw, h6⟩
    · rw [h5] at h3
      exact Or.inr ⟨h3, v, hv, h4⟩
    · rw [h6] at h3
      cases h3

theorem fillExt_fill {store : Store} {s : write_session} {k v : Bytes}
    (hv : storeGet store k = some v) : fillExt store s (s.fill_cache k v) := by
  cases hfind : storeGet s.cache k with
  | some e =>
    rw [fill_eq_found hfind]
    exact fillExt_refl store s
  | none =>
    rw [fill_eq_miss hfind]
    refine ⟨rfl, ?_, ?_, ?_⟩
    · intro j e h
      by_cases hj : j = k
      · subst hj
        rw [hfind] at h
        cases h
      · rw [storeGet_put_other _ hj]
        exact h
    · intro j
      by_cases hj : j = k
      · subst hj
        refine Or.inr ⟨hfind, v, hv, ?_⟩
        show storeGet (storePut s.cache j ⟨0, some v, some v, false⟩) j = _
        rw [storeGet_put_self]
      · exact Or.inl (storeGet_put_other _ hj)
    · intro j
      by_cases hj : j = k
      · subst hj
        show mergedGet store { s with cache := storePut s.cache j ⟨0, some v, some v, false⟩ } j = _
        unfold mergedGet
        show (match storeGet (storePut s.cache j ⟨0, some v, some v, false⟩) j with
          | some e => e.current_value
          | none => storeGet store j) = _
        rw [storeGet_put_self, hfind, hv]
      · unfold mergedGet
        show (match storeGet (storePut s.cache k ⟨0, some v, some v, false⟩) j with
          | some e => e.current_value
          | none => storeGet store j) = _
        rw [storeGet_put_other _ hj]

theorem fillExt_keys {store : Store} {s s2 : write_session}
    (h : fillExt store s s2) :
    ∀ x ∈ storeKeys s2.cache, x ∈ storeKeys s.cache ∨ x ∈ storeKeys store := by
  intro x hx
  obtain ⟨e, he⟩ := mem_storeKeys_get hx
  rcases h.2.2.1 x with h3 | ⟨-, v, hv, -⟩
  · rw [h3] at he
    exact Or.inl (storeGet_mem he)
  · exact Or.inr (storeGet_mem hv)

theorem fillExt_wf {store : Store} {s : write_session} {k v : Bytes}
    (hswf : sessionWF s) (hv : storeGet store k = some v) :
    sessionWF (s.fill_cache k v) := (fill_spec s k v hswf).1

/-- A key is live in the merged session view. -/
def mergedLive (store : Store) (s : write_session) (k : Bytes) : Prop :=
  mergedGet store s k ≠ none

/-- Invariant of the rocksdb cursor during an upward walk that started at
`lo`: it sits on a store key `r`, at or above `lo`, and every store key of
`[lo, r]` has already been warmed into the cache. -/
def RInv (store : Store) (s : write_session) (lo r : Bytes) : Prop :=
  r ∈ storeKeys store ∧ BLe lo r ∧
  ∀ x ∈ storeKeys store, BLe lo x → BLe x r → x ∈ storeKeys s.cache

theorem except_ok_bind {ε α β : Type} (a : α) (f : α → Except ε β) :
    (Except.ok a >>= f : Except ε β) = f a := rfl

theorem rocksRead_some {store : Store} {r v : Bytes} (hv : storeGet store r = some v) :
    rocksRead store (some r) = Except.ok (r, v) := by
  simp only [rocksRead, hv]

theorem fill_cache_mem (s : write_session) (k v : Bytes) :
    k ∈ storeKeys (s.fill_cache k v).cache := by
  cases hfind : storeGet s.cache k with
  | some e =>
    rw [fill_eq_found hfind]
    exact storeGet_mem hfind
  | none =>
    rw [fill_eq_miss hfind]
    have : storeGet (storePut s.cache k ⟨0, some v, some v, false⟩) k =
        some ⟨0, some v, some v, false⟩ := storeGet_put_self _ _ _
    exact storeGet_mem this

theorem fillExt_mem {store : Store} {s s2 : write_session}
    (h : fillExt store s s2) :
    ∀ x ∈ storeKeys s.cache, x ∈ storeKeys s2.cache := by
  intro x hx
  obtain ⟨e, he⟩ := mem_storeKeys_get hx
  exact storeGet_mem (h.2.1 x e he)

theorem filter_blt_lt {l : List Bytes} {r r2 : Bytes} (hmem : r2 ∈ l) (h12 : BLt r r2) :
    (l.filter (fun x => decide (BLt r2 x))).length <
      (l.filter (fun x => decide (BLt r x))).length := by
  have hsub : l.filter (fun x => decide (BLt r2 x)) =
      (l.filter (fun x => decide (BLt r x))).filter (fun x => decide (BLt r2 x)) := by
    rw [List.filter_filter]
    apply List.filter_congr
    intro x _
    cases h2 : decide (BLt r2 x) with
    | false => rfl
    | true =>
      have h3 := blt_trans h12 (of_decide_eq_true h2)
      rw [decide_eq_true h3]
      rfl
  rw [hsub]
  apply List.length_filter_lt_length_iff_exists.mpr
  exact ⟨r2, List.mem_filter.mpr ⟨hmem, decide_eq_true h12⟩, by simp [blt_irrefl]⟩

/-- Specification of the upward inner loop: it succeeds, only warms the
cache, maintains the rocks invariant, and leaves the cursor strictly above
`bound` (fuel is enough when it exceeds the number of store keys above the
cursor). -/
theorem pullUpTo_spec (store : Store) (lo z bound : Bytes) :
    ∀ (fuel : Nat) (s : write_session) (r : Bytes),
    storeWF store → sessionWF s →
    RInv store s lo r →
    z ∈ storeKeys store → BLt bound z →
    ((storeKeys store).filter (fun x => decide (BLt r x))).length < fuel →
    ∃ s2 r2, pullUpTo store fuel s (some r) bound = Except.ok (s2, some r2) ∧
      fillExt store s s2 ∧ sessionWF s2 ∧
      RInv store s2 lo r2 ∧ BLt bound r2 ∧ BLe r r2 := by
  intro fuel
  induction fuel with
  | zero =>
    intro s r _ _ _ _ _ hfuel
    exact absurd hfuel (by omega)
  | succ fuel ih =>
    intro s r hwf hswf hr hz hbz hfuel
    obtain ⟨hrmem, hlor, hcov⟩ := hr
    obtain ⟨v, hv⟩ := mem_storeKeys_get hrmem
    by_cases h : BLe r bound
    · have hrz : BLt r z := blt_of_ble_of_blt h hbz
      have hnext : ∃ r2, rocksNextKey store r = some r2 := by
        cases hn : rocksNextKey store r with
        | some r2 => exact ⟨r2, rfl⟩
        | none =>
          exact absurd hrz (nextKey_none hwf hn z hz)
      obtain ⟨r2, hn⟩ := hnext
      obtain ⟨hr2mem, hrr2, hr2min⟩ := nextKey_some hwf hn
      obtain ⟨v2, hv2⟩ := mem_storeKeys_get hr2mem
      have heq : pullUpTo store (fuel + 1) s (some r) bound =
          pullUpTo store fuel (s.fill_cache r2 v2) (some r2) bound := by
        show (do
          let kv ← rocksRead store (some r)
          if BLe kv.1 bound then do
            let rpos2 := rocksNextKey store kv.1
            let kv2 ← rocksRead store rpos2
            pullUpTo store fuel (((s, some r).1).fill_cache kv2.1 kv2.2) rpos2 bound
          else Except.ok ((s, some r).1, (s, some r).2)) = _
        rw [rocksRead_some hv]
        rw [except_ok_bind]
        show (if BLe r bound then _ else _) = _
        rw [if_pos h]
        simp only [hn, rocksRead_some hv2, except_ok_bind]
      have hswf2 : sessionWF (s.fill_cache r2 v2) := (fill_spec s r2 v2 hswf).1
      have hfx : fillExt store s (s.fill_cache r2 v2) := fillExt_fill hv2
      have hr2inv : RInv store (s.fill_cache r2 v2) lo r2 := by
        refine ⟨hr2mem, ble_trans hlor (ble_of_blt hrr2), ?_⟩
        intro x hx hlox hxr2
        by_cases hxr : BLe x r
        · exact fillExt_mem hfx x (hcov x hx hlox hxr)
        · have hrx : BLt r x := blt_of_not_ble hxr
          have hx2 : BLe r2 x := hr2min x hx hrx
          have hxeq : x = r2 := ble_antisymm hxr2 hx2
          subst hxeq
          exact fill_cache_mem s x v2
      have hfuel2 : ((storeKeys store).filter (fun x => decide (BLt r2 x))).length < fuel := by
        have hlt := filter_blt_lt hr2mem hrr2
        omega
      obtain ⟨s3, r3, hrun, hfx3, hswf3, hrinv3, hbr3, hrr3⟩ :=
        ih (s.fill_cache r2 v2) r2 hwf hswf2 hr2inv hz hbz hfuel2
      refine ⟨s3, r3, ?_, fillExt_trans hfx hfx3, hswf3, hrinv3, hbr3,
        ble_trans (ble_of_blt hrr2) hrr3⟩
      rw [heq]
      exact hrun
    · have heq : pullUpTo store (fuel + 1) s (some r) bound =
          Except.ok (s, some r) := by
        show (do
          let kv ← rocksRead store (some r)
          if BLe kv.1 bound then do
            let rpos2 := rocksNextKey store kv.1
            let kv2 ← rocksRead store rpos2
            pullUpTo store fuel (((s, some r).1).fill_cache kv2.1 kv2.2) rpos2 bound
          else Except.ok ((s, some r).1, (s, some r).2)) = _
        rw [rocksRead_some hv]
        rw [except_ok_bind]
        show (if BLe r bound then _ else _) = _
        rw [if_neg h]
      exact ⟨s, r, heq, fillExt_refl store s, hswf,
        ⟨hrmem, hlor, hcov⟩, blt_of_not_ble h, ble_refl r⟩

theorem fillExt_live {store : Store} {s s2 : write_session} (h : fillExt store s s2)
    (x : Bytes) : mergedLive store s2 x ↔ mergedLive store s x := by
  unfold mergedLive
  rw [h.2.2.2 x]

theorem filter_between_lt {K : List Bytes} {q q1 z : Bytes} (hmem : q1 ∈ K)
    (hqq1 : BLt q q1) (hq1z : BLe q1 z) :
    (K.filter (fun x => decide (BLt q1 x) && decide (BLe x z))).length <
      (K.filter (fun x => decide (BLt q x) && decide (BLe x z))).length := by
  have hsub : K.filter (fun x => decide (BLt q1 x) && decide (BLe x z)) =
      (K.filter (fun x => decide (BLt q x) && decide (BLe x z))).filter
        (fun x => decide (BLt q1 x) && decide (BLe x z)) := by
    rw [List.filter_filter]
    apply List.filter_congr
    intro x _
    cases h1 : decide (BLt q1 x) with
    | false => rfl
    | true =>
      cases h2 : decide (BLe x z) with
      | false => simp
      | true =>
        have h3 := blt_trans hqq1 (of_decide_eq_true h1)
        rw [decide_eq_true h3]
        rfl
  rw [hsub]
  apply List.length_filter_lt_length_iff_exists.mpr
  refine ⟨q1, List.mem_filter.mpr ⟨hmem, ?_⟩, ?_⟩
  · rw [decide_eq_true hqq1, decide_eq_true hq1z]
    rfl
  · simp [blt_irrefl]

/-- A key that is merged-live but cache-absent must be a store key. -/
theorem live_not_cached_mem_store {store : Store} {s : write_session} {x : Bytes}
    (hlive : mergedLive store s x) (hnc : storeGet s.cache x = none) :
    x ∈ storeKeys store := by
  unfold mergedLive mergedGet at hlive
  rw [hnc] at hlive
  cases hst : storeGet store x with
  | none => rw [hst] at hlive; exact absurd rfl hlive
  | some v => exact storeGet_mem hst

/-- Specification of the skip-absent outer loop: starting at cache key `q`
it stops at the least merged-live key at or above `q`, only warming the
cache on the way, and keeps the rocks invariant. `z` is a live cached store
key at or above `q` (in the source, a warmed sentinel) that stops the walk;
`K` is any fixed superset of the store's and the session's keys, giving the
fuel bound. -/
theorem skipAbsent_spec (store : Store) (lo z : Bytes) (K : List Bytes)
    (hwf : storeWF store) (hz : z ∈ storeKeys store)
    (hKs : ∀ x ∈ storeKeys store, x ∈ K) :
    ∀ (fuel : Nat) (s : write_session) (q r : Bytes),
    sessionWF s →
    q ∈ storeKeys s.cache →
    RInv store s lo r →
    BLe q r → BLe lo q →
    z ∈ storeKeys s.cache → mergedLive store s z → BLe q z →
    (∀ x ∈ storeKeys s.cache, x ∈ K) →
    (K.filter (fun x => decide (BLt q x) && decide (BLe x z))).length < fuel →
    ∃ s2 m r2, skipAbsent store fuel s (some q) (some r) = Except.ok (s2, m, some r2) ∧
      fillExt store s s2 ∧ sessionWF s2 ∧
      mergedLive store s m ∧ BLe q m ∧
      (∀ x, BLe q x → BLt x m → ¬ mergedLive store s x) ∧
      m ∈ storeKeys s2.cache ∧
      RInv store s2 lo r2 ∧ BLe m r2 ∧ BLe m z := by
  intro fuel
  induction fuel with
  | zero =>
    intro s q r _ _ _ _ _ _ _ _ _ hfuel
    exact absurd hfuel (by omega)
  | succ fuel ih =>
    intro s q r hswf hq hr hqr hloq hzc hzlive hqz hKc hfuel
    obtain ⟨e, he⟩ := mem_storeKeys_get hq
    by_cases hcv : e.current_value = none
    · -- absent: pull the store up to q, advance the cache cursor, recurse
      have hqlive : ¬ mergedLive store s q := by
        unfold mergedLive mergedGet
        rw [he]
        show ¬ (e.current_value ≠ none)
        rw [hcv]
        simp
      have hqz' : BLt q z := by
        rcases ble_iff.mp hqz with h1 | h1
        · exact h1
        · subst h1
          exact absurd hzlive hqlive
      obtain ⟨s2, r2, hpull, hfx2, hswf2, hrinv2, hqr2, hrr2⟩ :=
        pullUpTo_spec store lo z q ((storeKeys store).length + 1) s r hwf hswf hr hz hqz'
          (by have := List.length_filter_le (fun x => decide (BLt r x)) (storeKeys store)
              omega)
      have hzc2 : z ∈ storeKeys s2.cache := fillExt_mem hfx2 z hzc
      have hnext : ∃ q1, cacheNextKey s2.cache q = some q1 := by
        cases hn : cacheNextKey s2.cache q with
        | some q1 => exact ⟨q1, rfl⟩
        | none => exact absurd hqz' (nextKey_none hswf2.wf hn z hzc2)
      obtain ⟨q1, hn⟩ := hnext
      obtain ⟨hq1mem, hqq1, hq1min⟩ := nextKey_some hswf2.wf hn
      have hr2c : r2 ∈ storeKeys s2.cache :=
        hrinv2.2.2 r2 hrinv2.1 hrinv2.2.1 (ble_refl r2)
      have hq1r2 : BLe q1 r2 := hq1min r2 hr2c hqr2
      have hq1z : BLe q1 z := hq1min z hzc2 hqz'
      have hKc2 : ∀ x ∈ storeKeys s2.cache, x ∈ K := by
        intro x hx
        rcases fillExt_keys hfx2 x hx with h1 | h1
        · exact hKc x h1
        · exact hKs x h1
      have hfuel2 : (K.filter (fun x => decide (BLt q1 x) && decide (BLe x z))).length <
          fuel := by
        have hlt := filter_between_lt (hKc2 q1 hq1mem) hqq1 hq1z
        omega
      obtain ⟨s3, m, r3, hrun, hfx3, hswf3, hmlive2, hq1m, hmin2, hmc, hrinv3, hmr3, hmz⟩ :=
        ih s2 q1 r2 hswf2 hq1mem hrinv2 hq1r2
          (ble_trans hloq (ble_of_blt hqq1)) hzc2
          ((fillExt_live hfx2 z).mpr hzlive) hq1z hKc2 hfuel2
      have heq : skipAbsent store (fuel + 1) s (some q) (some r) =
          skipAbsent store fuel s2 (cacheNextKey s2.cache q) (some r2) := by
        show (match storeGet s.cache q with
          | none => Except.error "cache end dereference"
          | some e =>
            if e.current_value = none then do
              let rr ← pullUpTo store ((storeKeys store).length + 1) s (some r) q
              skipAbsent store fuel rr.1 (cacheNextKey rr.1.cache q) rr.2
            else Except.ok (s, q, some r)) = _
        rw [he]
        show (if e.current_value = none then do
              let rr ← pullUpTo store ((storeKeys store).length + 1) s (some r) q
              skipAbsent store fuel rr.1 (cacheNextKey rr.1.cache q) rr.2
            else Except.ok (s, q, some r)) = _
        rw [if_pos hcv, hpull, except_ok_bind]
      refine ⟨s3, m, r3, ?_, fillExt_trans hfx2 hfx3, hswf3,
        (fillExt_live hfx2 m).mp hmlive2,
        ble_trans (ble_of_blt hqq1) hq1m, ?_, hmc, hrinv3, hmr3, hmz⟩
      · rw [heq, hn]
        exact hrun
      · -- minimality over [q, m)
        intro x hqx hxm hxlive
        by_cases hx1 : BLe q1 x
        · exact hmin2 x hx1 hxm ((fillExt_live hfx2 x).mpr hxlive)
        · have hxq1 : BLt x q1 := blt_of_not_ble hx1
          rcases ble_iff.mp hqx with hqx' | hqx'
          · -- q < x < q1: x cannot be a key at all
            cases hxc : storeGet s2.cache x with
            | some e2 =>
              have h9 := hq1min x (storeGet_mem hxc) hqx'
              exact absurd (blt_of_blt_of_ble hxq1 h9) (blt_irrefl x)
            | none =>
              have hxlive2 : mergedLive store s2 x := (fillExt_live hfx2 x).mpr hxlive
              have hxs : x ∈ storeKeys store := live_not_cached_mem_store hxlive2 hxc
              have hxcov : x ∈ storeKeys s2.cache :=
                hrinv2.2.2 x hxs (ble_trans hloq (ble_of_blt hqx'))
                  (ble_trans (ble_of_blt hxq1) hq1r2)
              obtain ⟨e3, he3⟩ := mem_storeKeys_get hxcov
              rw [he3] at hxc
              cases hxc
          · subst hqx'
            exact hqlive hxlive
    · -- live: the loop stops here
      have heq : skipAbsent store (fuel + 1) s (some q) (some r) =
          Except.ok (s, q, some r) := by
        show (match storeGet s.cache q with
          | none => Except.error "cache end dereference"
          | some e =>
            if e.current_value = none then do
              let rr ← pullUpTo store ((storeKeys store).length + 1) s (some r) q
              skipAbsent store fuel rr.1 (cacheNextKey rr.1.cache q) rr.2
            else Except.ok (s, q, some r)) = _
        rw [he]
        show (if e.current_value = none then do
              let rr ← pullUpTo store ((storeKeys store).length + 1) s (some r) q
              skipAbsent store fuel rr.1 (cacheNextKey rr.1.cache q) rr.2
            else Except.ok (s, q, some r)) = _
        rw [if_neg hcv]
      refine ⟨s, q, r, heq, fillExt_refl store s, hswf, ?_, ble_refl q, ?_,
        hq, hr, hqr, hqz⟩
      · unfold mergedLive mergedGet
        rw [he]
        exact hcv
      · intro x hqx hxq
        exact absurd (blt_of_ble_of_blt hqx hxq) (blt_irrefl q)

theorem filter_length_mono {K : List Bytes} {p q : Bytes → Bool}
    (h : ∀ x, p x = true → q x = true) :
    (K.filter p).length ≤ (K.filter q).length := by
  have heq : K.filter p = (K.filter q).filter p := by
    rw [List.filter_filter]
    apply List.filter_congr
    intro x _
    cases hp : p x with
    | false => rfl
    | true =>
      rw [h x hp]
      rfl
  rw [heq]
  exact List.length_filter_le _ _

/-- Specification of `lower_bound_full_key`: it warms the cache, finds the
least merged-live key `m` at or above `full_key`, and positions on it
(or at end when `m` has left the prefix range). -/
theorem lbfk_spec (store : Store) (npre z : Bytes) (K : List Bytes)
    (hwf : storeWF store) (hz : z ∈ storeKeys store)
    (hKs : ∀ x ∈ storeKeys store, x ∈ K)
    (fuel : Nat) (s : write_session) (it : IterImpl) (full_key : Bytes)
    (hswf : sessionWF s)
    (hzc : z ∈ storeKeys s.cache) (hzlive : mergedLive store s z)
    (hnz : BLe npre z) (hfn : BLt full_key npre)
    (hKc : ∀ x ∈ storeKeys s.cache, x ∈ K)
    (hfuel : (K.filter (fun x => decide (BLe full_key x) && decide (BLe x z))).length
      < fuel) :
    ∃ s2 m r2, lower_bound_full_key store npre fuel s it full_key =
        Except.ok (s2,
          if BLe npre m then { it with cache_it := none, rocks_it := some r2 }
          else { cache_it := some m, cache_it_num_erases := numErasesOf s2.cache m,
                 rocks_it := some r2 }) ∧
      fillExt store s s2 ∧ sessionWF s2 ∧
      mergedLive store s m ∧ BLe full_key m ∧
      (∀ x, BLe full_key x → BLt x m → ¬ mergedLive store s x) ∧
      m ∈ storeKeys s2.cache ∧
      RInv store s2 full_key r2 ∧ BLe m r2 ∧ BLe m z := by
  have hfz : BLe full_key z := ble_trans (ble_of_blt hfn) hnz
  have hseek : ∃ r0, rocksSeek store full_key = some r0 := by
    cases hn : rocksSeek store full_key with
    | some r0 => exact ⟨r0, rfl⟩
    | none => exact absurd hfz (lbKey_none hwf hn z hz)
  obtain ⟨r0, hseek0⟩ := hseek
  obtain ⟨hr0mem, hfr0, hr0min⟩ := lbKey_some hwf hseek0
  obtain ⟨v0, hv0⟩ := mem_storeKeys_get hr0mem
  have hswf1 : sessionWF (s.fill_cache r0 v0) := (fill_spec s r0 v0 hswf).1
  have hfx1 : fillExt store s (s.fill_cache r0 v0) := fillExt_fill hv0
  have hrinv1 : RInv store (s.fill_cache r0 v0) full_key r0 := by
    refine ⟨hr0mem, hfr0, ?_⟩
    intro x hx hfx hxr
    have h1 := hr0min x hx hfx
    have hxeq : x = r0 := ble_antisymm hxr h1
    subst hxeq
    exact fill_cache_mem s x v0
  have hzc1 : z ∈ storeKeys (s.fill_cache r0 v0).cache := fillExt_mem hfx1 z hzc
  have hzlive1 : mergedLive store (s.fill_cache r0 v0) z :=
    (fillExt_live hfx1 z).mpr hzlive
  have hKc1 : ∀ x ∈ storeKeys (s.fill_cache r0 v0).cache, x ∈ K := by
    intro x hx
    rcases fillExt_keys hfx1 x hx with h1 | h1
    · exact hKc x h1
    · exact hKs x h1
  -- the starting cache position and its properties
  have hmain : ∀ q0, q0 ∈ storeKeys (s.fill_cache r0 v0).cache →
      BLe full_key q0 → BLe q0 r0 →
      (∀ x ∈ storeKeys (s.fill_cache r0 v0).cache, BLe full_key x → BLe q0 x) →
      ∃ s2 m r2, skipAbsent store fuel (s.fill_cache r0 v0) (some q0) (some r0) =
          Except.ok (s2, m, some r2) ∧
        fillExt store s s2 ∧ sessionWF s2 ∧
        mergedLive store s m ∧ BLe full_key m ∧
        (∀ x, BLe full_key x → BLt x m → ¬ mergedLive store s x) ∧
        m ∈ storeKeys s2.cache ∧
        RInv store s2 full_key r2 ∧ BLe m r2 ∧ BLe m z := by
    intro q0 hq0c hfq0 hq0r0 hq0min
    have hq0z : BLe q0 z := hq0min z hzc1 hfz
    have hfuel1 : ((K.filter (fun x => decide (BLt q0 x) && decide (BLe x z))).length)
        < fuel := by
      have hmono := filter_length_mono (K := K)
        (p := fun x => decide (BLt q0 x) && decide (BLe x z))
        (q := fun x => decide (BLe full_key x) && decide (BLe x z))
        (by
          intro x hx
          have hx2 : (decide (BLt q0 x) && decide (BLe x z)) = true := hx
          rw [Bool.and_eq_true] at hx2
          have h1 := of_decide_eq_true hx2.1
          show (decide (BLe full_key x) && decide (BLe x z)) = true
          rw [decide_eq_true (ble_trans hfq0 (ble_of_blt h1)), hx2.2]
          rfl)
      omega
    obtain ⟨s2, m, r2, hrun, hfx2, hswf2, hmlive, hq0m, hmin, hmc, hrinv2, hmr2, hmz⟩ :=
      skipAbsent_spec store full_key z K hwf hz hKs fuel (s.fill_cache r0 v0) q0 r0
        hswf1 hq0c hrinv1 hq0r0 hfq0 hzc1 hzlive1 hq0z hKc1 hfuel1
    refine ⟨s2, m, r2, hrun, fillExt_trans hfx1 hfx2, hswf2,
      (fillExt_live hfx1 m).mp hmlive, ble_trans hfq0 hq0m, ?_, hmc, hrinv2, hmr2, hmz⟩
    intro x hfkx hxm hxlive
    by_cases hq0x : BLe q0 x
    · exact hmin x hq0x hxm ((fillExt_live hfx1 x).mpr hxlive)
    · have hxq0 : BLt x q0 := blt_of_not_ble hq0x
      have hxlive1 : mergedLive store (s.fill_cache r0 v0) x :=
        (fillExt_live hfx1 x).mpr hxlive
      cases hxc : storeGet (s.fill_cache r0 v0).cache x with
      | some e2 =>
        have h9 := hq0min x (storeGet_mem hxc) hfkx
        exact absurd (blt_of_blt_of_ble hxq0 h9) (blt_irrefl x)
      | none =>
        have hxs : x ∈ storeKeys store := live_not_cached_mem_store hxlive1 hxc
        have hxcov : x ∈ storeKeys (s.fill_cache r0 v0).cache :=
          hrinv1.2.2 x hxs hfkx (ble_trans (ble_of_blt hxq0) hq0r0)
        obtain ⟨e3, he3⟩ := mem_storeKeys_get hxcov
        rw [he3] at hxc
        cases hxc
  by_cases hne : r0 = full_key
  · -- the seeked store key IS full_key: the source starts from the fill result
    obtain ⟨s2, m, r2, hrun, hrest⟩ := hmain r0 (fill_cache_mem s r0 v0) hfr0
      (ble_refl r0) (fun x _ hx => by rw [hne]; exact hx)
    refine ⟨s2, m, r2, ?_, hrest⟩
    have heq : lower_bound_full_key store npre fuel s it full_key =
        (if BLe npre m then
          Except.ok (s2, { it with cache_it := none, rocks_it := some r2 })
         else
          Except.ok (s2,
            { cache_it := some m,
              cache_it_num_erases := numErasesOf s2.cache m,
              rocks_it := some r2 })) := by
      unfold lower_bound_full_key
      simp only [hseek0]
      rw [rocksRead_some hv0]
      simp only [except_ok_bind]
      rw [if_neg (not_not_intro hne)]
      rw [hrun]
      simp only [except_ok_bind]
    rw [heq]
    by_cases hb : BLe npre m
    · rw [if_pos hb, if_pos hb]
    · rw [if_neg hb, if_neg hb]
  · -- otherwise the source re-seeks the cache at full_key
    have hlb : ∃ q0, cacheLowerBound (s.fill_cache r0 v0).cache full_key = some q0 := by
      cases hn : cacheLowerBound (s.fill_cache r0 v0).cache full_key with
      | some q0 => exact ⟨q0, rfl⟩
      | none => exact absurd hfz (lbKey_none hswf1.wf hn z hzc1)
    obtain ⟨q0, hq0eq⟩ := hlb
    obtain ⟨hq0mem, hfq0, hq0min⟩ := lbKey_some hswf1.wf hq0eq
    have hq0r0 : BLe q0 r0 := hq0min r0 (fill_cache_mem s r0 v0) hfr0
    obtain ⟨s2, m, r2, hrun, hrest⟩ := hmain q0 hq0mem hfq0 hq0r0 hq0min
    refine ⟨s2, m, r2, ?_, hrest⟩
    have heq : lower_bound_full_key store npre fuel s it full_key =
        (if BLe npre m then
          Except.ok (s2, { it with cache_it := none, rocks_it := some r2 })
         else
          Except.ok (s2,
            { cache_it := some m,
              cache_it_num_erases := numErasesOf s2.cache m,
              rocks_it := some r2 })) := by
      unfold lower_bound_full_key
      simp only [hseek0]
      rw [rocksRead_some hv0]
      simp only [except_ok_bind]
      rw [if_pos hne, hq0eq]
      rw [hrun]
      simp only [except_ok_bind]
    rw [heq]
    by_cases hb : BLe npre m
    · rw [if_pos hb, if_pos hb]
    · rw [if_neg hb, if_neg hb]

/-- Invariant of a positioned iterator: it sits on a live cached key of the
prefix range, its erase-count snapshot matches, and the rocksdb cursor is a
store key at or above it with everything in `[pre, cursor]` warmed. -/
def IterInv (store : Store) (pre npre : Bytes) (s : write_session) (it : IterImpl) :
    Prop :=
  ∀ m, it.cache_it = some m →
    BLe pre m ∧ BLt m npre ∧ mergedLive store s m ∧ m ∈ storeKeys s.cache ∧
    it.cache_it_num_erases = numErasesOf s.cache m ∧
    ∃ r, it.rocks_it = some r ∧ RInv store s pre r ∧ BLe m r


/-- Specification of `operator++` from a positioned iterator: it moves to
the least merged-live key strictly above the current one (end when that
leaves the range), warming the cache only. -/
theorem iter_inc_spec (store : Store) (pre npre z : Bytes) (K : List Bytes)
    (hwf : storeWF store) (hz : z ∈ storeKeys store)
    (hKs : ∀ x ∈ storeKeys store, x ∈ K)
    (fuel : Nat) (s : write_session) (it : IterImpl) (q : Bytes)
    (hswf : sessionWF s)
    (hpos : it.cache_it = some q)
    (hinv : IterInv store pre npre s it)
    (hzc : z ∈ storeKeys s.cache) (hzlive : mergedLive store s z) (hnz : BLe npre z)
    (hKc : ∀ x ∈ storeKeys s.cache, x ∈ K)
    (hfuel : (K.filter (fun x => decide (BLe pre x) && decide (BLe x z))).length
      < fuel) :
    ∃ s2 m r2, iter_inc store pre npre fuel s it =
        Except.ok (s2,
          if BLe npre m then { it with cache_it := none, rocks_it := some r2 }
          else { cache_it := some m, cache_it_num_erases := numErasesOf s2.cache m,
                 rocks_it := some r2 }) ∧
      fillExt store s s2 ∧ sessionWF s2 ∧
      mergedLive store s m ∧ BLt q m ∧
      (∀ x, BLt q x → BLt x m → ¬ mergedLive store s x) ∧
      m ∈ storeKeys s2.cache ∧
      IterInv store pre npre s2
        (if BLe npre m then { it with cache_it := none, rocks_it := some r2 }
         else { cache_it := some m, cache_it_num_erases := numErasesOf s2.cache m,
                rocks_it := some r2 }) ∧
      BLe m z := by
  obtain ⟨hpq, hqn, hqlive, hqc, hsnap, r, hroc, hrinv, hqr⟩ := hinv q hpos
  obtain ⟨e, he⟩ := mem_storeKeys_get hqc
  have hsnap2 : it.cache_it_num_erases = e.num_erases := by
    rw [hsnap]
    unfold numErasesOf
    rw [he]
  have hok : ¬ it.cache_it_num_erases ≠ e.num_erases := not_not_intro hsnap2
  have hqz : BLt q z := blt_of_blt_of_ble hqn hnz
  obtain ⟨s1, r1, hpull, hfx1, hswf1, hrinv1, hqr1, hrr1⟩ :=
    pullUpTo_spec store pre z q ((storeKeys store).length + 1) s r hwf hswf hrinv hz hqz
      (by have := List.length_filter_le (fun x => decide (BLt r x)) (storeKeys store)
          omega)
  have hzc1 : z ∈ storeKeys s1.cache := fillExt_mem hfx1 z hzc
  have hzlive1 : mergedLive store s1 z := (fillExt_live hfx1 z).mpr hzlive
  have hKc1 : ∀ x ∈ storeKeys s1.cache, x ∈ K := by
    intro x hx
    rcases fillExt_keys hfx1 x hx with h1 | h1
    · exact hKc x h1
    · exact hKs x h1
  have hnext : ∃ q1, cacheNextKey s1.cache q = some q1 := by
    cases hn : cacheNextKey s1.cache q with
    | some q1 => exact ⟨q1, rfl⟩
    | none => exact absurd hqz (nextKey_none hswf1.wf hn z hzc1)
  obtain ⟨q1, hn⟩ := hnext
  obtain ⟨hq1mem, hqq1, hq1min⟩ := nextKey_some hswf1.wf hn
  have hr1c : r1 ∈ storeKeys s1.cache :=
    hrinv1.2.2 r1 hrinv1.1 hrinv1.2.1 (ble_refl r1)
  have hq1r1 : BLe q1 r1 := hq1min r1 hr1c hqr1
  have hq1z : BLe q1 z := hq1min z hzc1 hqz
  have hpq1 : BLe pre q1 := ble_trans hpq (ble_of_blt hqq1)
  have hfuel1 : ((K.filter (fun x => decide (BLt q1 x) && decide (BLe x z))).length)
      < fuel := by
    have hmono := filter_length_mono (K := K)
      (p := fun x => decide (BLt q1 x) && decide (BLe x z))
      (q := fun x => decide (BLe pre x) && decide (BLe x z))
      (by
        intro x hx
        have hx2 : (decide (BLt q1 x) && decide (BLe x z)) = true := hx
        rw [Bool.and_eq_true] at hx2
        have h1 := of_decide_eq_true hx2.1
        show (decide (BLe pre x) && decide (BLe x z)) = true
        rw [decide_eq_true (ble_trans hpq1 (ble_of_blt h1)), hx2.2]
        rfl)
    omega
  obtain ⟨s2, m, r2, hrun, hfx2, hswf2, hmlive1, hq1m, hmin1, hmc, hrinv2, hmr2, hmz⟩ :=
    skipAbsent_spec store pre z K hwf hz hKs fuel s1 q1 r1
      hswf1 hq1mem hrinv1 hq1r1 hpq1 hzc1 hzlive1 hq1z hKc1 hfuel1
  have hfx : fillExt store s s2 := fillExt_trans hfx1 hfx2
  have hmlive : mergedLive store s m := (fillExt_live hfx1 m).mp hmlive1
  have hqm : BLt q m := blt_of_blt_of_ble hqq1 hq1m
  have hmin : ∀ x, BLt q x → BLt x m → ¬ mergedLive store s x := by
    intro x hqx hxm hxlive
    by_cases hq1x : BLe q1 x
    · exact hmin1 x hq1x hxm ((fillExt_live hfx1 x).mpr hxlive)
    · have hxq1 : BLt x q1 := blt_of_not_ble hq1x
      have hxlive1 : mergedLive store s1 x := (fillExt_live hfx1 x).mpr hxlive
      cases hxc : storeGet s1.cache x with
      | some e2 =>
        have h9 := hq1min x (storeGet_mem hxc) hqx
        exact absurd (blt_of_blt_of_ble hxq1 h9) (blt_irrefl x)
      | none =>
        have hxs : x ∈ storeKeys store := live_not_cached_mem_store hxlive1 hxc
        have hxcov : x ∈ storeKeys s1.cache :=
          hrinv1.2.2 x hxs (ble_trans hpq (ble_of_blt hqx))
            (ble_trans (ble_of_blt hxq1) hq1r1)
        obtain ⟨e3, he3⟩ := mem_storeKeys_get hxcov
        rw [he3] at hxc
        cases hxc
  have heq : iter_inc store pre npre fuel s it =
      (if BLe npre m then
        Except.ok (s2, { it with cache_it := none, rocks_it := some r2 })
       else
        Except.ok (s2,
          { cache_it := some m,
            cache_it_num_erases := numErasesOf s2.cache m,
            rocks_it := some r2 })) := by
    unfold iter_inc
    rw [hpos]
    simp only [he]
    rw [if_neg hok, hroc, hpull]
    simp only [except_ok_bind]
    rw [hn, hrun]
    simp only [except_ok_bind]
  refine ⟨s2, m, r2, ?_, hfx, hswf2, hmlive, hqm, hmin, hmc, ?_, hmz⟩
  · rw [heq]
    by_cases hb : BLe npre m
    · rw [if_pos hb, if_pos hb]
    · rw [if_neg hb, if_neg hb]
  · by_cases hb : BLe npre m
    · rw [if_pos hb]
      intro m2 hm2
      cases hm2
    · rw [if_neg hb]
      intro m2 hm2
      have hm2e : m2 = m := by
        have h9 : some m = some m2 := hm2
        cases h9
        rfl
      subst hm2e
      exact ⟨ble_trans hpq (ble_of_blt hqm), blt_of_not_ble hb,
        (fillExt_live hfx m2).mpr hmlive, hmc, rfl,
        r2, rfl, hrinv2, hmr2⟩

/-- Iterating with `++` until the end state, recording each visited key
(the source pattern `for (it.move_to_begin(); !it.is_end(); ++it)`). -/
def collectLoop (store : Store) (pre npre : Bytes) (innerFuel : Nat) :
    Nat → write_session → IterImpl → List Bytes →
    Except String (List Bytes × write_session)
  | 0, _, _, _ => Except.error "fuel exhausted"
  | fuel + 1, s, it, acc =>
    match it.cache_it with
    | none => Except.ok (acc.reverse, s)
    | some q => do
      let r ← iter_inc store pre npre innerFuel s it
      collectLoop store pre npre innerFuel fuel r.1 r.2 (q :: acc)

/-- The whole iteration of claim C4: `move_to_begin()` (which is
`lower_bound_full_key(prefix)`), then `++` until end. -/
def iterate_range (store : Store) (pre : Bytes) (innerFuel outerFuel : Nat)
    (s : write_session) : Except String (List Bytes × write_session) := do
  let r ← lower_bound_full_key store (get_next_pre pre) innerFuel s ⟨none, 0, none⟩ pre
  collectLoop store pre (get_next_pre pre) innerFuel outerFuel r.1 r.2 []

theorem collectLoop_spec (store : Store) (pre npre z : Bytes) (K : List Bytes)
    (hwf : storeWF store) (hz : z ∈ storeKeys store)
    (hKs : ∀ x ∈ storeKeys store, x ∈ K) (hnz : BLe npre z) :
    ∀ (fuel innerFuel : Nat) (s : write_session) (it : IterImpl) (q : Bytes)
      (acc : List Bytes),
    sessionWF s → it.cache_it = some q → IterInv store pre npre s it →
    z ∈ storeKeys s.cache → mergedLive store s z →
    (∀ x ∈ storeKeys s.cache, x ∈ K) →
    (K.filter (fun x => decide (BLt q x) && decide (BLe x z))).length + 1 < fuel →
    (K.filter (fun x => decide (BLe pre x) && decide (BLe x z))).length < innerFuel →
    ∃ s2 L, collectLoop store pre npre innerFuel fuel s it acc =
        Except.ok (acc.reverse ++ q :: L, s2) ∧
      fillExt store s s2 ∧ sessionWF s2 ∧
      List.Pairwise BLt (q :: L) ∧
      (∀ k, k ∈ q :: L ↔ BLe q k ∧ BLt k npre ∧ mergedLive store s k) := by
  intro fuel
  induction fuel with
  | zero =>
    intro innerFuel s it q acc _ _ _ _ _ _ hfuel _
    exact absurd hfuel (by omega)
  | succ fuel ih =>
    intro innerFuel s it q acc hswf hpos hinv hzc hzlive hKc hfuel hifuel
    obtain ⟨hpq, hqn, hqlive, hqc, hsnap, r, hroc, hrinv, hqr⟩ := hinv q hpos
    obtain ⟨s2, m, r2, hinc, hfx2, hswf2, hmlive, hqm, hmin, hmc, hinv2, hmz⟩ :=
      iter_inc_spec store pre npre z K hwf hz hKs innerFuel s it q hswf hpos
        (fun m2 hm2 => by
          rw [hpos] at hm2
          have h9 : some q = some m2 := hm2
          cases h9
          exact ⟨hpq, hqn, hqlive, hqc, hsnap, r, hroc, hrinv, hqr⟩)
        hzc hzlive hnz hKc hifuel
    have heqstep : collectLoop store pre npre innerFuel (fuel + 1) s it acc =
        collectLoop store pre npre innerFuel fuel s2
          (if BLe npre m then { it with cache_it := none, rocks_it := some r2 }
           else { cache_it := some m, cache_it_num_erases := numErasesOf s2.cache m,
                  rocks_it := some r2 }) (q :: acc) := by
      show (match it.cache_it with
        | none => Except.ok (acc.reverse, s)
        | some q => do
          let rr ← iter_inc store pre npre innerFuel s it
          collectLoop store pre npre innerFuel fuel rr.1 rr.2 (q :: acc)) = _
      rw [hpos]
      show (do
        let rr ← iter_inc store pre npre innerFuel s it
        collectLoop store pre npre innerFuel fuel rr.1 rr.2 (q :: acc)) = _
      rw [hinc]
      simp only [except_ok_bind]
    by_cases hb : BLe npre m
    · -- ++ went past the range: the next loop entry sees end and stops
      rw [if_pos hb] at heqstep
      have hend : collectLoop store pre npre innerFuel fuel s2
          { it with cache_it := none, rocks_it := some r2 } (q :: acc) =
          Except.ok ((q :: acc).reverse, s2) := by
        cases fuel with
        | zero => exact absurd hfuel (by omega)
        | succ fuel2 => rfl
      refine ⟨s2, [], ?_, hfx2, hswf2, by simp, ?_⟩
      · rw [heqstep, hend]
        simp
      · intro k
        constructor
        · intro hk
          rcases List.mem_cons.mp hk with rfl | hk2
          · exact ⟨ble_refl k, hqn, hqlive⟩
          · cases hk2
        · rintro ⟨hqk, hkn, hklive⟩
          rcases ble_iff.mp hqk with h1 | h1
          · exact absurd hklive (hmin k h1 (blt_of_blt_of_ble hkn hb))
          · subst h1
            simp
    · -- positioned on m: recurse
      rw [if_neg hb] at heqstep
      rw [if_neg hb] at hinv2
      have hmn : BLt m npre := blt_of_not_ble hb
      have hKc2 : ∀ x ∈ storeKeys s2.cache, x ∈ K := by
        intro x hx
        rcases fillExt_keys hfx2 x hx with h1 | h1
        · exact hKc x h1
        · exact hKs x h1
      have hfuel2 : (K.filter (fun x => decide (BLt m x) && decide (BLe x z))).length
          + 1 < fuel := by
        have hlt := filter_between_lt (hKc2 m hmc) hqm hmz
        omega
      obtain ⟨s3, L, hrun, hfx3, hswf3, hpair, hiff⟩ :=
        ih innerFuel s2
          { cache_it := some m, cache_it_num_erases := numErasesOf s2.cache m,
            rocks_it := some r2 } m (q :: acc) hswf2 rfl hinv2
          (fillExt_mem hfx2 z hzc) ((fillExt_live hfx2 z).mpr hzlive) hKc2 hfuel2 hifuel
      refine ⟨s3, m :: L, ?_, fillExt_trans hfx2 hfx3, hswf3, ?_, ?_⟩
      · rw [heqstep, hrun]
        simp
      · refine List.pairwise_cons.mpr ⟨?_, hpair⟩
        intro k hk
        have h2 := (hiff k).mp hk
        exact blt_of_blt_of_ble hqm h2.1
      · intro k
        constructor
        · intro hk
          rcases List.mem_cons.mp hk with rfl | hk2
          · exact ⟨ble_refl k, hqn, hqlive⟩
          · have h2 := (hiff k).mp hk2
            exact ⟨ble_trans (ble_of_blt hqm) h2.1, h2.2.1,
              (fillExt_live hfx2 k).mp h2.2.2⟩
        · rintro ⟨hqk, hkn, hklive⟩
          rcases ble_iff.mp hqk with h1 | h1
          · by_cases hkm : BLe m k
            · exact List.mem_cons_of_mem q ((hiff k).mpr
                ⟨hkm, hkn, (fillExt_live hfx2 k).mpr hklive⟩)
            · exact absurd hklive (hmin k h1 (blt_of_not_ble hkm))
          · subst h1
            simp

theorem ble_of_pre {p k : Bytes} (h : p <+: k) : BLe p k := by
  rcases h with ⟨t, rfl⟩
  have h2 := compare_blob_append_same p [] t
  rw [List.append_nil] at h2
  rw [BLe, h2]
  cases t with
  | nil =>
    rw [show compare_blob [] [] = Ordering.eq from rfl]
    simp
  | cons y v =>
    rw [show compare_blob [] (y :: v) = Ordering.lt from rfl]
    simp

theorem blt_next_of_pre {p : Bytes} (hff : ∃ b ∈ p, b ≠ (255 : Byte)) :
    ∀ s, p <+: s → BLt s (get_next_pre p) := by
  rcases get_next_pre_decomp hff with ⟨a, c, m, hc, hp, hnext⟩
  intro s hpre
  rcases hpre with ⟨t, rfl⟩
  rw [hnext, hp]
  have key : BLt (c :: (List.replicate m (255 : Byte) ++ t)) [c + 1] :=
    blt_cons_of_lt (fin_lt_succ hc) _ _
  have hsame := compare_blob_append_same a
    (c :: (List.replicate m (255 : Byte) ++ t)) [c + 1]
  rw [BLt, List.append_assoc, List.cons_append, hsame]
  exact key

/-- `[p, next_prefix p)` in the byte order is exactly the set of strings
with prefix `p`. -/
theorem pre_range_iff {p : Bytes} (hff : ∃ b ∈ p, b ≠ (255 : Byte)) (k : Bytes) :
    (BLe p k ∧ BLt k (get_next_pre p)) ↔ p <+: k := by
  constructor
  · rintro ⟨h1, h2⟩
    rcases ble_iff.mp h1 with h3 | h3
    · rcases get_next_pre_decomp hff with ⟨a, c, m, hc, hp, hnext⟩
      rw [hp] at h3
      rw [hnext] at h2
      have h4 := sandwich hc h3 h2
      rw [← hp] at h4
      exact h4
    · subst h3
      exact pre_refl _
  · intro h
    exact ⟨ble_of_pre h, blt_next_of_pre hff k h⟩

/-- Claim C4: iterating with `++` from `move_to_begin()` until the end
state yields exactly the keys of the contract's prefixed range whose merged
session value is present, in strictly ascending byte order of full key,
each exactly once. (Hypotheses: well-formed store and session; `z` is a
live warmed store key past the range — after the iterator constructor this
is the key its `Seek(next_prefix)` warmed, backed by the `0xff` sentinel —
and `K` bounds the key universe for the two fuels.) -/
theorem claim_C4 (store : Store) (s : write_session) (pre z : Bytes) (K : List Bytes)
    (innerFuel outerFuel : Nat)
    (hwf : storeWF store) (hswf : sessionWF s)
    (hff : ∃ b ∈ pre, b ≠ (255 : Byte))
    (hz : z ∈ storeKeys store) (hzc : z ∈ storeKeys s.cache)
    (hzlive : mergedLive store s z) (hnz : BLe (get_next_pre pre) z)
    (hKs : ∀ x ∈ storeKeys store, x ∈ K) (hKc : ∀ x ∈ storeKeys s.cache, x ∈ K)
    (hif : (K.filter (fun x => decide (BLe pre x) && decide (BLe x z))).length
      < innerFuel)
    (hof : (K.filter (fun x => decide (BLe pre x) && decide (BLe x z))).length + 1
      < outerFuel) :
    ∃ L s2, iterate_range store pre innerFuel outerFuel s = Except.ok (L, s2) ∧
      List.Pairwise BLt L ∧
      (∀ k, k ∈ L ↔ (pre <+: k ∧ mergedLive store s k)) := by
  have hfn : BLt pre (get_next_pre pre) := blt_next_of_pre hff pre (pre_refl pre)
  obtain ⟨s1, m0, r0, hlbfk, hfx1, hswf1, hm0live, hpm0, hmin0, hm0c, hrinv0, hm0r0, hm0z⟩ :=
    lbfk_spec store (get_next_pre pre) z K hwf hz hKs innerFuel s ⟨none, 0, none⟩ pre
      hswf hzc hzlive hnz hfn hKc hif
  by_cases hb : BLe (get_next_pre pre) m0
  · -- no live key in the range at all
    rw [if_pos hb] at hlbfk
    have hrun : iterate_range store pre innerFuel outerFuel s =
        Except.ok ([], s1) := by
      unfold iterate_range
      rw [hlbfk]
      simp only [except_ok_bind]
      cases houter : outerFuel with
      | zero => exact absurd hof (by omega)
      | succ f2 => rfl
    refine ⟨[], s1, hrun, by simp, ?_⟩
    intro k
    simp only [List.not_mem_nil, false_iff]
    rintro ⟨hpk, hklive⟩
    have hk1 : BLe pre k := ble_of_pre hpk
    have hk2 : BLt k (get_next_pre pre) := blt_next_of_pre hff k hpk
    exact hmin0 k hk1 (blt_of_blt_of_ble hk2 hb) hklive
  · -- positioned on the least live key of the range; collect the rest
    rw [if_neg hb] at hlbfk
    have hm0n : BLt m0 (get_next_pre pre) := blt_of_not_ble hb
    have hKc1 : ∀ x ∈ storeKeys s1.cache, x ∈ K := by
      intro x hx
      rcases fillExt_keys hfx1 x hx with h1 | h1
      · exact hKc x h1
      · exact hKs x h1
    have hinv1 : IterInv store pre (get_next_pre pre) s1
        { cache_it := some m0, cache_it_num_erases := numErasesOf s1.cache m0,
          rocks_it := some r0 } := by
      intro m2 hm2
      have h9 : some m0 = some m2 := hm2
      cases h9
      exact ⟨hpm0, hm0n, (fillExt_live hfx1 m0).mpr hm0live, hm0c, rfl,
        r0, rfl, hrinv0, hm0r0⟩
    have hfuel0 : (K.filter (fun x => decide (BLt m0 x) && decide (BLe x z))).length
        + 1 < outerFuel := by
      have hmono := filter_length_mono (K := K)
        (p := fun x => decide (BLt m0 x) && decide (BLe x z))
        (q := fun x => decide (BLe pre x) && decide (BLe x z))
        (by
          intro x hx
          have hx2 : (decide (BLt m0 x) && decide (BLe x z)) = true := hx
          rw [Bool.and_eq_true] at hx2
          have h1 := of_decide_eq_true hx2.1
          show (decide (BLe pre x) && decide (BLe x z)) = true
          rw [decide_eq_true (ble_trans hpm0 (ble_of_blt h1)), hx2.2]
          rfl)
      omega
    obtain ⟨s3, L, hrun, hfx3, hswf3, hpair, hiff⟩ :=
      collectLoop_spec store pre (get_next_pre pre) z K hwf hz hKs hnz
        outerFuel innerFuel s1
        { cache_it := some m0, cache_it_num_erases := numErasesOf s1.cache m0,
          rocks_it := some r0 } m0 [] hswf1 rfl hinv1
        (fillExt_mem hfx1 z hzc) ((fillExt_live hfx1 z).mpr hzlive) hKc1 hfuel0 hif
    refine ⟨m0 :: L, s3, ?_, hpair, ?_⟩
    · unfold iterate_range
      rw [hlbfk]
      simp only [except_ok_bind]
      rw [hrun]
      rfl
    · intro k
      rw [hiff k]
      constructor
      · rintro ⟨hm0k, hkn, hklive⟩
        refine ⟨(pre_range_iff hff k).mp ⟨ble_trans hpm0 hm0k, hkn⟩, ?_⟩
        exact (fillExt_live hfx1 k).mp hklive
      · rintro ⟨hpk, hklive⟩
        have hk1 : BLe pre k := ble_of_pre hpk
        have hk2 : BLt k (get_next_pre pre) := blt_next_of_pre hff k hpk
        by_cases hm0k : BLe m0 k
        · exact ⟨hm0k, hk2, (fillExt_live hfx1 k).mpr hklive⟩
        · exact absurd hklive (hmin0 k hk1 (blt_of_not_ble hm0k))

/-- A session that has warmed the `0xff` sentinel (as the iterator
constructor does), over the three-key store. -/
def c4Sess : write_session :=
  ⟨[([byteOf 0xff], ⟨0, some [], some [], false⟩)], []⟩

theorem c4Sess_wf : sessionWF c4Sess := by
  refine ⟨by decide, by decide, ?_, ?_⟩
  · intro k
    constructor
    · intro h
      cases h
    · rintro ⟨e, he, hl⟩
      by_cases hk : k = [byteOf 0xff]
      · subst hk
        have he2 : some (⟨0, some [], some [], false⟩ : cached_value) = some e := he
        cases he2
        cases hl
      · have heval : storeGet c4Sess.cache k = none := by
          show (if k = [byteOf 0xff] then some (⟨0, some [], some [], false⟩ : cached_value)
            else storeGet [] k) = none
          rw [if_neg hk]
          rfl
        rw [heval] at he
        cases he
  · intro k e he hd
    by_cases hk : k = [byteOf 0xff]
    · subst hk
      have he2 : some (⟨0, some [], some [], false⟩ : cached_value) = some e := he
      cases he2
      exact absurd rfl hd
    · have heval : storeGet c4Sess.cache k = none := by
        show (if k = [byteOf 0xff] then some (⟨0, some [], some [], false⟩ : cached_value)
          else storeGet [] k) = none
        rw [if_neg hk]
        rfl
      rw [heval] at he
      cases he

/-- Witness for C4: the full iteration over the `0x70` range of the
three-key store, from a session that has the sentinel warmed. -/
theorem claim_C4_witness :
    ∃ L s2, iterate_range c5Store [byteOf 0x70] 10 10 c4Sess = Except.ok (L, s2) ∧
      List.Pairwise BLt L ∧
      (∀ k, k ∈ L ↔ ([byteOf 0x70] <+: k ∧ mergedLive c5Store c4Sess k)) :=
  claim_C4 c5Store c4Sess [byteOf 0x70] [byteOf 0xff]
    [[byteOf 0], [byteOf 0x70, byteOf 1], [byteOf 0xff]] 10 10
    (by decide) c4Sess_wf (by decide) (by decide) (by decide)
    (by intro h; cases h) (by decide) (by decide) (by decide) (by decide) (by decide)

/-! ## The downward walk of `operator--` (claim C9) -/

/-- Downward rocks invariant: the cursor sits on a store key `r` at or
below `hi`, and every store key of `[r, hi]` has been warmed. -/
def RInvD (store : Store) (s : write_session) (r hi : Bytes) : Prop :=
  r ∈ storeKeys store ∧ BLe r hi ∧
  ∀ x ∈ storeKeys store, BLe r x → BLe x hi → x ∈ storeKeys s.cache

theorem filter_blt_lt_down {l : List Bytes} {r r2 : Bytes} (hmem : r2 ∈ l)
    (h12 : BLt r2 r) :
    (l.filter (fun x => decide (BLt x r2))).length <
      (l.filter (fun x => decide (BLt x r))).length := by
  have hsub : l.filter (fun x => decide (BLt x r2)) =
      (l.filter (fun x => decide (BLt x r))).filter (fun x => decide (BLt x r2)) := by
    rw [List.filter_filter]
    apply List.filter_congr
    intro x _
    cases h2 : decide (BLt x r2) with
    | false => rfl
    | true =>
      have h3 := blt_trans (of_decide_eq_true h2) h12
      rw [decide_eq_true h3]
      rfl
  rw [hsub]
  apply List.length_filter_lt_length_iff_exists.mpr
  exact ⟨r2, List.mem_filter.mpr ⟨hmem, decide_eq_true h12⟩, by simp [blt_irrefl]⟩

/-- Mirror of `pullUpTo_spec` for the downward inner loop of `operator--`. -/
theorem pullDownTo_spec (store : Store) (hi zlo bound : Bytes) :
    ∀ (fuel : Nat) (s : write_session) (r : Bytes),
    storeWF store → sessionWF s →
    RInvD store s r hi →
    zlo ∈ storeKeys store → BLt zlo bound →
    ((storeKeys store).filter (fun x => decide (BLt x r))).length < fuel →
    ∃ s2 r2, pullDownTo store fuel s (some r) bound = Except.ok (s2, some r2) ∧
      fillExt store s s2 ∧ sessionWF s2 ∧
      RInvD store s2 r2 hi ∧ BLt r2 bound ∧ BLe r2 r := by
  intro fuel
  induction fuel with
  | zero =>
    intro s r _ _ _ _ _ hfuel
    exact absurd hfuel (by omega)
  | succ fuel ih =>
    intro s r hwf hswf hr hz hbz hfuel
    obtain ⟨hrmem, hrhi, hcov⟩ := hr
    obtain ⟨v, hv⟩ := mem_storeKeys_get hrmem
    by_cases h : BLe bound r
    · have hzr : BLt zlo r := blt_of_blt_of_ble hbz h
      have hprev : ∃ r2, rocksPrevKey store r = some r2 := by
        cases hn : rocksPrevKey store r with
        | some r2 => exact ⟨r2, rfl⟩
        | none => exact absurd hzr (prevKey_none hwf hn zlo hz)
      obtain ⟨r2, hn⟩ := hprev
      obtain ⟨hr2mem, hr2r, hr2max⟩ := prevKey_some hwf hn
      obtain ⟨v2, hv2⟩ := mem_storeKeys_get hr2mem
      have heq : pullDownTo store (fuel + 1) s (some r) bound =
          pullDownTo store fuel (s.fill_cache r2 v2) (some r2) bound := by
        show (do
          let kv ← rocksRead store (some r)
          if BLe bound kv.1 then do
            let rpos2 := rocksPrevKey store kv.1
            let kv2 ← rocksRead store rpos2
            pullDownTo store fuel (((s, some r).1).fill_cache kv2.1 kv2.2) rpos2 bound
          else Except.ok ((s, some r).1, (s, some r).2)) = _
        rw [rocksRead_some hv]
        rw [except_ok_bind]
        show (if BLe bound r then _ else _) = _
        rw [if_pos h]
        simp only [hn, rocksRead_some hv2, except_ok_bind]
      have hswf2 : sessionWF (s.fill_cache r2 v2) := (fill_spec s r2 v2 hswf).1
      have hfx : fillExt store s (s.fill_cache r2 v2) := fillExt_fill hv2
      have hr2inv : RInvD store (s.fill_cache r2 v2) r2 hi := by
        refine ⟨hr2mem, ble_trans (ble_of_blt hr2r) hrhi, ?_⟩
        intro x hx hr2x hxhi
        by_cases hrx : BLe r x
        · exact fillExt_mem hfx x (hcov x hx hrx hxhi)
        · have hxr : BLt x r := blt_of_not_ble hrx
          have hx2 : BLe x r2 := hr2max x hx hxr
          have hxeq : x = r2 := ble_antisymm hx2 hr2x
          subst hxeq
          exact fill_cache_mem s x v2
      have hfuel2 : ((storeKeys store).filter (fun x => decide (BLt x r2))).length
          < fuel := by
        have hlt := filter_blt_lt_down hr2mem hr2r
        omega
      obtain ⟨s3, r3, hrun, hfx3, hswf3, hrinv3, hbr3, hrr3⟩ :=
        ih (s.fill_cache r2 v2) r2 hwf hswf2 hr2inv hz hbz hfuel2
      refine ⟨s3, r3, ?_, fillExt_trans hfx hfx3, hswf3, hrinv3, hbr3,
        ble_trans hrr3 (ble_of_blt hr2r)⟩
      rw [heq]
      exact hrun
    · have heq : pullDownTo store (fuel + 1) s (some r) bound =
          Except.ok (s, some r) := by
        show (do
          let kv ← rocksRead store (some r)
          if BLe bound kv.1 then do
            let rpos2 := rocksPrevKey store kv.1
            let kv2 ← rocksRead store rpos2
            pullDownTo store fuel (((s, some r).1).fill_cache kv2.1 kv2.2) rpos2 bound
          else Except.ok ((s, some r).1, (s, some r).2)) = _
        rw [rocksRead_some hv]
        rw [except_ok_bind]
        show (if BLe bound r then _ else _) = _
        rw [if_neg h]
      exact ⟨s, r, heq, fillExt_refl store s, hswf,
        ⟨hrmem, hrhi, hcov⟩, blt_of_not_ble h, ble_refl r⟩

/-- Mirror of `skipAbsent_spec` for the downward outer loop of
`operator--`: it stops at the greatest merged-live key at or below `q`. -/
theorem skipAbsentDown_spec (store : Store) (hi zlo : Bytes) (K : List Bytes)
    (hwf : storeWF store) (hzs : zlo ∈ storeKeys store)
    (hKs : ∀ x ∈ storeKeys store, x ∈ K) :
    ∀ (fuel : Nat) (s : write_session) (q r : Bytes),
    sessionWF s →
    q ∈ storeKeys s.cache →
    RInvD store s r hi →
    BLe r q → BLe q hi →
    zlo ∈ storeKeys s.cache → mergedLive store s zlo → BLe zlo q →
    (∀ x ∈ storeKeys s.cache, x ∈ K) →
    (K.filter (fun x => decide (BLe zlo x) && decide (BLt x q))).length < fuel →
    ∃ s2 m r2, skipAbsentDown store fuel s (some q) (some r) =
        Except.ok (s2, m, some r2) ∧
      fillExt store s s2 ∧ sessionWF s2 ∧
      mergedLive store s m ∧ BLe m q ∧
      (∀ x, BLe x q → BLt m x → ¬ mergedLive store s x) ∧
      m ∈ storeKeys s2.cache ∧
      RInvD store s2 r2 hi ∧ BLe r2 m ∧ BLe zlo m := by
  intro fuel
  induction fuel with
  | zero =>
    intro s q r _ _ _ _ _ _ _ _ _ hfuel
    exact absurd hfuel (by omega)
  | succ fuel ih =>
    intro s q r hswf hq hr hrq hqhi hzc hzlive hzq hKc hfuel
    obtain ⟨e, he⟩ := mem_storeKeys_get hq
    by_cases hcv : e.current_value = none
    · have hqlive : ¬ mergedLive store s q := by
        unfold mergedLive mergedGet
        rw [he]
        show ¬ (e.current_value ≠ none)
        rw [hcv]
        simp
      have hzq' : BLt zlo q := by
        rcases ble_iff.mp hzq with h1 | h1
        · exact h1
        · subst h1
          exact absurd hzlive hqlive
      obtain ⟨s2, r2, hpull, hfx2, hswf2, hrinv2, hr2q, hr2r⟩ :=
        pullDownTo_spec store hi zlo q ((storeKeys store).length + 1) s r hwf hswf hr hzs
          hzq'
          (by have := List.length_filter_le (fun x => decide (BLt x r)) (storeKeys store)
              omega)
      have hzc2 : zlo ∈ storeKeys s2.cache := fillExt_mem hfx2 zlo hzc
      have hprev : ∃ q1, cachePrevKey s2.cache (some q) = some q1 := by
        cases hn : cachePrevKey s2.cache (some q) with
        | some q1 => exact ⟨q1, rfl⟩
        | none => exact absurd hzq' (prevKey_none hswf2.wf hn zlo hzc2)
      obtain ⟨q1, hn⟩ := hprev
      obtain ⟨hq1mem, hq1q, hq1max⟩ := prevKey_some hswf2.wf hn
      have hr2c : r2 ∈ storeKeys s2.cache :=
        hrinv2.2.2 r2 hrinv2.1 (ble_refl r2) hrinv2.2.1
      have hr2q1 : BLe r2 q1 := hq1max r2 hr2c hr2q
      have hzq1 : BLe zlo q1 := hq1max zlo hzc2 hzq'
      have hq1hi : BLe q1 hi := ble_trans (ble_of_blt hq1q) hqhi
      have hKc2 : ∀ x ∈ storeKeys s2.cache, x ∈ K := by
        intro x hx
        rcases fillExt_keys hfx2 x hx with h1 | h1
        · exact hKc x h1
        · exact hKs x h1
      have hfuel2 : ((K.filter (fun x => decide (BLe zlo x) && decide (BLt x q1))).length)
          < fuel := by
        have hsub : K.filter (fun x => decide (BLe zlo x) && decide (BLt x q1)) =
            (K.filter (fun x => decide (BLe zlo x) && decide (BLt x q))).filter
              (fun x => decide (BLe zlo x) && decide (BLt x q1)) := by
          rw [List.filter_filter]
          apply List.filter_congr
          intro x _
          cases h1 : decide (BLe zlo x) with
          | false => rfl
          | true =>
            cases h2 : decide (BLt x q1) with
            | false => simp
            | true =>
              have h3 := blt_trans (of_decide_eq_true h2) hq1q
              rw [decide_eq_true h3]
              simp
        have hlt : (K.filter (fun x => decide (BLe zlo x) && decide (BLt x q1))).length <
            (K.filter (fun x => decide (BLe zlo x) && decide (BLt x q))).length := by
          rw [hsub]
          apply List.length_filter_lt_length_iff_exists.mpr
          refine ⟨q1, List.mem_filter.mpr ⟨hKc2 q1 hq1mem, ?_⟩, ?_⟩
          · rw [decide_eq_true hzq1, decide_eq_true hq1q]
            rfl
          · simp [blt_irrefl]
        omega
      obtain ⟨s3, m, r3, hrun, hfx3, hswf3, hmlive2, hmq1, hmax2, hmc, hrinv3, hr3m, hzm⟩ :=
        ih s2 q1 r2 hswf2 hq1mem hrinv2 hr2q1 hq1hi hzc2
          ((fillExt_live hfx2 zlo).mpr hzlive) hzq1 hKc2 hfuel2
      have heq : skipAbsentDown store (fuel + 1) s (some q) (some r) =
          skipAbsentDown store fuel s2 (cachePrevKey s2.cache (some q)) (some r2) := by
        show (match storeGet s.cache q with
          | none => Except.error "cache end dereference"
          | some e =>
            if e.current_value = none then do
              let rr ← pullDownTo store ((storeKeys store).length + 1) s (some r) q
              skipAbsentDown store fuel rr.1 (cachePrevKey rr.1.cache (some q)) rr.2
            else Except.ok (s, q, some r)) = _
        rw [he]
        show (if e.current_value = none then do
              let rr ← pullDownTo store ((storeKeys store).length + 1) s (some r) q
              skipAbsentDown store fuel rr.1 (cachePrevKey rr.1.cache (some q)) rr.2
            else Except.ok (s, q, some r)) = _
        rw [if_pos hcv, hpull, except_ok_bind]
      refine ⟨s3, m, r3, ?_, fillExt_trans hfx2 hfx3, hswf3,
        (fillExt_live hfx2 m).mp hmlive2,
        ble_trans hmq1 (ble_of_blt hq1q), ?_, hmc, hrinv3, hr3m, hzm⟩
      · rw [heq, hn]
        exact hrun
      · intro x hxq hmx hxlive
        by_cases hx1 : BLe x q1
        · exact hmax2 x hx1 hmx ((fillExt_live hfx2 x).mpr hxlive)
        · have hq1x : BLt q1 x := blt_of_not_ble hx1
          rcases ble_iff.mp hxq with hxq' | hxq'
          · cases hxc : storeGet s2.cache x with
            | some e2 =>
              have h9 := hq1max x (storeGet_mem hxc) hxq'
              exact absurd (blt_of_ble_of_blt h9 hq1x) (blt_irrefl x)
            | none =>
              have hxlive2 : mergedLive store s2 x := (fillExt_live hfx2 x).mpr hxlive
              have hxs : x ∈ storeKeys store := live_not_cached_mem_store hxlive2 hxc
              have hxcov : x ∈ storeKeys s2.cache :=
                hrinv2.2.2 x hxs (ble_trans hr2q1 (ble_of_blt hq1x))
                  (ble_trans (ble_of_blt hxq') hqhi)
              obtain ⟨e3, he3⟩ := mem_storeKeys_get hxcov
              rw [he3] at hxc
              cases hxc
          · subst hxq'
            exact hqlive hxlive
    · have heq : skipAbsentDown store (fuel + 1) s (some q) (some r) =
          Except.ok (s, q, some r) := by
        show (match storeGet s.cache q with
          | none => Except.error "cache end dereference"
          | some e =>
            if e.current_value = none then do
              let rr ← pullDownTo store ((storeKeys store).length + 1) s (some r) q
              skipAbsentDown store fuel rr.1 (cachePrevKey rr.1.cache (some q)) rr.2
            else Except.ok (s, q, some r)) = _
        rw [he]
        show (if e.current_value = none then do
              let rr ← pullDownTo store ((storeKeys store).length + 1) s (some r) q
              skipAbsentDown store fuel rr.1 (cachePrevKey rr.1.cache (some q)) rr.2
            else Except.ok (s, q, some r)) = _
        rw [if_neg hcv]
      refine ⟨s, q, r, heq, fillExt_refl store s, hswf, ?_, ble_refl q, ?_,
        hq, hr, hrq, hzq⟩
      · unfold mergedLive mergedGet
        rw [he]
        exact hcv
      · intro x hxq hqx
        exact absurd (blt_of_ble_of_blt hxq hqx) (blt_irrefl x)

theorem ble_single_ff (d : Byte) : BLe [d] [byteOf 0xff] := by
  show compare_blob [d] [byteOf 0xff] ≠ Ordering.gt
  unfold compare_blob
  by_cases h1 : d < byteOf 0xff
  · rw [if_pos h1]
    simp
  · rw [if_neg h1]
    have h2 : ¬ byteOf 0xff < d := by
      intro h3
      have h4 : (255 : Nat) < (d : Nat) := h3
      have h5 := d.isLt
      omega
    rw [if_neg h2]
    decide

/-- If the first byte of the prefix is at most `0xfe`, its next prefix is
at most the `0xff` sentinel. -/
theorem ble_npre_ff {b0 : Byte} {rest : Bytes} (hb : (b0 : Nat) ≤ 0xfe) :
    BLe (get_next_pre (b0 :: rest)) [byteOf 0xff] := by
  have hb0 : b0 ≠ (255 : Byte) := by
    intro h
    rw [h] at hb
    have h2 : ((255 : Byte) : Nat) = 255 := rfl
    omega
  have hff : ∃ b ∈ (b0 :: rest), b ≠ (255 : Byte) := ⟨b0, by simp, hb0⟩
  rcases get_next_pre_decomp hff with ⟨a, c, m, hc, hp, hnext⟩
  rw [hnext]
  cases a with
  | nil =>
    exact ble_single_ff (c + 1)
  | cons x a2 =>
    have hx : b0 = x := by
      have hp2 : b0 :: rest = x :: (a2 ++ c :: List.replicate m (255 : Byte)) := hp
      exact ((List.cons.injEq b0 rest x _).mp hp2).1
    have hxlt : x < byteOf 0xff := by
      have hval : ((byteOf 0xff : Byte) : Nat) = 255 := rfl
      have hxv : (x : Nat) ≤ 0xfe := by
        rw [← hx]
        exact hb
      exact Fin.lt_def.mpr (by omega)
    show BLe ((x :: a2) ++ [c + 1]) [byteOf 0xff]
    rw [List.cons_append]
    exact ble_of_blt (blt_cons_of_lt hxlt _ _)

/-- The do-loop and boundary check of `operator--` succeed from any cache
position `q` backed by a warmed store key `r ≥ q`, given a live warmed
store key strictly below `q` to stop at. -/
theorem iter_dec_from_spec (store : Store) (pre zlo : Bytes) (K : List Bytes)
    (hwf : storeWF store) (hzs : zlo ∈ storeKeys store)
    (hKs : ∀ x ∈ storeKeys store, x ∈ K)
    (fuel : Nat) (s : write_session) (q r : Bytes) (it : IterImpl)
    (hswf : sessionWF s)
    (hq : q ∈ storeKeys s.cache)
    (hrs : r ∈ storeKeys store) (hrc : r ∈ storeKeys s.cache)
    (hqr : BLe q r)
    (hzc : zlo ∈ storeKeys s.cache) (hzlive : mergedLive store s zlo)
    (hzq : BLt zlo q)
    (hKc : ∀ x ∈ storeKeys s.cache, x ∈ K)
    (hfuel : (K.filter (fun x => decide (BLe zlo x) && decide (BLt x q))).length
      < fuel) :
    ∃ s2 it2, iter_dec_from store pre fuel s (some q) (some r) it =
      Except.ok (s2, it2) := by
  have hrinv : RInvD store s r r := by
    refine ⟨hrs, ble_refl r, ?_⟩
    intro x hx h1 h2
    have hxeq : x = r := ble_antisymm h2 h1
    subst hxeq
    exact hrc
  obtain ⟨s1, r1, hpull, hfx1, hswf1, hrinv1, hr1q, hr1r⟩ :=
    pullDownTo_spec store r zlo q ((storeKeys store).length + 1) s r hwf hswf hrinv hzs
      hzq
      (by have := List.length_filter_le (fun x => decide (BLt x r)) (storeKeys store)
          omega)
  have hzc1 : zlo ∈ storeKeys s1.cache := fillExt_mem hfx1 zlo hzc
  have hprev : ∃ q1, cachePrevKey s1.cache (some q) = some q1 := by
    cases hn : cachePrevKey s1.cache (some q) with
    | some q1 => exact ⟨q1, rfl⟩
    | none => exact absurd hzq (prevKey_none hswf1.wf hn zlo hzc1)
  obtain ⟨q1, hn⟩ := hprev
  obtain ⟨hq1mem, hq1q, hq1max⟩ := prevKey_some hswf1.wf hn
  have hr1c : r1 ∈ storeKeys s1.cache :=
    hrinv1.2.2 r1 hrinv1.1 (ble_refl r1) hrinv1.2.1
  have hr1q1 : BLe r1 q1 := hq1max r1 hr1c hr1q
  have hzq1 : BLe zlo q1 := hq1max zlo hzc1 hzq
  have hq1r : BLe q1 r := ble_trans (ble_of_blt hq1q) hqr
  have hKc1 : ∀ x ∈ storeKeys s1.cache, x ∈ K := by
    intro x hx
    rcases fillExt_keys hfx1 x hx with h1 | h1
    · exact hKc x h1
    · exact hKs x h1
  have hfuel1 : ((K.filter (fun x => decide (BLe zlo x) && decide (BLt x q1))).length)
      < fuel := by
    have hmono := filter_length_mono (K := K)
      (p := fun x => decide (BLe zlo x) && decide (BLt x q1))
      (q := fun x => decide (BLe zlo x) && decide (BLt x q))
      (by
        intro x hx
        have hx2 : (decide (BLe zlo x) && decide (BLt x q1)) = true := hx
        rw [Bool.and_eq_true] at hx2
        have h1 := of_decide_eq_true hx2.2
        show (decide (BLe zlo x) && decide (BLt x q)) = true
        rw [decide_eq_true (blt_trans h1 hq1q), hx2.1]
        rfl)
    omega
  obtain ⟨s2, m, r2, hrun, hfx2, hswf2, hmlive, hmq1, hmax, hmc, hrinv2, hr2m, hzm⟩ :=
    skipAbsentDown_spec store r zlo K hwf hzs hKs fuel s1 q1 r1 hswf1 hq1mem hrinv1
      hr1q1 hq1r hzc1 ((fillExt_live hfx1 zlo).mpr hzlive) hzq1 hKc1 hfuel1
  have heq : iter_dec_from store pre fuel s (some q) (some r) it =
      (if BLt m pre then
        Except.ok (s2, { it with cache_it := none, rocks_it := some r2 })
       else
        Except.ok (s2,
          { cache_it := some m,
            cache_it_num_erases := numErasesOf s2.cache m,
            rocks_it := some r2 })) := by
    show (do
      let r1 ← pullDownTo store ((storeKeys store).length + 1) s (some r) q
      let rr ← skipAbsentDown store fuel r1.1 (cachePrevKey r1.1.cache (some q)) r1.2
      if BLt rr.2.1 pre then
        Except.ok (rr.1, { it with cache_it := none, rocks_it := rr.2.2 })
      else
        Except.ok (rr.1, { cache_it := some rr.2.1,
                           cache_it_num_erases := numErasesOf rr.1.cache rr.2.1,
                           rocks_it := rr.2.2 })) = _
    rw [hpull]
    simp only [except_ok_bind]
    rw [hn, hrun]
    simp only [except_ok_bind]
  by_cases hb : BLt m pre
  · rw [if_pos hb] at heq
    exact ⟨s2, _, heq⟩
  · rw [if_neg hb] at heq
    exact ⟨s2, _, heq⟩

/-- The iterator constructor performs no invalid rocksdb read and succeeds
whenever both sentinels are in the store and the prefix's first byte lies
in `[0x01, 0xfe]`. -/
theorem iter_ctor_success (store : Store) (s : write_session) (b0 : Byte)
    (rest : Bytes)
    (hwf : storeWF store)
    (hb1 : 1 ≤ (b0 : Nat)) (hb2 : (b0 : Nat) ≤ 0xfe)
    (hz0 : [byteOf 0] ∈ storeKeys store) (hzf : [byteOf 0xff] ∈ storeKeys store) :
    ∃ r, iter_ctor store s (b0 :: rest) = Except.ok r := by
  have hpff : BLt (b0 :: rest) [byteOf 0xff] := by
    have hval : ((byteOf 0xff : Byte) : Nat) = 255 := rfl
    exact blt_cons_of_lt (Fin.lt_def.mpr (by omega)) rest []
  have hz0pre : BLt [byteOf 0] (b0 :: rest) := by
    have hval : ((byteOf 0 : Byte) : Nat) = 0 := rfl
    exact blt_cons_of_lt (Fin.lt_def.mpr (by omega)) [] rest
  have hseek0 : ∃ r0, rocksSeek store (b0 :: rest) = some r0 := by
    cases hn : rocksSeek store (b0 :: rest) with
    | some r0 => exact ⟨r0, rfl⟩
    | none => exact absurd (ble_of_blt hpff) (lbKey_none hwf hn [byteOf 0xff] hzf)
  obtain ⟨r0, hseek0⟩ := hseek0
  obtain ⟨hr0mem, hpr0, -⟩ := lbKey_some hwf hseek0
  obtain ⟨v0, hv0⟩ := mem_storeKeys_get hr0mem
  have hprev1 : ∃ r1, rocksPrevKey store r0 = some r1 := by
    cases hn : rocksPrevKey store r0 with
    | some r1 => exact ⟨r1, rfl⟩
    | none =>
      exact absurd (blt_of_blt_of_ble hz0pre hpr0) (prevKey_none hwf hn [byteOf 0] hz0)
  obtain ⟨r1, hprev1⟩ := hprev1
  obtain ⟨hr1mem, -, -⟩ := prevKey_some hwf hprev1
  obtain ⟨v1, hv1⟩ := mem_storeKeys_get hr1mem
  have hseek2 : ∃ r2, rocksSeek store (get_next_pre (b0 :: rest)) = some r2 := by
    cases hn : rocksSeek store (get_next_pre (b0 :: rest)) with
    | some r2 => exact ⟨r2, rfl⟩
    | none =>
      exact absurd (ble_npre_ff hb2) (lbKey_none hwf hn [byteOf 0xff] hzf)
  obtain ⟨r2, hseek2⟩ := hseek2
  obtain ⟨hr2mem, -, -⟩ := lbKey_some hwf hseek2
  obtain ⟨v2, hv2⟩ := mem_storeKeys_get hr2mem
  have heq : iter_ctor store s (b0 :: rest) =
      Except.ok (((s.fill_cache r0 v0).fill_cache r1 v1).fill_cache r2 v2,
        { cache_it := none, cache_it_num_erases := 0, rocks_it := some r2 }) := by
    unfold iter_ctor
    simp only [hseek0]
    rw [rocksRead_some hv0]
    simp only [except_ok_bind]
    simp only [hprev1]
    rw [rocksRead_some hv1]
    simp only [except_ok_bind]
    simp only [hseek2]
    rw [rocksRead_some hv2]
    simp only [except_ok_bind]
  exact ⟨_, heq⟩

/-- `operator--` performs no invalid read and succeeds, from end or from a
valid position, given warmed live store keys strictly below the prefix and
at or past the next prefix. -/
theorem iter_dec_success (store : Store) (pre npre zlo zup : Bytes) (K : List Bytes)
    (fuel : Nat) (s : write_session) (it : IterImpl)
    (hwf : storeWF store) (hswf : sessionWF s)
    (hzls : zlo ∈ storeKeys store) (hzlc : zlo ∈ storeKeys s.cache)
    (hzllive : mergedLive store s zlo) (hzlp : BLt zlo pre)
    (hzus : zup ∈ storeKeys store) (hzuc : zup ∈ storeKeys s.cache)
    (hnzu : BLe npre zup) (hpn : BLt pre npre)
    (hinv : IterInv store pre npre s it)
    (hKs : ∀ x ∈ storeKeys store, x ∈ K) (hKc : ∀ x ∈ storeKeys s.cache, x ∈ K)
    (hfuel : (K.filter (fun x => decide (BLe zlo x) && decide (BLt x zup))).length
      < fuel) :
    ∃ r, iter_dec store pre npre fuel s it = Except.ok r := by
  have hmono : ∀ q0 : Bytes, BLe q0 zup →
      (K.filter (fun x => decide (BLe zlo x) && decide (BLt x q0))).length < fuel := by
    intro q0 hq0z
    have hm := filter_length_mono (K := K)
      (p := fun x => decide (BLe zlo x) && decide (BLt x q0))
      (q := fun x => decide (BLe zlo x) && decide (BLt x zup))
      (by
        intro x hx
        have hx2 : (decide (BLe zlo x) && decide (BLt x q0)) = true := hx
        rw [Bool.and_eq_true] at hx2
        have h1 := of_decide_eq_true hx2.2
        show (decide (BLe zlo x) && decide (BLt x zup)) = true
        rw [decide_eq_true (blt_of_blt_of_ble h1 hq0z), hx2.1]
        rfl)
    omega
  cases hpos : it.cache_it with
  | some q =>
    obtain ⟨hpq, hqn, hqlive, hqc, hsnap, r, hroc, hrinv, hqr⟩ := hinv q hpos
    obtain ⟨e, he⟩ := mem_storeKeys_get hqc
    have hsnap2 : it.cache_it_num_erases = e.num_erases := by
      rw [hsnap]
      unfold numErasesOf
      rw [he]
    have hok : ¬ it.cache_it_num_erases ≠ e.num_erases := not_not_intro hsnap2
    have hrc : r ∈ storeKeys s.cache :=
      hrinv.2.2 r hrinv.1 hrinv.2.1 (ble_refl r)
    have hzq : BLt zlo q := blt_of_blt_of_ble hzlp hpq
    have hqzup : BLe q zup := ble_trans (ble_of_blt hqn) hnzu
    obtain ⟨s2, it2, hdf⟩ :=
      iter_dec_from_spec store pre zlo K hwf hzls hKs fuel s q r it hswf hqc hrinv.1
        hrc hqr hzlc hzllive hzq hKc (hmono q hqzup)
    refine ⟨(s2, it2), ?_⟩
    unfold iter_dec
    rw [hpos]
    simp only [he]
    rw [if_neg hok, hroc]
    exact hdf
  | none =>
    have hseek : ∃ r0, rocksSeek store npre = some r0 := by
      cases hn : rocksSeek store npre with
      | some r0 => exact ⟨r0, rfl⟩
      | none => exact absurd hnzu (lbKey_none hwf hn zup hzus)
    obtain ⟨r0, hseek0⟩ := hseek
    obtain ⟨hr0mem, hnr0, hr0min⟩ := lbKey_some hwf hseek0
    obtain ⟨v0, hv0⟩ := mem_storeKeys_get hr0mem
    have hr0zup : BLe r0 zup := hr0min zup hzus hnzu
    have hswf1 : sessionWF (s.fill_cache r0 v0) := (fill_spec s r0 v0 hswf).1
    have hfx1 : fillExt store s (s.fill_cache r0 v0) := fillExt_fill hv0
    have hzlc1 : zlo ∈ storeKeys (s.fill_cache r0 v0).cache := fillExt_mem hfx1 zlo hzlc
    have hzllive1 : mergedLive store (s.fill_cache r0 v0) zlo :=
      (fillExt_live hfx1 zlo).mpr hzllive
    have hzuc1 : zup ∈ storeKeys (s.fill_cache r0 v0).cache := fillExt_mem hfx1 zup hzuc
    have hKc1 : ∀ x ∈ storeKeys (s.fill_cache r0 v0).cache, x ∈ K := by
      intro x hx
      rcases fillExt_keys hfx1 x hx with h1 | h1
      · exact hKc x h1
      · exact hKs x h1
    have hmain : ∀ q0, q0 ∈ storeKeys (s.fill_cache r0 v0).cache →
        BLe npre q0 → BLe q0 r0 →
        ∃ s2 it2, iter_dec_from store pre fuel (s.fill_cache r0 v0) (some q0) (some r0)
          it = Except.ok (s2, it2) := by
      intro q0 hq0c hnq0 hq0r0
      have hzq0 : BLt zlo q0 :=
        blt_of_blt_of_ble (blt_trans hzlp hpn) hnq0
      exact iter_dec_from_spec store pre zlo K hwf hzls hKs fuel (s.fill_cache r0 v0)
        q0 r0 it hswf1 hq0c hr0mem (fill_cache_mem s r0 v0) hq0r0 hzlc1 hzllive1 hzq0
        hKc1 (hmono q0 (ble_trans hq0r0 hr0zup))
    by_cases hne : r0 = npre
    · obtain ⟨s2, it2, hdf⟩ := hmain r0 (fill_cache_mem s r0 v0) hnr0 (ble_refl r0)
      refine ⟨(s2, it2), ?_⟩
      unfold iter_dec
      rw [hpos]
      simp only [hseek0]
      rw [rocksRead_some hv0]
      simp only [except_ok_bind]
      rw [if_neg (not_not_intro hne)]
      exact hdf
    · have hlb : ∃ q0, cacheLowerBound (s.fill_cache r0 v0).cache npre = some q0 := by
        cases hn : cacheLowerBound (s.fill_cache r0 v0).cache npre with
        | some q0 => exact ⟨q0, rfl⟩
        | none => exact absurd hnzu (lbKey_none hswf1.wf hn zup hzuc1)
      obtain ⟨q0, hq0eq⟩ := hlb
      obtain ⟨hq0mem, hnq0, hq0min⟩ := lbKey_some hswf1.wf hq0eq
      have hq0r0 : BLe q0 r0 := hq0min r0 (fill_cache_mem s r0 v0) hnr0
      obtain ⟨s2, it2, hdf⟩ := hmain q0 hq0mem hnq0 hq0r0
      refine ⟨(s2, it2), ?_⟩
      unfold iter_dec
      rw [hpos]
      simp only [hseek0]
      rw [rocksRead_some hv0]
      simp only [except_ok_bind]
      rw [if_pos hne, hq0eq]
      exact hdf

/-- Claim C9: with the `{0x00}` and `{0xff}` sentinels present in the store
and a view prefix whose first byte lies in `[0x01, 0xfe]`, every rocksdb
read during iterator construction, `lower_bound_full_key`, `++` and `--`
happens on a valid iterator: in the model all four operations succeed, and
the invalid-read error state is never produced. (`zlo`/`zup` are live
warmed store keys bracketing the range — fresh off the constructor these
are the keys it warmed, backed by the sentinels — and `K`/`fuel` bound the
key universe as in C4.) -/
theorem claim_C9 (store : Store) (s : write_session) (b0 : Byte) (rest : Bytes)
    (zlo zup : Bytes) (K : List Bytes) (fuel : Nat) (it : IterImpl)
    (hwf : storeWF store) (hswf : sessionWF s)
    (hb1 : 1 ≤ (b0 : Nat)) (hb2 : (b0 : Nat) ≤ 0xfe)
    (hz0 : [byteOf 0] ∈ storeKeys store) (hzf : [byteOf 0xff] ∈ storeKeys store)
    (hzls : zlo ∈ storeKeys store) (hzlc : zlo ∈ storeKeys s.cache)
    (hzllive : mergedLive store s zlo) (hzlp : BLt zlo (b0 :: rest))
    (hzus : zup ∈ storeKeys store) (hzuc : zup ∈ storeKeys s.cache)
    (hzulive : mergedLive store s zup)
    (hnzu : BLe (get_next_pre (b0 :: rest)) zup)
    (hinv : IterInv store (b0 :: rest) (get_next_pre (b0 :: rest)) s it)
    (hKs : ∀ x ∈ storeKeys store, x ∈ K) (hKc : ∀ x ∈ storeKeys s.cache, x ∈ K)
    (hfuelA : (K.filter (fun x => decide (BLe (b0 :: rest) x) && decide (BLe x zup))).length
      < fuel)
    (hfuelB : (K.filter (fun x => decide (BLe zlo x) && decide (BLt x zup))).length
      < fuel) :
    (∃ r, iter_ctor store s (b0 :: rest) = Except.ok r) ∧
    (∀ full_key, (b0 :: rest) <+: full_key →
      ∃ r, lower_bound_full_key store (get_next_pre (b0 :: rest)) fuel s it full_key =
        Except.ok r) ∧
    (∃ r, iter_inc store (b0 :: rest) (get_next_pre (b0 :: rest)) fuel s it =
      Except.ok r) ∧
    (∃ r, iter_dec store (b0 :: rest) (get_next_pre (b0 :: rest)) fuel s it =
      Except.ok r) := by
  have hb255 : b0 ≠ (255 : Byte) := by
    intro h
    rw [h] at hb2
    have h2 : ((255 : Byte) : Nat) = 255 := rfl
    omega
  have hff : ∃ b ∈ (b0 :: rest), b ≠ (255 : Byte) := ⟨b0, by simp, hb255⟩
  have hpn : BLt (b0 :: rest) (get_next_pre (b0 :: rest)) :=
    blt_next_of_pre hff (b0 :: rest) (pre_refl _)
  have hlbfk : ∀ full_key, (b0 :: rest) <+: full_key →
      ∃ r, lower_bound_full_key store (get_next_pre (b0 :: rest)) fuel s it full_key =
        Except.ok r := by
    intro full_key hpre
    have hfn : BLt full_key (get_next_pre (b0 :: rest)) :=
      blt_next_of_pre hff full_key hpre
    have hfuelC : ((K.filter (fun x => decide (BLe full_key x) && decide (BLe x zup))).length)
        < fuel := by
      have hm := filter_length_mono (K := K)
        (p := fun x => decide (BLe full_key x) && decide (BLe x zup))
        (q := fun x => decide (BLe (b0 :: rest) x) && decide (BLe x zup))
        (by
          intro x hx
          have hx2 : (decide (BLe full_key x) && decide (BLe x zup)) = true := hx
          rw [Bool.and_eq_true] at hx2
          have h1 := of_decide_eq_true hx2.1
          show (decide (BLe (b0 :: rest) x) && decide (BLe x zup)) = true
          rw [decide_eq_true (ble_trans (ble_of_pre hpre) h1), hx2.2]
          rfl)
      omega
    obtain ⟨s2, m, r2, hrun, -⟩ :=
      lbfk_spec store (get_next_pre (b0 :: rest)) zup K hwf hzus hKs fuel s it full_key
        hswf hzuc hzulive hnzu hfn hKc hfuelC
    exact ⟨_, hrun⟩
  refine ⟨?_, hlbfk, ?_, ?_⟩
  · exact iter_ctor_success store s b0 rest hwf hb1 hb2 hz0 hzf
  · cases hpos : it.cache_it with
    | none =>
      obtain ⟨r, hr⟩ := hlbfk (b0 :: rest) (pre_refl _)
      refine ⟨r, ?_⟩
      unfold iter_inc
      rw [hpos]
      exact hr
    | some q =>
      obtain ⟨s2, m, r2, hrun, -⟩ :=
        iter_inc_spec store (b0 :: rest) (get_next_pre (b0 :: rest)) zup K hwf hzus hKs
          fuel s it q hswf hpos hinv hzuc hzulive hnzu hKc hfuelA
      exact ⟨_, hrun⟩
  · exact iter_dec_success store (b0 :: rest) (get_next_pre (b0 :: rest)) zlo zup K
      fuel s it hwf hswf hzls hzlc hzllive hzlp hzus hzuc hnzu hpn hinv hKs hKc hfuelB

/-- A session with both sentinels warmed (as after running the iterator
constructor on the three-key store). -/
def c9Sess : write_session :=
  ⟨[([byteOf 0], ⟨0, some [], some [], false⟩),
    ([byteOf 0xff], ⟨0, some [], some [], false⟩)], []⟩

theorem c9Sess_wf : sessionWF c9Sess := by
  refine ⟨by decide, by decide, ?_, ?_⟩
  · intro k
    constructor
    · intro h
      cases h
    · rintro ⟨e, he, hl⟩
      by_cases hk0 : k = [byteOf 0]
      · subst hk0
        have he2 : some (⟨0, some [], some [], false⟩ : cached_value) = some e := he
        cases he2
        cases hl
      · by_cases hkf : k = [byteOf 0xff]
        · subst hkf
          have he2 : some (⟨0, some [], some [], false⟩ : cached_value) = some e := by
            rw [← he]
            show some (⟨0, some [], some [], false⟩ : cached_value) =
              (if [byteOf 0xff] = [byteOf 0] then
                some (⟨0, some [], some [], false⟩ : cached_value)
               else storeGet [([byteOf 0xff], ⟨0, some [], some [], false⟩)] [byteOf 0xff])
            rw [if_neg (by decide)]
            rfl
          cases he2
          cases hl
        · have heval : storeGet c9Sess.cache k = none := by
            show (if k = [byteOf 0] then some (⟨0, some [], some [], false⟩ : cached_value)
              else storeGet [([byteOf 0xff], ⟨0, some [], some [], false⟩)] k) = none
            rw [if_neg hk0]
            show (if k = [byteOf 0xff] then
                some (⟨0, some [], some [], false⟩ : cached_value)
              else storeGet [] k) = none
            rw [if_neg hkf]
            rfl
          rw [heval] at he
          cases he
  · intro k e he hd
    by_cases hk0 : k = [byteOf 0]
    · subst hk0
      have he2 : some (⟨0, some [], some [], false⟩ : cached_value) = some e := he
      cases he2
      exact absurd rfl hd
    · by_cases hkf : k = [byteOf 0xff]
      · subst hkf
        have he2 : some (⟨0, some [], some [], false⟩ : cached_value) = some e := by
          rw [← he]
          show some (⟨0, some [], some [], false⟩ : cached_value) =
            (if [byteOf 0xff] = [byteOf 0] then
              some (⟨0, some [], some [], false⟩ : cached_value)
             else storeGet [([byteOf 0xff], ⟨0, some [], some [], false⟩)] [byteOf 0xff])
          rw [if_neg (by decide)]
          rfl
        cases he2
        exact absurd rfl hd
      · have heval : storeGet c9Sess.cache k = none := by
          show (if k = [byteOf 0] then some (⟨0, some [], some [], false⟩ : cached_value)
            else storeGet [([byteOf 0xff], ⟨0, some [], some [], false⟩)] k) = none
          rw [if_neg hk0]
          show (if k = [byteOf 0xff] then
              some (⟨0, some [], some [], false⟩ : cached_value)
            else storeGet [] k) = none
          rw [if_neg hkf]
          rfl
        rw [heval] at he
        cases he

/-- Witness for C9: all four operations succeed on the three-key store with
both sentinels warmed, starting from the end iterator. -/
theorem claim_C9_witness :
    (∃ r, iter_ctor c5Store c9Sess [byteOf 0x70] = Except.ok r) ∧
    (∀ full_key, [byteOf 0x70] <+: full_key →
      ∃ r, lower_bound_full_key c5Store (get_next_pre [byteOf 0x70]) 10 c9Sess
        ⟨none, 0, none⟩ full_key = Except.ok r) ∧
    (∃ r, iter_inc c5Store [byteOf 0x70] (get_next_pre [byteOf 0x70]) 10 c9Sess
      ⟨none, 0, none⟩ = Except.ok r) ∧
    (∃ r, iter_dec c5Store [byteOf 0x70] (get_next_pre [byteOf 0x70]) 10 c9Sess
      ⟨none, 0, none⟩ = Except.ok r) :=
  claim_C9 c5Store c9Sess (byteOf 0x70) [] [byteOf 0] [byteOf 0xff]
    [[byteOf 0], [byteOf 0x70, byteOf 1], [byteOf 0xff]] 10 ⟨none, 0, none⟩
    (by decide) c9Sess_wf (by decide) (by decide) (by decide) (by decide)
    (by decide) (by decide) (by intro h; cases h) (by decide)
    (by decide) (by decide) (by intro h; cases h) (by decide)
    (fun m hm => nomatch hm) (by decide) (by decide) (by decide) (by decide)

/-! ## Undo restores the snapshot (claim C2) -/

/-- Each encoded record takes at least its tag byte, so the stream length
bounds the record count (and hence serves as parsing fuel). -/
theorem encodeSegRecs_length {rs : List UndoRec} {b : Bytes}
    (h : encodeSegRecs rs = Except.ok b) : rs.length ≤ b.length := by
  induction rs generalizing b with
  | nil =>
    cases h
    simp
  | cons r tl ih =>
    cases r with
    | remove k =>
      rw [show encodeSegRecs (UndoRec.remove k :: tl) = do
            let r ← pack_remove k
            let rest ← encodeSegRecs tl
            Except.ok (r ++ rest) from rfl] at h
      rw [show pack_remove k = do
            let pk ← pack_bytes k
            Except.ok (byteOf 0 :: pk) from rfl] at h
      unfold pack_bytes at h
      split at h
      · simp only [except_ok_bind] at h
        cases htl : encodeSegRecs tl with
        | error e =>
          rw [htl] at h
          cases h
        | ok bt =>
          rw [htl] at h
          simp only [except_ok_bind] at h
          cases h
          have := ih htl
          simp
          omega
      · cases h
    | put k v =>
      rw [show encodeSegRecs (UndoRec.put k v :: tl) = do
            let r ← pack_put k v
            let rest ← encodeSegRecs tl
            Except.ok (r ++ rest) from rfl] at h
      rw [show pack_put k v = do
            let pk ← pack_bytes k
            let pv ← pack_bytes v
            Except.ok (byteOf 1 :: (pk ++ pv)) from rfl] at h
      unfold pack_bytes at h
      split at h
      · split at h
        · simp only [except_ok_bind] at h
          cases htl : encodeSegRecs tl with
          | error e =>
            rw [htl] at h
            cases h
          | ok bt =>
            rw [htl] at h
            simp only [except_ok_bind] at h
            cases h
            have := ih htl
            simp
            omega
        · cases h
      · cases h

/-- Parsing inverts serialization, with any fuel at least the record
count (callers use the stream length, which suffices). -/
theorem parseSegRecs_round :
    ∀ (rs : List UndoRec) (b : Bytes), encodeSegRecs rs = Except.ok b →
    ∀ fuel, rs.length ≤ fuel →
    parseSegRecs fuel b = Except.ok rs := by
  intro rs
  induction rs with
  | nil =>
    intro b h fuel _
    cases h
    show parseSegRecs fuel [] = Except.ok []
    cases fuel with
    | zero => rfl
    | succ f => rfl
  | cons r tl ih =>
    intro b h fuel hfuel
    cases fuel with
    | zero => simp at hfuel
    | succ f =>
      cases r with
      | remove k =>
        rw [show encodeSegRecs (UndoRec.remove k :: tl) = do
              let r ← pack_remove k
              let rest ← encodeSegRecs tl
              Except.ok (r ++ rest) from rfl] at h
        rw [show pack_remove k = do
              let pk ← pack_bytes k
              Except.ok (byteOf 0 :: pk) from rfl] at h
        cases hpk : pack_bytes k with
        | error e =>
          rw [hpk] at h
          cases h
        | ok pk =>
          rw [hpk] at h
          simp only [except_ok_bind] at h
          cases htl : encodeSegRecs tl with
          | error e =>
            rw [htl] at h
            cases h
          | ok bt =>
            rw [htl] at h
            simp only [except_ok_bind] at h
            cases h
            show parseSegRecs (f + 1) ((byteOf 0 :: pk) ++ bt) = _
            rw [show ((byteOf 0 :: pk) ++ bt) = byteOf 0 :: (pk ++ bt) from rfl]
            unfold parseSegRecs
            rw [if_pos (by rfl)]
            rw [get_bytes_round hpk bt]
            show (match parseSegRecs f bt with
              | Except.error e => Except.error e
              | Except.ok tl2 => Except.ok (UndoRec.remove k :: tl2)) = _
            rw [ih bt htl f (by simp at hfuel; omega)]
      | put k v =>
        rw [show encodeSegRecs (UndoRec.put k v :: tl) = do
              let r ← pack_put k v
              let rest ← encodeSegRecs tl
              Except.ok (r ++ rest) from rfl] at h
        rw [show pack_put k v = do
              let pk ← pack_bytes k
              let pv ← pack_bytes v
              Except.ok (byteOf 1 :: (pk ++ pv)) from rfl] at h
        cases hpk : pack_bytes k with
        | error e =>
          rw [hpk] at h
          cases h
        | ok pk =>
          rw [hpk] at h
          simp only [except_ok_bind] at h
          cases hpv : pack_bytes v with
          | error e =>
            rw [hpv] at h
            cases h
          | ok pv =>
            rw [hpv] at h
            simp only [except_ok_bind] at h
            cases htl : encodeSegRecs tl with
            | error e =>
              rw [htl] at h
              cases h
            | ok bt =>
              rw [htl] at h
              simp only [except_ok_bind] at h
              cases h
              show parseSegRecs (f + 1) ((byteOf 1 :: (pk ++ pv)) ++ bt) = _
              rw [show ((byteOf 1 :: (pk ++ pv)) ++ bt) = byteOf 1 :: (pk ++ (pv ++ bt))
                from by simp]
              unfold parseSegRecs
              rw [if_neg (by decide), if_pos (by rfl)]
              rw [get_bytes_round hpk (pv ++ bt)]
              show (match get_bytes (pv ++ bt) with
                | Except.error e => Except.error e
                | Except.ok (v2, r2) =>
                  match parseSegRecs f r2 with
                  | Except.error e => Except.error e
                  | Except.ok tl2 => Except.ok (UndoRec.put k v2 :: tl2)) = _
              rw [get_bytes_round hpv bt]
              show (match parseSegRecs f bt with
                | Except.error e => Except.error e
                | Except.ok tl2 => Except.ok (UndoRec.put k v :: tl2)) = _
              rw [ih bt htl f (by simp at hfuel; omega)]

/-- Full specification of `undo_stack::write_changes` with a non-empty undo
stack: forward effect on the user keys, the reverse records appended as new
segments, the persisted state, and everything else untouched. -/
theorem write_changes_full
    (u : undo_stack) (store : Store) (cache : Cache) (cl : List Bytes)
    (hwf : storeWF store) (hstk : u.state.undo_stack ≠ [])
    (hgood : ∀ k ∈ cl, ¬ u.undoPre <+: k ∧ k.length < 2 ^ 32 ∧
      ∀ e, storeGet cache k = some e →
        ∀ ov, e.orig_value = some ov → ov.length < 2 ^ 32)
    (hbound : u.state.next_undo_segment + cl.length < U64MOD) :
    ∃ (flushed : List (List UndoRec)) (u2 : undo_stack) (store2 : Store),
      undo_stack.write_changes u store cache cl = Except.ok (u2, store2) ∧
      storeWF store2 ∧
      u2.undoPre = u.undoPre ∧
      u2.target_segment_size = u.target_segment_size ∧
      u2.state.format_version = u.state.format_version ∧
      u2.state.revision = u.state.revision ∧
      u2.state.next_undo_segment = u.state.next_undo_segment + flushed.length ∧
      u2.state.undo_stack = u.state.undo_stack.dropLast ++
        [u.state.undo_stack.getLast?.getD 0 + flushed.length] ∧
      flushed.length ≤ cl.length ∧
      flushed.flatten = (cl.filter (dirtyB cache)).map (mkRec cache) ∧
      (∀ seg ∈ flushed, seg ≠ [] ∧ ∀ r ∈ seg, recLenOK r) ∧
      (∀ j, ¬ u.undoPre <+: j →
        storeGet store2 j =
          if j ∈ cl ∧ dirtyB cache j = true then curOf cache j else storeGet store j) ∧
      (∀ i, i < flushed.length →
        storeGet store2 (u.create_segment_key (u.state.next_undo_segment + i)) =
          some (encodeOK (flushed.getD i []))) ∧
      storeGet store2 (statePreOf u.undoPre) = some (encode_state u2.state) ∧
      (∀ j, u.undoPre <+: j → j ≠ statePreOf u.undoPre →
        (∀ i, i < flushed.length →
          j ≠ u.create_segment_key (u.state.next_undo_segment + i)) →
        storeGet store2 j = storeGet store j) := by
  have hinv0 : WCInvS u store cache [] []
      { batch := [], seg := [], segSize := 0, state := u.state } [] := by
    refine ⟨rfl, rfl, rfl, ?_, ?_, rfl, ?_, ?_, ?_, fun j _ _ => rfl⟩
    · simpa using (dropLast_append_getLast hstk).symm
    · intro seg hseg
      cases hseg
    · intro r hr
      cases hr
    · intro j hj
      simp [batchEffect]
    · intro i hi
      exact absurd hi (Nat.not_lt_zero i)
  obtain ⟨acc1, flushed1, hfold, hinv1⟩ :=
    wc_fold_inv cl []
      { batch := [], seg := [], segSize := 0, state := u.state } []
      (by simpa using hinv0) hgood (by simpa using hbound)
  simp only [List.nil_append] at hinv1
  have hlenR : ((cl.filter (dirtyB cache)).map (mkRec cache)).length ≤ cl.length := by
    simpa using List.length_filter_le (dirtyB cache) cl
  have hbound2 : u.state.next_undo_segment + flushed1.length < U64MOD := by
    have h1 := flushed_length_le hinv1
    omega
  obtain ⟨acc2, flushed2, hflush, hinv2, hseg2, -⟩ := wcFlush_inv hinv1 hbound2
  obtain ⟨hfv, hrev, hnext, hstk2, hne, hrecs, hlen, huser, hsegs, hother⟩ := hinv2
  have step1 : undo_stack.write_changes u store cache cl =
      (wcFlush u.undoPre acc1) >>= fun a2 =>
        Except.ok ({ u with state := a2.state },
          applyBatch store
            (undo_stack.write_state_batch { u with state := a2.state } a2.batch)) := by
    rw [write_changes_do_eq, hfold]
    rfl
  have hwc : undo_stack.write_changes u store cache cl =
      Except.ok ({ u with state := acc2.state },
        applyBatch store
          (undo_stack.write_state_batch { u with state := acc2.state } acc2.batch)) := by
    rw [step1, hflush]
    rfl
  have hinv2P : WCInvS u store cache cl ((cl.filter (dirtyB cache)).map (mkRec cache))
      acc2 flushed2 := ⟨hfv, hrev, hnext, hstk2, hne, hrecs, hlen, huser, hsegs, hother⟩
  have hflen2 : flushed2.length ≤ cl.length := by
    have h1 := flushed_length_le hinv2P
    omega
  have hb : undo_stack.write_state_batch { u with state := acc2.state } acc2.batch =
      acc2.batch ++ [BatchOp.put (statePreOf u.undoPre) (encode_state acc2.state)] := rfl
  have heff : ∀ j, storeGet (applyBatch store
      (undo_stack.write_state_batch { u with state := acc2.state } acc2.batch)) j =
      (if j = statePreOf u.undoPre then some (encode_state acc2.state)
       else batchEffect j acc2.batch (storeGet store j)) := by
    intro j
    rw [hb, storeGet_applyBatch _ _ hwf, batchEffect_append]
    rfl
  have hflat : flushed2.flatten = (cl.filter (dirtyB cache)).map (mkRec cache) := by
    rw [hseg2, List.append_nil] at hrecs
    exact hrecs
  refine ⟨flushed2, { u with state := acc2.state }, _, hwc,
    storeWF_applyBatch _ hwf, rfl, rfl, hfv, hrev, hnext, hstk2, hflen2, hflat,
    ?_, ?_, ?_, ?_, ?_⟩
  · intro seg hseg
    refine ⟨hne seg hseg, ?_⟩
    intro r hr
    exact hlen r (List.mem_append.mpr (Or.inl (List.mem_flatten.mpr ⟨seg, hseg, hr⟩)))
  · intro j hj
    rw [heff j, if_neg (by
      intro h9
      exact hj (h9 ▸ statePre_has_undoPre u.undoPre))]
    exact huser j hj
  · intro i hi
    rw [heff _, if_neg (create_segment_key_ne_statePre u _)]
    exact hsegs i hi
  · rw [heff _, if_pos rfl]
  · intro j hj hjs hjseg
    rw [heff j, if_neg hjs]
    exact hother j hj hjseg

/-- The backward segment walk of `undo`, expressed over the (reversed) list
of entries still to visit. -/
def scanGo (first : Bytes) : Store → Batch → Except String Batch
  | [], batch => Except.ok batch
  | e :: rest, batch =>
      if BLt e.1 first then Except.ok batch
      else
        match parseSegRecs e.2.length e.2 with
        | Except.error err => Except.error err
        | Except.ok recs =>
            scanGo first rest (batch ++ recs.map recToOp ++ [BatchOp.del e.1])

theorem undoScanFrom_eq_scanGo (store : Store) (first : Bytes) :
    ∀ (i : Nat) (batch : Batch), i < store.length →
    undoScanFrom store first i batch = scanGo first ((store.take (i + 1)).reverse) batch := by
  intro i
  induction i with
  | zero =>
    intro batch hlen
    obtain ⟨e, he⟩ : ∃ e, store[0]? = some e := by
      cases h0 : store[0]? with
      | some e => exact ⟨e, rfl⟩
      | none =>
        rw [List.getElem?_eq_none_iff] at h0
        omega
    have htake : (store.take 1).reverse = [e] := by
      rw [List.take_succ, List.take_zero, he]
      rfl
    rw [htake]
    unfold undoScanFrom
    rw [he]
    obtain ⟨key, value⟩ := e
    show (if BLt key first then Except.ok batch else _) =
      (if BLt key first then Except.ok batch else _)
    by_cases hk : BLt key first
    · rw [if_pos hk, if_pos hk]
    · rw [if_neg hk, if_neg hk]
      cases hp : parseSegRecs value.length value with
      | error err => rfl
      | ok recs =>
        show (if (0 : Nat) = 0 then _ else _) = _
        rw [if_pos rfl]
        rfl
  | succ i ih =>
    intro batch hlen
    obtain ⟨e, he⟩ : ∃ e, store[i + 1]? = some e := by
      cases h0 : store[i + 1]? with
      | some e => exact ⟨e, rfl⟩
      | none =>
        rw [List.getElem?_eq_none_iff] at h0
        omega
    have htake : (store.take (i + 2)).reverse = e :: (store.take (i + 1)).reverse := by
      rw [List.take_succ, he]
      simp
    rw [htake]
    unfold undoScanFrom
    rw [he]
    obtain ⟨key, value⟩ := e
    show (if BLt key first then Except.ok batch else _) =
      (if BLt key first then Except.ok batch else _)
    by_cases hk : BLt key first
    · rw [if_pos hk, if_pos hk]
    · rw [if_neg hk, if_neg hk]
      cases hp : parseSegRecs value.length value with
      | error err => rfl
      | ok recs =>
        show (if i + 1 = 0 then _ else _) = _
        rw [if_neg (by omega)]
        show undoScanFrom store first i _ = _
        exact ih _ (by omega)

theorem scanGo_stop (first : Bytes) (T : Store) (batch : Batch)
    (hT : T = [] ∨ ∃ e rest, T = e :: rest ∧ BLt e.1 first) :
    scanGo first T batch = Except.ok batch := by
  rcases hT with h | ⟨e, rest, hT, he⟩
  · rw [h]; rfl
  · rw [hT]
    show (if BLt e.1 first then Except.ok batch else _) = _
    rw [if_pos he]

theorem scanGo_segments (first : Bytes) (F : Bytes × Bytes → List UndoRec) :
    ∀ (E T : Store) (batch : Batch),
    (∀ e ∈ E, ¬ BLt e.1 first) →
    (∀ e ∈ E, parseSegRecs e.2.length e.2 = Except.ok (F e)) →
    (T = [] ∨ ∃ e rest, T = e :: rest ∧ BLt e.1 first) →
    scanGo first (E ++ T) batch =
      Except.ok (batch ++ E.flatMap (fun e => (F e).map recToOp ++ [BatchOp.del e.1])) := by
  intro E
  induction E with
  | nil =>
    intro T batch _ _ hstop
    rw [List.nil_append, List.flatMap_nil, List.append_nil]
    exact scanGo_stop first T batch hstop
  | cons e E ih =>
    intro T batch hge hparse hstop
    rw [List.cons_append]
    show (if BLt e.1 first then Except.ok batch else _) = _
    rw [if_neg (hge e (by simp))]
    rw [hparse e (by simp)]
    show scanGo first (E ++ T) (batch ++ (F e).map recToOp ++ [BatchOp.del e.1]) = _
    rw [ih T _ (fun x hx => hge x (by simp [hx])) (fun x hx => hparse x (by simp [hx])) hstop]
    rw [List.flatMap_cons]
    simp [List.append_assoc]

theorem findIdx_split {α : Type} (p : α → Bool) :
    ∀ (l : List α),
    (l.findIdx? (fun e => ! p e) = none → l.takeWhile p = l) ∧
    (∀ n, l.findIdx? (fun e => ! p e) = some n →
      n < l.length ∧ l.take n = l.takeWhile p ∧ l.drop n = l.dropWhile p ∧
      ∃ a, l[n]? = some a ∧ p a = false) := by
  intro l
  induction l with
  | nil =>
    refine ⟨fun _ => rfl, ?_⟩
    intro n hn
    simp [List.findIdx?] at hn
  | cons a tl ih =>
    by_cases hpa : p a
    · have hcons : (a :: tl).findIdx? (fun e => ! p e) =
        (tl.findIdx? (fun e => ! p e)).map (fun i => i + 1) := by
        rw [List.findIdx?_cons]
        rw [hpa]
        show (if false = true then _ else _) = _
        rw [if_neg (by simp)]
        exact List.findIdx?_succ
      constructor
      · intro hnone
        rw [hcons] at hnone
        cases htl : tl.findIdx? (fun e => ! p e) with
        | none =>
          rw [List.takeWhile_cons, if_pos hpa, ih.1 htl]
        | some m => rw [htl] at hnone; simp at hnone
      · intro n hn
        rw [hcons] at hn
        cases htl : tl.findIdx? (fun e => ! p e) with
        | none => rw [htl] at hn; simp at hn
        | some m =>
          rw [htl] at hn
          have hn : m + 1 = n := by
            rw [show Option.map (fun i => i + 1) (some m) = some (m + 1) from rfl] at hn
            injection hn
          obtain ⟨hlt, htake, hdrop, b, hb, hpb⟩ := ih.2 m htl
          refine ⟨?_, ?_, ?_, b, ?_, hpb⟩
          · simp only [List.length_cons]; omega
          · rw [← hn, List.take_succ_cons, List.takeWhile_cons, if_pos hpa, htake]
          · rw [← hn, List.drop_succ_cons, List.dropWhile_cons, if_pos hpa, hdrop]
          · rw [← hn, List.getElem?_cons_succ, hb]
    · have hcons : (a :: tl).findIdx? (fun e => ! p e) = some 0 := by
        rw [List.findIdx?_cons]
        rw [Bool.eq_false_iff.mpr hpa]
        rfl
      constructor
      · intro hnone; rw [hcons] at hnone; simp at hnone
      · intro n hn
        rw [hcons] at hn
        injection hn with hn
        refine ⟨?_, ?_, ?_, a, ?_, Bool.eq_false_iff.mpr hpa⟩
        · simp only [← hn, List.length_cons]; omega
        · rw [← hn, List.take_zero, List.takeWhile_cons, if_neg hpa]
        · rw [← hn, List.drop_zero, List.dropWhile_cons, if_neg hpa]
        · rw [← hn, List.getElem?_cons_zero]

theorem mem_pair_of_storeGet {α : Type} {s : List (Bytes × α)} {k : Bytes} {v : α}
    (h : storeGet s k = some v) : (k, v) ∈ s := by
  induction s with
  | nil => cases h
  | cons e rest ih =>
    obtain ⟨k', v'⟩ := e
    by_cases hk : k = k'
    · subst hk
      simp only [storeGet, if_pos rfl] at h
      injection h with h
      subst h
      simp
    · simp only [storeGet, if_neg hk] at h
      exact List.mem_cons_of_mem _ (ih h)

theorem storeGet_of_mem_pair {α : Type} {s : List (Bytes × α)} {k : Bytes} {v : α}
    (hwf : storeWF s) (h : (k, v) ∈ s) : storeGet s k = some v := by
  induction s with
  | nil => cases h
  | cons e rest ih =>
    obtain ⟨k', v'⟩ := e
    rcases List.mem_cons.mp h with heq | hmem
    · injection heq with h1 h2
      subst h1; subst h2
      simp [storeGet]
    · have hne : k ≠ k' := by
        intro hkk
        simp only [storeWF, storeKeys, List.map_cons, List.pairwise_cons] at hwf
        have hbl : BLt k' k := hwf.1 k (List.mem_map.mpr ⟨(k, v), hmem, rfl⟩)
        rw [hkk] at hbl
        exact blt_irrefl _ hbl
      simp only [storeGet, if_neg hne]
      simp only [storeWF, storeKeys, List.map_cons, List.pairwise_cons] at hwf
      exact ih hwf.2 hmem

/-- In a sorted store, every entry of `dropWhile (key < k)` has key `≥ k`. -/
theorem dropWhile_blt_ge {s : Store} {k : Bytes} (hwf : storeWF s) :
    ∀ e ∈ s.dropWhile (fun e => decide (BLt e.1 k)), ¬ BLt e.1 k := by
  induction s with
  | nil => intro e he; cases he
  | cons a tl ih =>
    simp only [storeWF, storeKeys, List.map_cons, List.pairwise_cons] at hwf
    rw [List.dropWhile_cons]
    by_cases ha : BLt a.1 k
    · rw [if_pos (by simpa using ha)]
      exact ih hwf.2
    · rw [if_neg (by simp [ha])]
      intro e he
      rcases List.mem_cons.mp he with rfl | hmem
      · exact ha
      · intro hlt
        exact ha (blt_trans (hwf.1 e.1 (List.mem_map.mpr ⟨e, hmem, rfl⟩)) hlt)

/-- Membership in the `[first, upper)` slice of a sorted store. -/
theorem mem_slice_iff {s : Store} {first upper : Bytes} (hwf : storeWF s)
    (e : Bytes × Bytes) :
    e ∈ (s.takeWhile (fun x => decide (BLt x.1 upper))).dropWhile
          (fun x => decide (BLt x.1 first)) ↔
      e ∈ s ∧ ¬ BLt e.1 first ∧ BLt e.1 upper := by
  have hWsub : (s.takeWhile (fun x => decide (BLt x.1 upper))).Sublist s :=
    List.takeWhile_sublist _
  have hWwf : storeWF (s.takeWhile (fun x => decide (BLt x.1 upper))) :=
    List.Pairwise.sublist (List.Sublist.map _ hWsub) hwf
  constructor
  · intro he
    have heW : e ∈ s.takeWhile (fun x => decide (BLt x.1 upper)) :=
      (List.dropWhile_sublist _).mem he
    refine ⟨hWsub.mem heW, ?_, ?_⟩
    · exact dropWhile_blt_ge hWwf e he
    · have := List.mem_takeWhile_imp heW
      simpa using this
  · rintro ⟨hes, hge, hlt⟩
    have heW : e ∈ s.takeWhile (fun x => decide (BLt x.1 upper)) := by
      have hsplit : s = s.takeWhile (fun x => decide (BLt x.1 upper)) ++
          s.dropWhile (fun x => decide (BLt x.1 upper)) :=
        (List.takeWhile_append_dropWhile _ _).symm
      rcases List.mem_append.mp (hsplit ▸ hes) with h | h
      · exact h
      · exact absurd hlt (dropWhile_blt_ge hwf e h)
    have hsplit2 : s.takeWhile (fun x => decide (BLt x.1 upper)) =
        (s.takeWhile (fun x => decide (BLt x.1 upper))).takeWhile
            (fun x => decide (BLt x.1 first)) ++
          (s.takeWhile (fun x => decide (BLt x.1 upper))).dropWhile
            (fun x => decide (BLt x.1 first)) :=
      (List.takeWhile_append_dropWhile _ _).symm
    rcases List.mem_append.mp (hsplit2 ▸ heW) with h | h
    · have := List.mem_takeWhile_imp h
      simp at this
      exact absurd this hge
    · exact h

/-- Two strictly sorted byte-string lists with the same members are equal. -/
theorem sorted_eq_of_mem_iff :
    ∀ {l1 l2 : List Bytes}, List.Pairwise BLt l1 → List.Pairwise BLt l2 →
    (∀ k, k ∈ l1 ↔ k ∈ l2) → l1 = l2 := by
  intro l1
  induction l1 with
  | nil =>
    intro l2 _ _ hmem
    cases l2 with
    | nil => rfl
    | cons b t2 => exact absurd ((hmem b).mpr (by simp)) (by simp)
  | cons a t1 ih =>
    intro l2 h1 h2 hmem
    cases l2 with
    | nil => exact absurd ((hmem a).mp (by simp)) (by simp)
    | cons b t2 =>
      rw [List.pairwise_cons] at h1 h2
      have hab : a = b := by
        by_contra hne
        have ha2 : a ∈ t2 := by
          rcases List.mem_cons.mp ((hmem a).mp (by simp)) with h | h
          · exact absurd h hne
          · exact h
        have hb1 : b ∈ t1 := by
          rcases List.mem_cons.mp ((hmem b).mpr (by simp)) with h | h
          · exact absurd h.symm hne
          · exact h
        exact blt_asymm (h1.1 b hb1) (h2.1 a ha2)
      subst hab
      have htails : ∀ k, k ∈ t1 ↔ k ∈ t2 := by
        intro k
        constructor
        · intro hk
          rcases List.mem_cons.mp ((hmem k).mp (List.mem_cons_of_mem _ hk)) with h | h
          · subst h
            exact absurd (h1.1 k hk) (blt_irrefl k)
          · exact h
        · intro hk
          rcases List.mem_cons.mp ((hmem k).mpr (List.mem_cons_of_mem _ hk)) with h | h
          · subst h
            exact absurd (h2.1 k hk) (blt_irrefl k)
          · exact h
      rw [ih h1.2 h2.2 htails]

theorem segkey_pre (u : undo_stack) (i : Nat) :
    segPreOf u.undoPre <+: u.create_segment_key i :=
  ⟨beBytes 8 i, rfl⟩

theorem segPre_hff (upre : Bytes) : ∃ b ∈ segPreOf upre, b ≠ (255 : Byte) :=
  ⟨byteOf 0x80, by simp [segPreOf], by decide⟩

theorem blt_segkey_next (u : undo_stack) (i : Nat) :
    BLt (u.create_segment_key i) (segNextPreOf u.undoPre) :=
  blt_next_of_pre (segPre_hff u.undoPre) _ (segkey_pre u i)

theorem statePre_blt_segkey (u : undo_stack) (i : Nat) :
    BLt (statePreOf u.undoPre) (u.create_segment_key i) := by
  have hk : u.create_segment_key i = u.undoPre ++ (byteOf 0x80 :: beBytes 8 i) := by
    show (u.undoPre ++ [byteOf 0x80]) ++ beBytes 8 i = _
    rw [List.append_assoc]
    rfl
  rw [hk]
  show BLt (u.undoPre ++ [byteOf 0]) (u.undoPre ++ (byteOf 0x80 :: beBytes 8 i))
  rw [BLt, compare_blob_append_same]
  exact blt_cons_of_lt (by decide) _ _

/-- A key in the segment range `[segkey lo, segment_next_prefix)` carries the
segment prefix (hence the undo prefix). -/
theorem segPre_pre_of_range {u : undo_stack} {k : Bytes} {lo : Nat}
    (h1 : BLe (u.create_segment_key lo) k) (h2 : BLt k (segNextPreOf u.undoPre)) :
    segPreOf u.undoPre <+: k := by
  have hle : BLe (segPreOf u.undoPre) k :=
    ble_trans (ble_of_pre (segkey_pre u lo)) h1
  exact (pre_range_iff (segPre_hff u.undoPre) k).mp ⟨hle, h2⟩

/-- Segment ids `[b, b+cnt)` in ascending order. -/
def segIdsAsc (b cnt : Nat) : List Nat := (List.range cnt).map (fun t => b + t)

/-- The batch `undo` builds for a frame of `cnt` segments starting at id
`b`: per segment in descending id order, its records (in stream order) then
the deletion of the segment record. -/
def undoBatchOf (u : undo_stack) (recsOf : Nat → List UndoRec) (b cnt : Nat) : Batch :=
  ((segIdsAsc b cnt).reverse).flatMap
    (fun id => (recsOf id).map recToOp ++ [BatchOp.del (u.create_segment_key id)])

theorem mem_segIdsAsc {b cnt id : Nat} :
    id ∈ segIdsAsc b cnt ↔ b ≤ id ∧ id < b + cnt := by
  unfold segIdsAsc
  simp only [List.mem_map, List.mem_range]
  constructor
  · rintro ⟨t, ht, rfl⟩; omega
  · rintro ⟨h1, h2⟩; exact ⟨id - b, by omega, by omega⟩

theorem segIdsAsc_pairwise (b cnt : Nat) :
    List.Pairwise (· < ·) (segIdsAsc b cnt) := by
  unfold segIdsAsc
  rw [List.pairwise_map]
  exact List.Pairwise.imp (by omega) (List.pairwise_lt_range cnt)

theorem list_pair_eq_of_fst {α β : Type} (V : α → β) :
    ∀ (E : List (α × β)) (ks : List α),
    E.map Prod.fst = ks →
    (∀ e ∈ E, e.2 = V e.1) →
    E = ks.map (fun k => (k, V k)) := by
  intro E
  induction E with
  | nil =>
    intro ks hk _
    rw [← hk]
    rfl
  | cons e tl ih =>
    intro ks hk hv
    cases ks with
    | nil => cases hk
    | cons k ks' =>
      rw [List.map_cons] at hk
      injection hk with h1 h2
      rw [List.map_cons]
      have he : e = (k, V k) := by
        have hv1 := hv e (by simp)
        obtain ⟨ek, ev⟩ := e
        simp only at hv1 h1
        rw [h1] at hv1 ⊢
        rw [hv1]
      rw [he, ih ks' h2 (fun x hx => hv x (by simp [hx]))]

/-- The entry list of the segment range of a sorted store whose range keys
are exactly the live segment ids. -/
theorem seg_slice_eq {u : undo_stack} {store : Store} {recsOf : Nat → List UndoRec}
    {b next : Nat}
    (hwf : storeWF store) (hb : b ≤ next) (hnext : next < U64MOD)
    (hsegs : ∀ id, b ≤ id → id < next →
      storeGet store (u.create_segment_key id) = some (encodeOK (recsOf id)))
    (hclass : ∀ k ∈ storeKeys store, BLe (u.create_segment_key b) k →
      BLt k (segNextPreOf u.undoPre) → ∃ id, b ≤ id ∧ id < next ∧
        k = u.create_segment_key id) :
    (store.takeWhile (fun x => decide (BLt x.1 (segNextPreOf u.undoPre)))).dropWhile
        (fun x => decide (BLt x.1 (u.create_segment_key b))) =
      (segIdsAsc b (next - b)).map
        (fun id => (u.create_segment_key id, encodeOK (recsOf id))) := by
  set npre := segNextPreOf u.undoPre with hnpre
  set first := u.create_segment_key b with hfirst
  set E := (store.takeWhile (fun x => decide (BLt x.1 npre))).dropWhile
      (fun x => decide (BLt x.1 first)) with hE
  have hmemE : ∀ e, e ∈ E ↔ (e ∈ store ∧ ¬ BLt e.1 first ∧ BLt e.1 npre) :=
    fun e => mem_slice_iff hwf e
  have hid : ∀ e ∈ E, ∃ id, b ≤ id ∧ id < next ∧ e.1 = u.create_segment_key id := by
    intro e he
    obtain ⟨hes, hge, hlt⟩ := (hmemE e).mp he
    exact hclass e.1 (List.mem_map.mpr ⟨e, hes, rfl⟩) (ble_of_not_blt hge) hlt
  have hEwf : List.Pairwise BLt (E.map Prod.fst) := by
    have h1 : E.Sublist store :=
      List.Sublist.trans (List.dropWhile_sublist _) (List.takeWhile_sublist _)
    exact List.Pairwise.sublist (List.Sublist.map _ h1) hwf
  have hkeys : E.map Prod.fst = (segIdsAsc b (next - b)).map u.create_segment_key := by
    apply sorted_eq_of_mem_iff hEwf
    · rw [List.pairwise_map]
      refine List.Pairwise.imp_of_mem ?_ (segIdsAsc_pairwise b (next - b))
      intro i j hi hj hij
      have hi2 := mem_segIdsAsc.mp hi
      have hj2 := mem_segIdsAsc.mp hj
      exact (create_segment_key_blt (by omega) (by omega)).mpr hij
    · intro k
      simp only [List.mem_map]
      constructor
      · rintro ⟨e, he, rfl⟩
        obtain ⟨id, h1, h2, h3⟩ := hid e he
        exact ⟨id, mem_segIdsAsc.mpr ⟨h1, by omega⟩, h3.symm⟩
      · rintro ⟨id, hid2, rfl⟩
        obtain ⟨h1, h2⟩ := mem_segIdsAsc.mp hid2
        have h2' : id < next := by omega
        have hget := hsegs id h1 h2'
        have hmem : (u.create_segment_key id, encodeOK (recsOf id)) ∈ store :=
          mem_pair_of_storeGet hget
        refine ⟨(u.create_segment_key id, encodeOK (recsOf id)), ?_, rfl⟩
        rw [hmemE]
        refine ⟨hmem, ?_, ?_⟩
        · intro hltf
          have hble : BLe first (u.create_segment_key id) := by
            rw [hfirst]
            exact (create_segment_key_ble (by omega) (by omega)).mpr h1
          exact blt_irrefl _ (blt_of_ble_of_blt hble hltf)
        · rw [hnpre]
          exact blt_segkey_next u id
  have hval : ∀ e ∈ E, e.2 = (storeGet store e.1).getD [] := by
    intro e he
    have hes : e ∈ store := ((hmemE e).mp he).1
    have := storeGet_of_mem_pair hwf (show (e.1, e.2) ∈ store from hes)
    rw [this]
    rfl
  rw [list_pair_eq_of_fst (fun k => (storeGet store k).getD []) E _ hkeys hval]
  rw [List.map_map]
  apply List.map_congr_left
  intro id hid2
  obtain ⟨h1, h2⟩ := mem_segIdsAsc.mp hid2
  have hget := hsegs id h1 (by omega)
  simp only [Function.comp]
  rw [hget]
  rfl

/-- The backward scan of `undo` produces exactly the per-frame batch:
records of each live segment in descending id order, each followed by the
deletion of its segment record. -/
theorem undo_scan_batch (u : undo_stack) (store : Store) (recsOf : Nat → List UndoRec)
    (b next : Nat)
    (hwf : storeWF store) (hb : b ≤ next) (hnext : next < U64MOD)
    (hsegs : ∀ id, b ≤ id → id < next →
      storeGet store (u.create_segment_key id) = some (encodeOK (recsOf id)) ∧
      ∀ r ∈ recsOf id, recLenOK r)
    (hclass : ∀ k ∈ storeKeys store, BLe (u.create_segment_key b) k →
      BLt k (segNextPreOf u.undoPre) → ∃ id, b ≤ id ∧ id < next ∧
        k = u.create_segment_key id)
    (hsent : ∃ ks ∈ storeKeys store, BLe (segNextPreOf u.undoPre) ks) :
    (match seekIdx store (segNextPreOf u.undoPre) with
     | none => Except.ok ([] : Batch)
     | some 0 => Except.ok ([] : Batch)
     | some (i + 1) => undoScanFrom store (u.create_segment_key b) i []) =
    Except.ok (undoBatchOf u recsOf b (next - b)) := by
  set npre := segNextPreOf u.undoPre with hnpre
  set first := u.create_segment_key b with hfirst
  set p := (fun x : Bytes × Bytes => decide (BLt x.1 npre)) with hp
  set W := store.takeWhile p with hW
  have hEmap := @seg_slice_eq u store recsOf b next hwf hb hnext
    (fun id h1 h2 => (hsegs id h1 h2).1) hclass
  set E := W.dropWhile (fun x => decide (BLt x.1 first)) with hEdef
  set P2 := W.takeWhile (fun x => decide (BLt x.1 first)) with hP2
  -- the sentinel entry is outside W, so the seek finds an index
  obtain ⟨ks, hksmem, hksge⟩ := hsent
  obtain ⟨es, hess, hesk⟩ := List.mem_map.mp hksmem
  have hesp : p es = false := by
    rw [hp]
    simp only [decide_eq_false_iff_not]
    intro hlt
    rw [hesk] at hlt
    exact blt_irrefl _ (blt_of_ble_of_blt hksge hlt)
  have hsplit := findIdx_split p store
  cases hseek : seekIdx store npre with
  | none =>
    exfalso
    have hWall : W = store := hsplit.1 hseek
    have hinW : es ∈ W := hWall ▸ hess
    have := List.mem_takeWhile_imp hinW
    rw [hesp] at this
    cases this
  | some n =>
    obtain ⟨hnlt, htake, hdrop, a, ha, hpa⟩ := hsplit.2 n hseek
    cases n with
    | zero =>
      -- no entry below npre at all: the frame must be empty
      have hWnil : W = [] := by
        rw [hW, ← htake]
        rfl
      have hcnt : next - b = 0 := by
        by_contra hpos
        have h2' : b < next := by omega
        have hget := (hsegs b (le_refl b) h2').1
        have hmem : (first, encodeOK (recsOf b)) ∈ store := mem_pair_of_storeGet hget
        have hinW : (first, encodeOK (recsOf b)) ∈ W := by
          have hsplit2 : store = W ++ store.dropWhile p :=
            (List.takeWhile_append_dropWhile _ _).symm
          rcases List.mem_append.mp (hsplit2 ▸ hmem) with h | h
          · exact h
          · exfalso
            have := dropWhile_blt_ge hwf _ h
            exact this (blt_segkey_next u b)
        rw [hWnil] at hinW
        cases hinW
      rw [hcnt]
      rfl
    | succ i =>
      have hilen : i < store.length := by omega
      show undoScanFrom store first i [] = _
      rw [undoScanFrom_eq_scanGo store first i [] hilen]
      rw [htake, ← hW]
      have hWPE : W = P2 ++ E := (List.takeWhile_append_dropWhile _ _).symm
      rw [hWPE, List.reverse_append]
      have hmemE : ∀ e, e ∈ E ↔ (e ∈ store ∧ ¬ BLt e.1 first ∧ BLt e.1 npre) :=
        fun e => mem_slice_iff hwf e
      have hstep := scanGo_segments first
        (fun e => ((parseSegRecs e.2.length e.2).toOption).getD [])
        E.reverse P2.reverse []
        (by
          intro e he
          exact ((hmemE e).mp (List.mem_reverse.mp he)).2.1)
        (by
          intro e he
          have heE := List.mem_reverse.mp he
          rw [hEmap] at heE
          obtain ⟨id, hidm, hide⟩ := List.mem_map.mp heE
          obtain ⟨h1, h2⟩ := mem_segIdsAsc.mp hidm
          have hlenok := (hsegs id h1 (by omega)).2
          have henc : encodeSegRecs (recsOf id) = Except.ok (encodeOK (recsOf id)) :=
            encodeSegRecs_ok hlenok
          have hparse : parseSegRecs (encodeOK (recsOf id)).length (encodeOK (recsOf id)) =
              Except.ok (recsOf id) :=
            parseSegRecs_round _ _ henc _ (encodeSegRecs_length henc)
          rw [← hide]
          simp only
          rw [hparse]
          rfl)
        (by
          cases hP2r : P2.reverse with
          | nil => exact Or.inl rfl
          | cons e rest =>
            refine Or.inr ⟨e, rest, rfl, ?_⟩
            have heP : e ∈ P2 := by
              rw [← List.mem_reverse, hP2r]
              simp
            have := List.mem_takeWhile_imp heP
            simpa using this)
      rw [hstep]
      rw [List.nil_append]
      congr 1
      rw [hEmap, ← List.map_reverse, List.flatMap_def, List.map_map,
        undoBatchOf, List.flatMap_def]
      congr 1
      apply List.map_congr_left
      intro id hid2
      have hidm := List.mem_reverse.mp hid2
      obtain ⟨h1, h2⟩ := mem_segIdsAsc.mp hidm
      have hlenok := (hsegs id h1 (by omega)).2
      have henc : encodeSegRecs (recsOf id) = Except.ok (encodeOK (recsOf id)) :=
        encodeSegRecs_ok hlenok
      have hparse : parseSegRecs (encodeOK (recsOf id)).length (encodeOK (recsOf id)) =
          Except.ok (recsOf id) :=
        parseSegRecs_round _ _ henc _ (encodeSegRecs_length henc)
      simp only [Function.comp]
      rw [hparse]
      rfl

def recKey : UndoRec → Bytes
  | UndoRec.remove k => k
  | UndoRec.put k _ => k

/-- The value a record restores: `put` restores the old value, `remove`
restores absence. -/
def recVal : UndoRec → Option Bytes
  | UndoRec.remove _ => none
  | UndoRec.put _ v => some v

theorem opEffect_recToOp (j : Bytes) (cur : Option Bytes) (r : UndoRec) :
    opEffect j cur (recToOp r) = if j = recKey r then recVal r else cur := by
  cases r <;> rfl

theorem opTargets_recToOp (j : Bytes) (r : UndoRec) :
    opTargets j (recToOp r) ↔ j = recKey r := by
  cases r <;> simp [recToOp, opTargets, recKey]

theorem find_append_some {α : Type} {p : α → Bool} {l1 l2 : List α} {r : α}
    (h : l1.find? p = some r) : (l1 ++ l2).find? p = some r := by
  induction l1 with
  | nil => cases h
  | cons a tl ih =>
    rw [List.cons_append]
    by_cases hpa : p a = true
    · rw [List.find?_cons_of_pos _ hpa] at h
      rw [List.find?_cons_of_pos _ hpa]
      exact h
    · have hpa2 : p a = false := by rwa [Bool.not_eq_true] at hpa
      rw [List.find?_cons_of_neg _ (by simp [hpa2])] at h
      rw [List.find?_cons_of_neg _ (by simp [hpa2])]
      exact ih h

theorem find_append_none {α : Type} {p : α → Bool} {l1 l2 : List α}
    (h : l1.find? p = none) : (l1 ++ l2).find? p = l2.find? p := by
  induction l1 with
  | nil => rfl
  | cons a tl ih =>
    rw [List.cons_append]
    by_cases hpa : p a = true
    · rw [List.find?_cons_of_pos _ hpa] at h
      cases h
    · have hpa2 : p a = false := by rwa [Bool.not_eq_true] at hpa
      rw [List.find?_cons_of_neg _ (by simp [hpa2])] at h
      rw [List.find?_cons_of_neg _ (by simp [hpa2])]
      exact ih h

/-- Within one segment the record keys are distinct, so the last matching
batch op (= the only one) is the first matching record. -/
theorem batchEffect_recs (j : Bytes) :
    ∀ (recs : List UndoRec) (init : Option Bytes),
    (recs.map recKey).Nodup →
    batchEffect j (recs.map recToOp) init =
      match recs.find? (fun r => decide (recKey r = j)) with
      | some r => recVal r
      | none => init := by
  intro recs
  induction recs with
  | nil => intro init _; rfl
  | cons r tl ih =>
    intro init hnd
    rw [List.map_cons] at hnd ⊢
    rw [List.nodup_cons] at hnd
    have hstep : batchEffect j (recToOp r :: tl.map recToOp) init =
        batchEffect j (tl.map recToOp) (opEffect j init (recToOp r)) := rfl
    rw [hstep, opEffect_recToOp]
    rw [List.find?_cons]
    by_cases hj : recKey r = j
    · rw [if_pos hj.symm]
      rw [show decide (recKey r = j) = true from by simp [hj]]
      have hnone : batchEffect j (tl.map recToOp) (recVal r) = recVal r := by
        apply batchEffect_of_not_targets
        intro o ho
        obtain ⟨r2, hr2, rfl⟩ := List.mem_map.mp ho
        rw [opTargets_recToOp]
        intro hk
        apply hnd.1
        rw [hj, hk]
        exact List.mem_map.mpr ⟨r2, hr2, rfl⟩
      rw [hnone]
    · rw [if_neg (fun h => hj h.symm)]
      rw [show decide (recKey r = j) = false from by simp [hj]]
      exact ih init hnd.2

theorem segIdsAsc_succ (b cnt : Nat) :
    segIdsAsc b (cnt + 1) = segIdsAsc b cnt ++ [b + cnt] := by
  unfold segIdsAsc
  rw [List.range_succ, List.map_append]
  rfl

theorem undoBatchOf_succ (u : undo_stack) (recsOf : Nat → List UndoRec) (b cnt : Nat) :
    undoBatchOf u recsOf b (cnt + 1) =
      ((recsOf (b + cnt)).map recToOp ++ [BatchOp.del (u.create_segment_key (b + cnt))]) ++
        undoBatchOf u recsOf b cnt := by
  unfold undoBatchOf
  rw [segIdsAsc_succ, List.reverse_append]
  rfl

theorem flatMap_segIdsAsc_succ (recsOf : Nat → List UndoRec) (b cnt : Nat) :
    (segIdsAsc b (cnt + 1)).flatMap recsOf =
      (segIdsAsc b cnt).flatMap recsOf ++ recsOf (b + cnt) := by
  rw [segIdsAsc_succ, List.flatMap_append]
  simp

/-- Effect of a frame's undo batch on a non-undo key: the chronologically
first record for that key wins (blocks are replayed newest-first, records
within a block oldest-first, and keys repeat only across blocks). -/
theorem undoBatch_user_effect (u : undo_stack) (recsOf : Nat → List UndoRec) (b : Nat) :
    ∀ (cnt : Nat) (j : Bytes) (init : Option Bytes),
    ¬ u.undoPre <+: j →
    (∀ t, t < cnt → ((recsOf (b + t)).map recKey).Nodup) →
    batchEffect j (undoBatchOf u recsOf b cnt) init =
      match ((segIdsAsc b cnt).flatMap recsOf).find? (fun r => decide (recKey r = j)) with
      | some r => recVal r
      | none => init := by
  intro cnt
  induction cnt with
  | zero => intro j init _ _; rfl
  | succ cnt ih =>
    intro j init hj hnd
    rw [undoBatchOf_succ, batchEffect_append, flatMap_segIdsAsc_succ]
    have hblock : batchEffect j
        ((recsOf (b + cnt)).map recToOp ++ [BatchOp.del (u.create_segment_key (b + cnt))])
        init =
        match (recsOf (b + cnt)).find? (fun r => decide (recKey r = j)) with
        | some r => recVal r
        | none => init := by
      rw [batchEffect_append]
      have hdel : batchEffect j [BatchOp.del (u.create_segment_key (b + cnt))]
          (batchEffect j ((recsOf (b + cnt)).map recToOp) init) =
          batchEffect j ((recsOf (b + cnt)).map recToOp) init := by
        apply batchEffect_of_not_targets
        intro o ho
        rw [List.mem_singleton] at ho
        subst ho
        show ¬ j = u.create_segment_key (b + cnt)
        intro hjk
        apply hj
        rw [hjk]
        exact segKey_has_undoPre u (b + cnt)
      rw [hdel]
      exact batchEffect_recs j _ init (hnd cnt (by omega))
    rw [hblock]
    have ih2 := fun init2 =>
      ih j init2 hj (fun t ht => hnd t (by omega))
    cases hf : ((segIdsAsc b cnt).flatMap recsOf).find? (fun r => decide (recKey r = j)) with
    | some r =>
      rw [ih2 _]
      rw [hf]
      rw [find_append_some hf]
    | none =>
      rw [ih2 _]
      rw [hf]
      rw [find_append_none hf]

/-- Effect of a frame's undo batch on a key no record targets: deleted when
it is one of the frame's segment keys, untouched otherwise. -/
theorem undoBatch_segkey_effect (u : undo_stack) (recsOf : Nat → List UndoRec) (b : Nat) :
    ∀ (cnt : Nat) (q : Bytes) (init : Option Bytes),
    (∀ t, t < cnt → ∀ r ∈ recsOf (b + t), recKey r ≠ q) →
    batchEffect q (undoBatchOf u recsOf b cnt) init =
      if q ∈ (segIdsAsc b cnt).map u.create_segment_key then none else init := by
  intro cnt
  induction cnt with
  | zero =>
    intro q init _
    rw [if_neg (by simp [segIdsAsc])]
    rfl
  | succ cnt ih =>
    intro q init hrec
    rw [undoBatchOf_succ, batchEffect_append]
    have hblock : batchEffect q
        ((recsOf (b + cnt)).map recToOp ++ [BatchOp.del (u.create_segment_key (b + cnt))])
        init =
        if q = u.create_segment_key (b + cnt) then none else init := by
      rw [batchEffect_append]
      have hrecs : batchEffect q ((recsOf (b + cnt)).map recToOp) init = init := by
        apply batchEffect_of_not_targets
        intro o ho
        obtain ⟨r2, hr2, rfl⟩ := List.mem_map.mp ho
        rw [opTargets_recToOp]
        intro hq2
        exact hrec cnt (by omega) r2 hr2 hq2.symm
      rw [hrecs]
      rfl
    rw [hblock]
    rw [ih q _ (fun t ht => hrec t (by omega))]
    rw [segIdsAsc_succ, List.map_append]
    by_cases hq : q = u.create_segment_key (b + cnt)
    · rw [if_pos hq]
      rw [if_pos (List.mem_append.mpr (Or.inr (by simp [hq])))]
      by_cases hmem : q ∈ (segIdsAsc b cnt).map u.create_segment_key
      · rw [if_pos hmem]
      · rw [if_neg hmem]
    · rw [if_neg hq]
      by_cases hmem : q ∈ (segIdsAsc b cnt).map u.create_segment_key
      · rw [if_pos hmem, if_pos (List.mem_append.mpr (Or.inl hmem))]
      · rw [if_neg hmem, if_neg (by
          intro hcon
          rcases List.mem_append.mp hcon with h | h
          · exact hmem h
          · simp only [List.map_cons, List.map_nil, List.mem_singleton] at h
            exact hq h)]

/-- Full specification of one `undo` call under the structural invariant:
the frame's records are replayed oldest-first per key, the frame's segment
records are deleted, the frame is popped, the revision drops by one, and
every other key is untouched (the state record is rewritten). -/
theorem undo_restores
    (u : undo_stack) (store : Store) (recsOf : Nat → List UndoRec) (back : Nat)
    (hwf : storeWF store)
    (hstk : u.state.undo_stack ≠ [])
    (hback : u.state.undo_stack.getLast?.getD 0 = back)
    (hble : back ≤ u.state.next_undo_segment)
    (hnext : u.state.next_undo_segment < U64MOD)
    (hsegs : ∀ id, u.state.next_undo_segment - back ≤ id →
      id < u.state.next_undo_segment →
      storeGet store (u.create_segment_key id) = some (encodeOK (recsOf id)) ∧
      ∀ r ∈ recsOf id, recLenOK r)
    (hclass : ∀ k ∈ storeKeys store,
      BLe (u.create_segment_key (u.state.next_undo_segment - back)) k →
      BLt k (segNextPreOf u.undoPre) →
      ∃ id, u.state.next_undo_segment - back ≤ id ∧
        id < u.state.next_undo_segment ∧ k = u.create_segment_key id)
    (hsent : ∃ ks ∈ storeKeys store, BLe (segNextPreOf u.undoPre) ks)
    (hreckeys : ∀ t, t < back →
      ((recsOf (u.state.next_undo_segment - back + t)).map recKey).Nodup ∧
      ∀ r ∈ recsOf (u.state.next_undo_segment - back + t), ¬ u.undoPre <+: recKey r) :
    ∃ (u2 : undo_stack) (store2 : Store),
      u.undo store = Except.ok (u2, store2) ∧
      storeWF store2 ∧
      u2.undoPre = u.undoPre ∧
      u2.target_segment_size = u.target_segment_size ∧
      u2.state.format_version = u.state.format_version ∧
      u2.state.revision = u.state.revision - 1 ∧
      u2.state.undo_stack = u.state.undo_stack.dropLast ∧
      u2.state.next_undo_segment = u.state.next_undo_segment - back ∧
      (∀ j, ¬ u.undoPre <+: j →
        storeGet store2 j =
          match ((segIdsAsc (u.state.next_undo_segment - back) back).flatMap recsOf).find?
              (fun r => decide (recKey r = j)) with
          | some r => recVal r
          | none => storeGet store j) ∧
      (∀ id, u.state.next_undo_segment - back ≤ id → id < u.state.next_undo_segment →
        storeGet store2 (u.create_segment_key id) = none) ∧
      storeGet store2 (statePreOf u.undoPre) = some (encode_state u2.state) ∧
      (∀ j, u.undoPre <+: j → j ≠ statePreOf u.undoPre →
        (∀ id, u.state.next_undo_segment - back ≤ id → id < u.state.next_undo_segment →
          j ≠ u.create_segment_key id) →
        storeGet store2 j = storeGet store j) := by
  set b := u.state.next_undo_segment - back with hbdef
  have hsub : sub64 u.state.next_undo_segment back = b :=
    sub64_eq hnext hble
  have hscan := undo_scan_batch u store recsOf b u.state.next_undo_segment hwf
    (by omega) hnext hsegs hclass hsent
  have hcnt : u.state.next_undo_segment - b = back := by omega
  rw [hcnt] at hscan
  set u2 : undo_stack := { u with state := { u.state with
      next_undo_segment := b,
      undo_stack := u.state.undo_stack.dropLast,
      revision := u.state.revision - 1 } } with hu2
  have hundo : u.undo store = Except.ok (u2,
      applyBatch store (u2.write_state_batch (undoBatchOf u recsOf b back))) := by
    unfold undo_stack.undo
    rw [if_neg hstk]
    simp only
    rw [hback, hsub]
    rw [show (match seekIdx store (segNextPreOf u.undoPre) with
        | none => Except.ok ([] : Batch)
        | some 0 => Except.ok ([] : Batch)
        | some (i + 1) => undoScanFrom store (u.create_segment_key b) i []) =
        Except.ok (undoBatchOf u recsOf b back) from hscan]
  set store2 := applyBatch store (u2.write_state_batch (undoBatchOf u recsOf b back))
    with hst2
  have hwf2 : storeWF store2 := storeWF_applyBatch _ hwf
  have hbatchget : ∀ j, storeGet store2 j =
      batchEffect j (undoBatchOf u recsOf b back ++
        [BatchOp.put (statePreOf u.undoPre) (encode_state u2.state)]) (storeGet store j) := by
    intro j
    rw [hst2]
    exact storeGet_applyBatch _ j hwf
  have hsegkey_same : ∀ id, u.create_segment_key id = u2.create_segment_key id :=
    fun id => rfl
  refine ⟨u2, store2, hundo, hwf2, rfl, rfl, rfl, rfl, rfl, rfl, ?_, ?_, ?_, ?_⟩
  · -- user keys
    intro j hj
    rw [hbatchget j, batchEffect_append]
    have hput : batchEffect j [BatchOp.put (statePreOf u.undoPre) (encode_state u2.state)]
        (batchEffect j (undoBatchOf u recsOf b back) (storeGet store j)) =
        batchEffect j (undoBatchOf u recsOf b back) (storeGet store j) := by
      apply batchEffect_of_not_targets
      intro o ho
      rw [List.mem_singleton] at ho
      subst ho
      show ¬ j = statePreOf u.undoPre
      intro hjs
      exact hj (hjs ▸ statePre_has_undoPre u.undoPre)
    rw [hput]
    exact undoBatch_user_effect u recsOf b back j (storeGet store j) hj
      (fun t ht => (hreckeys t ht).1)
  · -- the frame's segment records are gone
    intro id h1 h2
    rw [hbatchget _, batchEffect_append]
    have hseg : batchEffect (u.create_segment_key id)
        (undoBatchOf u recsOf b back) (storeGet store (u.create_segment_key id)) = none := by
      rw [undoBatch_segkey_effect u recsOf b back (u.create_segment_key id) _
        (fun t ht r hr hk =>
          (hreckeys t ht).2 r hr (hk ▸ segKey_has_undoPre u id))]
      rw [if_pos]
      exact List.mem_map.mpr ⟨id, mem_segIdsAsc.mpr ⟨h1, by omega⟩, rfl⟩
    rw [hseg]
    show (if u.create_segment_key id = statePreOf u.undoPre then _ else none) = none
    rw [if_neg (create_segment_key_ne_statePre u id)]
  · -- the state record
    rw [hbatchget _, batchEffect_append]
    have hstate : batchEffect (statePreOf u.undoPre)
        (undoBatchOf u recsOf b back) (storeGet store (statePreOf u.undoPre)) =
        storeGet store (statePreOf u.undoPre) := by
      rw [undoBatch_segkey_effect u recsOf b back (statePreOf u.undoPre) _
        (fun t ht r hr hk =>
          (hreckeys t ht).2 r hr (hk ▸ statePre_has_undoPre u.undoPre))]
      rw [if_neg]
      intro hmem
      obtain ⟨id, hidm, hide⟩ := List.mem_map.mp hmem
      exact create_segment_key_ne_statePre u id hide
    rw [hstate]
    show (if statePreOf u.undoPre = statePreOf u.undoPre then
        some (encode_state u2.state) else _) = _
    rw [if_pos rfl]
  · -- other undo-prefixed keys
    intro j hj hjs hjseg
    rw [hbatchget _, batchEffect_append]
    have hother : batchEffect j (undoBatchOf u recsOf b back) (storeGet store j) =
        storeGet store j := by
      rw [undoBatch_segkey_effect u recsOf b back j _
        (fun t ht r hr hk => (hreckeys t ht).2 r hr (hk ▸ hj))]
      rw [if_neg]
      intro hmem
      obtain ⟨id, hidm, hide⟩ := List.mem_map.mp hmem
      obtain ⟨h1, h2⟩ := mem_segIdsAsc.mp hidm
      exact hjseg id h1 (by omega) hide.symm
    rw [hother]
    show (if j = statePreOf u.undoPre then _ else storeGet store j) = storeGet store j
    rw [if_neg hjs]

/-- Full effect of `write_changes` with an empty undo stack: only the user
keys and the state record are written; no segments appear and the in-memory
state is unchanged. -/
theorem write_changes_nostack_full
    (u : undo_stack) (store : Store) (cache : Cache) (cl : List Bytes)
    (hwf : storeWF store) (hstk : u.state.undo_stack = [])
    (hgood : ∀ k ∈ cl, ¬ u.undoPre <+: k) :
    ∃ store2,
      undo_stack.write_changes u store cache cl = Except.ok (u, store2) ∧
      storeWF store2 ∧
      (∀ j, ¬ u.undoPre <+: j →
        storeGet store2 j =
          if j ∈ cl ∧ dirtyB cache j = true then curOf cache j else storeGet store j) ∧
      storeGet store2 (statePreOf u.undoPre) = some (encode_state u.state) ∧
      (∀ j, u.undoPre <+: j → j ≠ statePreOf u.undoPre →
        storeGet store2 j = storeGet store j) := by
  have hinv0 : WCInvN u store cache []
      { batch := [], seg := [], segSize := 0, state := u.state } := by
    refine ⟨rfl, rfl, ?_, fun j _ => rfl⟩
    intro j hj
    simp [batchEffect]
  obtain ⟨acc1, hfold, hinv1⟩ :=
    wc_fold_nostack hstk cl []
      { batch := [], seg := [], segSize := 0, state := u.state }
      hinv0 hgood
  simp only [List.nil_append] at hinv1
  obtain ⟨hst1, hseg1, huser1, hother1⟩ := hinv1
  have hflush_eq : wcFlush u.undoPre acc1 = Except.ok acc1 := by
    unfold wcFlush
    rw [if_pos hseg1]
  have step1 : undo_stack.write_changes u store cache cl =
      (wcFlush u.undoPre acc1) >>= fun a2 =>
        Except.ok ({ u with state := a2.state },
          applyBatch store
            (undo_stack.write_state_batch { u with state := a2.state } a2.batch)) := by
    rw [write_changes_do_eq, hfold]
    rfl
  have hwc : undo_stack.write_changes u store cache cl =
      Except.ok ({ u with state := acc1.state },
        applyBatch store
          (undo_stack.write_state_batch { u with state := acc1.state } acc1.batch)) := by
    rw [step1, hflush_eq]
    rfl
  have hwc2 : undo_stack.write_changes u store cache cl =
      Except.ok (u, applyBatch store (undo_stack.write_state_batch u acc1.batch)) := by
    rw [hwc, hst1]
  set store2 := applyBatch store (undo_stack.write_state_batch u acc1.batch) with hs2
  have hbg : ∀ j, storeGet store2 j =
      batchEffect j (acc1.batch ++
        [BatchOp.put (statePreOf u.undoPre) (encode_state u.state)]) (storeGet store j) := by
    intro j
    rw [hs2]
    exact storeGet_applyBatch _ j hwf
  refine ⟨store2, hwc2, storeWF_applyBatch _ hwf, ?_, ?_, ?_⟩
  · intro j hj
    rw [hbg j, batchEffect_append]
    have hne : j ≠ statePreOf u.undoPre := by
      intro heq
      exact hj (heq ▸ statePre_has_undoPre u.undoPre)
    rw [show batchEffect j [BatchOp.put (statePreOf u.undoPre) (encode_state u.state)]
        (batchEffect j acc1.batch (storeGet store j)) =
        if j = statePreOf u.undoPre then some (encode_state u.state)
        else batchEffect j acc1.batch (storeGet store j) from rfl]
    rw [if_neg hne]
    exact huser1 j hj
  · rw [hbg _, batchEffect_append]
    rw [hother1 _ (statePre_has_undoPre u.undoPre)]
    show (if statePreOf u.undoPre = statePreOf u.undoPre then
        some (encode_state u.state) else _) = _
    rw [if_pos rfl]
  · intro j hj hne
    rw [hbg _, batchEffect_append]
    rw [hother1 _ hj]
    show (if j = statePreOf u.undoPre then _ else storeGet store j) = storeGet store j
    rw [if_neg hne]

/-! ## Reachable states: frames, invariant -/

/-- Ghost record of one undo frame: the store snapshot at its `push` and
the record segments written into it since. -/
structure Frame where
  snap : Store
  segs : List (List UndoRec)

def frameCounts (frames : List Frame) : List Nat :=
  frames.map (fun f => f.segs.length)

/-- All segments on the undo stack, oldest first. -/
def allSegs (frames : List Frame) : List (List UndoRec) :=
  frames.flatMap Frame.segs

def totalSegs (frames : List Frame) : Nat := (allSegs frames).length

/-- The first (oldest) record of the frame for key `j`. -/
def frameFind (f : Frame) (j : Bytes) : Option UndoRec :=
  f.segs.flatten.find? (fun r => decide (recKey r = j))

/-- Frame views, newest frame first: each frame's records restore its
snapshot from the next newer view (the current store for the top frame). -/
def FramesOKRev (upre : Bytes) : Store → List Frame → Prop
  | _, [] => True
  | store, f :: rest =>
      (∀ j, ¬ upre <+: j →
        (match frameFind f j with
         | some r => recVal r = storeGet f.snap j
         | none => storeGet store j = storeGet f.snap j)) ∧
      FramesOKRev upre f.snap rest

/-- Well-formedness of one stored segment. -/
def segOK (upre : Bytes) (seg : List UndoRec) : Prop :=
  (∀ r ∈ seg, recLenOK r) ∧
  (seg.map recKey).Nodup ∧
  (∀ r ∈ seg, ¬ upre <+: recKey r ∧ recKey r ≠ [byteOf 0xff])

/-- The structural invariant tying an `undo_stack`, the store and the ghost
frames of every reachable configuration. -/
def UndoInv (u : undo_stack) (store : Store) (frames : List Frame) : Prop :=
  storeWF store ∧
  (∃ b0 rest, u.undoPre = b0 :: rest ∧ 1 ≤ (b0 : Nat) ∧ (b0 : Nat) ≤ 0xfe) ∧
  u.state.undo_stack = frameCounts frames ∧
  totalSegs frames ≤ u.state.next_undo_segment ∧
  u.state.next_undo_segment < U64MOD ∧
  (∀ t, t < totalSegs frames →
    storeGet store
        (u.create_segment_key (u.state.next_undo_segment - totalSegs frames + t)) =
      some (encodeOK ((allSegs frames).getD t [])) ∧
    segOK u.undoPre ((allSegs frames).getD t [])) ∧
  (∀ k ∈ storeKeys store,
    BLe (u.create_segment_key (u.state.next_undo_segment - totalSegs frames)) k →
    BLt k (segNextPreOf u.undoPre) →
    ∃ t, t < totalSegs frames ∧
      k = u.create_segment_key (u.state.next_undo_segment - totalSegs frames + t)) ∧
  [byteOf 0xff] ∈ storeKeys store ∧
  FramesOKRev u.undoPre store frames.reverse

theorem undoPre_not_pre_ff {upre : Bytes}
    (h : ∃ b0 rest, upre = b0 :: rest ∧ 1 ≤ (b0 : Nat) ∧ (b0 : Nat) ≤ 0xfe) :
    ¬ upre <+: [byteOf 0xff] := by
  obtain ⟨b0, rest, rfl, h1, h2⟩ := h
  rintro ⟨t, ht⟩
  rw [List.cons_append] at ht
  injection ht with hb _
  rw [hb] at h2
  have : ((byteOf 0xff : Byte) : Nat) = 255 := rfl
  omega

theorem sent_ble_npre {upre : Bytes}
    (h : ∃ b0 rest, upre = b0 :: rest ∧ 1 ≤ (b0 : Nat) ∧ (b0 : Nat) ≤ 0xfe) :
    BLe (segNextPreOf upre) [byteOf 0xff] := by
  obtain ⟨b0, rest, rfl, h1, h2⟩ := h
  show BLe (get_next_pre ((b0 :: rest) ++ [byteOf 0x80])) [byteOf 0xff]
  rw [List.cons_append]
  exact ble_npre_ff h2

theorem statePre_ne_ff {upre : Bytes}
    (h : ∃ b0 rest, upre = b0 :: rest ∧ 1 ≤ (b0 : Nat) ∧ (b0 : Nat) ≤ 0xfe) :
    statePreOf upre ≠ [byteOf 0xff] := by
  obtain ⟨b0, rest, rfl, _, _⟩ := h
  intro hc
  have := congrArg List.length hc
  simp [statePreOf] at this

theorem segPre_not_pre_statePre (upre : Bytes) :
    ¬ segPreOf upre <+: statePreOf upre := by
  rintro ⟨t, ht⟩
  have hlen := congrArg List.length ht
  simp [segPreOf, statePreOf] at hlen
  subst hlen
  rw [List.append_nil] at ht
  have := List.append_cancel_left (ht : upre ++ [byteOf 0x80] = upre ++ [byteOf 0])
  have h2 : (byteOf 0x80 : Byte) = byteOf 0 := by
    injection this
  cases h2

theorem not_ble_segkey_statePre (u : undo_stack) (lo : Nat) :
    ¬ BLe (u.create_segment_key lo) (statePreOf u.undoPre) := by
  intro h
  exact blt_irrefl _ (blt_of_blt_of_ble (statePre_blt_segkey u lo) h)

theorem framesOKRev_congr {upre : Bytes} {s1 s2 : Store}
    (h : ∀ j, ¬ upre <+: j → storeGet s1 j = storeGet s2 j) :
    ∀ fr, FramesOKRev upre s1 fr → FramesOKRev upre s2 fr := by
  intro fr
  cases fr with
  | nil => intro _; trivial
  | cons f rest =>
    intro hok
    refine ⟨?_, hok.2⟩
    intro j hj
    have h1 := hok.1 j hj
    cases hf : frameFind f j with
    | some r =>
      rw [hf] at h1
      exact h1
    | none =>
      rw [hf] at h1
      show storeGet s2 j = storeGet f.snap j
      rw [← h j hj]
      exact h1

theorem allSegs_concat (frames : List Frame) (f : Frame) :
    allSegs (frames ++ [f]) = allSegs frames ++ f.segs := by
  unfold allSegs
  rw [List.flatMap_append]
  simp

theorem frameCounts_concat (frames : List Frame) (f : Frame) :
    frameCounts (frames ++ [f]) = frameCounts frames ++ [f.segs.length] := by
  unfold frameCounts
  rw [List.map_append]
  rfl

/-- `push` preserves the invariant, appending an empty frame whose snapshot
is the current store. -/
theorem inv_push {u : undo_stack} {store : Store} {frames : List Frame}
    (h : UndoInv u store frames) :
    UndoInv (u.push store).1 (u.push store).2 (frames ++ [⟨store, []⟩]) := by
  obtain ⟨hwf, hpre, hstk, htot, hnext, hsegs, hclass, hsent, hfok⟩ := h
  have hall : allSegs (frames ++ [⟨store, []⟩]) = allSegs frames := by
    rw [allSegs_concat]
    simp
  have htotal : totalSegs (frames ++ [⟨store, []⟩]) = totalSegs frames := by
    unfold totalSegs
    rw [hall]
  set v := encode_state { u.state with
      undo_stack := u.state.undo_stack ++ [0],
      revision := u.state.revision + 1 } with hv
  have hstore2 : (u.push store).2 = storePut store (statePreOf u.undoPre) v := rfl
  have hget : ∀ j, j ≠ statePreOf u.undoPre →
      storeGet (u.push store).2 j = storeGet store j := by
    intro j hj
    rw [hstore2]
    exact storeGet_put_other v hj
  refine ⟨?_, hpre, ?_, ?_, ?_, ?_, ?_, ?_, ?_⟩
  · rw [hstore2]
    exact storeWF_put _ _ hwf
  · show u.state.undo_stack ++ [0] = _
    rw [frameCounts_concat, hstk]
    rfl
  · rw [htotal]
    exact htot
  · exact hnext
  · intro t ht
    rw [htotal] at ht
    show storeGet (u.push store).2
        (u.create_segment_key
          (u.state.next_undo_segment - totalSegs (frames ++ [⟨store, []⟩]) + t)) =
        some (encodeOK ((allSegs (frames ++ [⟨store, []⟩])).getD t [])) ∧
      segOK u.undoPre ((allSegs (frames ++ [⟨store, []⟩])).getD t [])
    rw [htotal, hall]
    refine ⟨?_, (hsegs t ht).2⟩
    rw [hget _ (create_segment_key_ne_statePre u _)]
    exact (hsegs t ht).1
  · intro k hk h1 h2
    have h1' : BLe (u.create_segment_key
        (u.state.next_undo_segment - totalSegs (frames ++ [⟨store, []⟩]))) k := h1
    have h2' : BLt k (segNextPreOf u.undoPre) := h2
    rw [htotal] at h1'
    rw [hstore2] at hk
    show ∃ t, t < totalSegs (frames ++ [⟨store, []⟩]) ∧
      k = u.create_segment_key
        (u.state.next_undo_segment - totalSegs (frames ++ [⟨store, []⟩]) + t)
    rw [htotal]
    rcases mem_storeKeys_put.mp hk with rfl | hk2
    · exact absurd h1' (not_ble_segkey_statePre u _)
    · exact hclass k hk2 h1' h2'
  · rw [hstore2]
    exact mem_storeKeys_put.mpr (Or.inr hsent)
  · rw [List.reverse_append]
    show FramesOKRev u.undoPre (u.push store).2
      ((⟨store, []⟩ : Frame) :: frames.reverse)
    refine ⟨?_, hfok⟩
    intro j hj
    show storeGet (u.push store).2 j = storeGet store j
    exact hget j (fun hc => hj (hc ▸ statePre_has_undoPre u.undoPre))

/-- `write_changes` with no undo frames preserves the invariant. -/
theorem inv_wc_nostack {u : undo_stack} {store : Store} {cache : Cache} {cl : List Bytes}
    (h : UndoInv u store [])
    (hgood : ∀ k ∈ cl, ¬ u.undoPre <+: k)
    (hff : [byteOf 0xff] ∉ cl) :
    ∃ store2, undo_stack.write_changes u store cache cl = Except.ok (u, store2) ∧
      UndoInv u store2 [] := by
  obtain ⟨hwf, hpre, hstk, htot, hnext, hsegs, hclass, hsent, hfok⟩ := h
  have hstk0 : u.state.undo_stack = [] := hstk
  obtain ⟨store2, hwc, hwf2, huser, hstate, hother⟩ :=
    write_changes_nostack_full u store cache cl hwf hstk0 hgood
  refine ⟨store2, hwc, hwf2, hpre, hstk, htot, hnext, ?_, ?_, ?_, trivial⟩
  · intro t ht
    exact absurd ht (Nat.not_lt_zero t)
  · intro k hk h1 h2
    have hkpre : u.undoPre <+: k :=
      List.IsPrefix.trans ⟨[byteOf 0x80], rfl⟩ (segPre_pre_of_range h1 h2)
    have hkne : k ≠ statePreOf u.undoPre := by
      rintro rfl
      exact not_ble_segkey_statePre u _ h1
    obtain ⟨v, hv⟩ := mem_storeKeys_get hk
    rw [hother k hkpre hkne] at hv
    exact hclass k (storeGet_mem hv) h1 h2
  · have hffu : ¬ u.undoPre <+: [byteOf 0xff] := undoPre_not_pre_ff hpre
    have hval := huser [byteOf 0xff] hffu
    rw [if_neg (by
      intro hcon
      exact hff hcon.1)] at hval
    obtain ⟨v, hv⟩ := mem_storeKeys_get hsent
    rw [← hval] at hv
    exact storeGet_mem hv

theorem recKey_mkRec (cache : Cache) (k : Bytes) : recKey (mkRec cache k) = k := by
  unfold mkRec
  cases storeGet cache k with
  | none => rfl
  | some e =>
    show recKey (match e.orig_value with
      | some ov => UndoRec.put k ov
      | none => UndoRec.remove k) = k
    cases e.orig_value with
    | none => rfl
    | some ov => rfl

theorem recVal_mkRec {cache : Cache} {k : Bytes} {e : cached_value}
    (h : storeGet cache k = some e) : recVal (mkRec cache k) = e.orig_value := by
  unfold mkRec
  rw [h]
  show recVal (match e.orig_value with
    | some ov => UndoRec.put k ov
    | none => UndoRec.remove k) = e.orig_value
  cases e.orig_value with
  | none => rfl
  | some ov => rfl

theorem map_recKey_mkRec (cache : Cache) (keys : List Bytes) :
    (keys.map (mkRec cache)).map recKey = keys := by
  rw [List.map_map]
  rw [List.map_congr_left (fun k _ => by
    show recKey (mkRec cache k) = id k
    rw [recKey_mkRec]
    rfl)]
  exact List.map_id keys

theorem find_mkRec (cache : Cache) (j : Bytes) :
    ∀ keys : List Bytes,
    (keys.map (mkRec cache)).find? (fun r => decide (recKey r = j)) =
      if j ∈ keys then some (mkRec cache j) else none := by
  intro keys
  induction keys with
  | nil => rfl
  | cons k tl ih =>
    rw [List.map_cons]
    by_cases hk : k = j
    · subst hk
      rw [List.find?_cons_of_pos _ (by simp [recKey_mkRec])]
      rw [if_pos (by simp)]
    · rw [List.find?_cons_of_neg _ (by simp [recKey_mkRec, hk])]
      rw [ih]
      by_cases hmem : j ∈ tl
      · rw [if_pos hmem, if_pos (by simp [hmem])]
      · rw [if_neg hmem, if_neg (by
          simp only [List.mem_cons]
          push_neg
          exact ⟨fun h => hk h.symm, hmem⟩)]

theorem dirty_entry {cache : Cache} {j : Bytes} (h : dirtyB cache j = true) :
    ∃ e, storeGet cache j = some e := by
  unfold dirtyB at h
  cases hc : storeGet cache j with
  | none => rw [hc] at h; cases h
  | some e => exact ⟨e, rfl⟩

theorem segkey_congr {u2 u : undo_stack} (h : u2.undoPre = u.undoPre) (id : Nat) :
    u2.create_segment_key id = u.create_segment_key id := by
  unfold undo_stack.create_segment_key segPreOf
  rw [h]

/-- `write_changes` with a non-empty undo stack preserves the invariant,
appending the flushed segments to the top frame. -/
theorem inv_write_changes {u : undo_stack} {store : Store} {cache : Cache} {cl : List Bytes}
    {frames1 : List Frame} {f : Frame}
    (h : UndoInv u store (frames1 ++ [f]))
    (hgood : ∀ k ∈ cl, ¬ u.undoPre <+: k ∧ k.length < 2 ^ 32 ∧
      ∀ e, storeGet cache k = some e →
        ∀ ov, e.orig_value = some ov → ov.length < 2 ^ 32)
    (hff : [byteOf 0xff] ∉ cl)
    (hclnd : cl.Nodup)
    (horig : origInv store cache)
    (hbound : u.state.next_undo_segment + cl.length < U64MOD) :
    ∃ u2 store2 flushed,
      undo_stack.write_changes u store cache cl = Except.ok (u2, store2) ∧
      u2.undoPre = u.undoPre ∧
      u2.state.revision = u.state.revision ∧
      UndoInv u2 store2 (frames1 ++ [⟨f.snap, f.segs ++ flushed⟩]) := by
  obtain ⟨hwf, hpre, hstk, htot, hnext, hsegs, hclass, hsent, hfok⟩ := h
  have hstkne : u.state.undo_stack ≠ [] := by
    rw [hstk, frameCounts_concat]
    simp
  obtain ⟨flushed, u2, store2, hwc, hwf2, hupre, htss, hfv, hrev, hnextEq, hstk2,
    hflen, hflat, hsegsOK, huser, hnewsegs, hstate, hother⟩ :=
    write_changes_full u store cache cl hwf hstkne hgood hbound
  refine ⟨u2, store2, flushed, hwc, hupre, hrev, ?_⟩
  set frames2 : List Frame := frames1 ++ [⟨f.snap, f.segs ++ flushed⟩] with hfr2
  set total := totalSegs (frames1 ++ [f]) with htotdef
  have hallSegs2 : allSegs frames2 = allSegs (frames1 ++ [f]) ++ flushed := by
    rw [hfr2, allSegs_concat, allSegs_concat, List.append_assoc]
  have htotal2 : totalSegs frames2 = total + flushed.length := by
    unfold totalSegs
    rw [hallSegs2, List.length_append]
    rfl
  have hsk := segkey_congr hupre
  have hLbound : flushed.length ≤ cl.length := hflen
  have hsegOK : ∀ seg ∈ flushed, segOK u.undoPre seg := by
    intro seg hseg
    have hflkeys : flushed.flatten.map recKey = cl.filter (dirtyB cache) := by
      rw [hflat, map_recKey_mkRec]
    have hflnd : (flushed.flatten.map recKey).Nodup := by
      rw [hflkeys]
      exact hclnd.filter _
    refine ⟨(hsegsOK seg hseg).2, ?_, ?_⟩
    · exact hflnd.sublist ((List.sublist_flatten_of_mem hseg).map recKey)
    · intro r hr
      have hrfl : r ∈ flushed.flatten := List.mem_flatten.mpr ⟨seg, hseg, hr⟩
      rw [hflat] at hrfl
      obtain ⟨k, hkmem, rfl⟩ := List.mem_map.mp hrfl
      have hkcl : k ∈ cl := List.mem_of_mem_filter hkmem
      rw [recKey_mkRec]
      exact ⟨(hgood k hkcl).1, fun hc => hff (hc ▸ hkcl)⟩
  refine ⟨hwf2, by rw [hupre]; exact hpre, ?_, ?_, ?_, ?_, ?_, ?_, ?_⟩
  · -- stack counts
    rw [hstk2, hstk, frameCounts_concat]
    rw [List.dropLast_concat, List.getLast?_concat]
    rw [hfr2, frameCounts_concat]
    show frameCounts frames1 ++ [f.segs.length + flushed.length] =
      frameCounts frames1 ++ [(f.segs ++ flushed).length]
    rw [List.length_append]
  · rw [htotal2, hnextEq]
    omega
  · rw [hnextEq]
    omega
  · -- segments
    intro t ht
    rw [htotal2] at ht
    have hkeyarith : u2.state.next_undo_segment - totalSegs frames2 + t =
        u.state.next_undo_segment - total + t := by
      rw [htotal2, hnextEq]
      omega
    rw [hsk, hkeyarith, hallSegs2]
    show storeGet store2
        (u.create_segment_key (u.state.next_undo_segment - total + t)) =
        some (encodeOK ((allSegs (frames1 ++ [f]) ++ flushed).getD t [])) ∧
      segOK u2.undoPre ((allSegs (frames1 ++ [f]) ++ flushed).getD t [])
    by_cases htold : t < total
    · rw [List.getD_append _ _ _ _ (show t < (allSegs (frames1 ++ [f])).length from htold)]
      have hneq : ∀ i, i < flushed.length →
          u.create_segment_key (u.state.next_undo_segment - total + t) ≠
            u.create_segment_key (u.state.next_undo_segment + i) := by
        intro i hi heq
        have := create_segment_key_inj (by omega) (by omega) heq
        omega
      rw [hother _ (segKey_has_undoPre u _) (create_segment_key_ne_statePre u _) hneq]
      refine ⟨(hsegs t htold).1, ?_⟩
      rw [hupre]
      exact (hsegs t htold).2
    · have hiL : t - total < flushed.length := by omega
      rw [List.getD_append_right _ _ _ _
        (show (allSegs (frames1 ++ [f])).length ≤ t by
          show total ≤ t
          omega)]
      have harith2 : u.state.next_undo_segment - total + t =
          u.state.next_undo_segment + (t - total) := by omega
      rw [harith2]
      refine ⟨hnewsegs (t - total) hiL, ?_⟩
      rw [hupre]
      have hmem : flushed.getD (t - total) [] ∈ flushed := by
        rw [List.getD_eq_getElem _ _ hiL]
        exact List.getElem_mem hiL
      exact hsegOK _ hmem
  · -- classification
    intro k hk h1 h2
    have harith : u2.state.next_undo_segment - totalSegs frames2 =
        u.state.next_undo_segment - total := by
      rw [htotal2, hnextEq]
      omega
    rw [hsk, harith] at h1
    rw [hupre] at h2
    have hkpre : u.undoPre <+: k :=
      List.IsPrefix.trans ⟨[byteOf 0x80], rfl⟩ (segPre_pre_of_range h1 h2)
    have hkne : k ≠ statePreOf u.undoPre := by
      rintro rfl
      exact not_ble_segkey_statePre u _ h1
    obtain ⟨v, hv⟩ := mem_storeKeys_get hk
    by_cases hnew : ∃ i, i < flushed.length ∧
        k = u.create_segment_key (u.state.next_undo_segment + i)
    · obtain ⟨i, hiL, rfl⟩ := hnew
      refine ⟨total + i, by rw [htotal2]; omega, ?_⟩
      rw [hsk]
      congr 1
      rw [htotal2, hnextEq]
      omega
    · push_neg at hnew
      rw [hother k hkpre hkne (fun i hi => hnew i hi)] at hv
      obtain ⟨t, ht, hkeq⟩ := hclass k (storeGet_mem hv) h1 h2
      refine ⟨t, by rw [htotal2]; omega, ?_⟩
      rw [hsk]
      rw [hkeq]
      congr 1
      rw [htotal2, hnextEq]
      omega
  · -- sentinel
    have hffu : ¬ u.undoPre <+: [byteOf 0xff] := undoPre_not_pre_ff hpre
    have hval := huser [byteOf 0xff] hffu
    rw [if_neg (fun hcon => hff hcon.1)] at hval
    obtain ⟨v, hv⟩ := mem_storeKeys_get hsent
    rw [← hval] at hv
    exact storeGet_mem hv
  · -- frame views
    rw [hupre]
    have hfok2 : FramesOKRev u.undoPre store (f :: frames1.reverse) := by
      rw [List.reverse_append] at hfok
      exact hfok
    show FramesOKRev u.undoPre store2 (frames2.reverse)
    rw [hfr2, List.reverse_append]
    show FramesOKRev u.undoPre store2
      ((⟨f.snap, f.segs ++ flushed⟩ : Frame) :: frames1.reverse)
    refine ⟨?_, hfok2.2⟩
    intro j hj
    have hold := hfok2.1 j hj
    cases hf1 : frameFind f j with
    | some r =>
      have hnf : frameFind ⟨f.snap, f.segs ++ flushed⟩ j = some r := by
        show ((f.segs ++ flushed).flatten).find? _ = some r
        rw [List.flatten_append]
        exact find_append_some hf1
      rw [hnf]
      show recVal r = storeGet f.snap j
      rw [hf1] at hold
      exact hold
    | none =>
      rw [hf1] at hold
      have hnf : frameFind ⟨f.snap, f.segs ++ flushed⟩ j =
          (if j ∈ cl.filter (dirtyB cache) then some (mkRec cache j) else none) := by
        show ((f.segs ++ flushed).flatten).find? _ = _
        rw [List.flatten_append]
        rw [find_append_none hf1]
        rw [hflat]
        exact find_mkRec cache j _
      by_cases hjf : j ∈ cl.filter (dirtyB cache)
      · rw [hnf, if_pos hjf]
        show recVal (mkRec cache j) = storeGet f.snap j
        obtain ⟨hjcl, hjd⟩ := List.mem_filter.mp hjf
        obtain ⟨e, he⟩ := dirty_entry hjd
        rw [recVal_mkRec he, horig j e he]
        exact hold
      · rw [hnf, if_neg hjf]
        show storeGet store2 j = storeGet f.snap j
        rw [huser j hj]
        rw [if_neg (fun hc => hjf (List.mem_filter.mpr ⟨hc.1, hc.2⟩))]
        exact hold

theorem segIdsAsc_cons (b0 n : Nat) :
    segIdsAsc b0 (n + 1) = b0 :: segIdsAsc (b0 + 1) n := by
  unfold segIdsAsc
  rw [List.range_succ_eq_map, List.map_cons, List.map_map]
  refine congrArg₂ List.cons rfl ?_
  apply List.map_congr_left
  intro t _
  show b0 + (t + 1) = b0 + 1 + t
  omega

theorem flatMap_segIdsAsc_eq :
    ∀ (B : List (List UndoRec)) (b0 : Nat) (F : Nat → List UndoRec),
    (∀ t, t < B.length → F (b0 + t) = B.getD t []) →
    (segIdsAsc b0 B.length).flatMap F = B.flatten := by
  intro B
  induction B with
  | nil => intro b0 F _; rfl
  | cons s B ih =>
    intro b0 F hF
    rw [show (s :: B).length = B.length + 1 from rfl, segIdsAsc_cons, List.flatMap_cons]
    have h0 : F b0 = s := by
      have := hF 0 (by simp)
      rw [Nat.add_zero] at this
      exact this
    rw [h0, ih (b0 + 1) F (fun t ht => by
      have := hF (t + 1) (by simp; omega)
      rw [show b0 + (t + 1) = b0 + 1 + t by omega] at this
      exact this)]
    rfl

/-- `undo` preserves the invariant, popping the top frame and restoring its
snapshot's user view. -/
theorem inv_undo {u : undo_stack} {store : Store} {frames1 : List Frame} {f : Frame}
    (h : UndoInv u store (frames1 ++ [f])) :
    ∃ u2 store2, u.undo store = Except.ok (u2, store2) ∧
      u2.undoPre = u.undoPre ∧
      u2.state.revision = u.state.revision - 1 ∧
      (∀ j, ¬ u.undoPre <+: j → storeGet store2 j = storeGet f.snap j) ∧
      (∀ id, u.state.next_undo_segment - f.segs.length ≤ id →
        id < u.state.next_undo_segment →
        storeGet store2 (u.create_segment_key id) = none) ∧
      UndoInv u2 store2 frames1 := by
  obtain ⟨hwf, hpre, hstk, htot, hnext, hsegs, hclass, hsent, hfok⟩ := h
  have hfok2 : FramesOKRev u.undoPre store (f :: frames1.reverse) := by
    rw [List.reverse_append] at hfok
    exact hfok
  set total := totalSegs (frames1 ++ [f]) with htotdef
  set total1 := totalSegs frames1 with htot1def
  set back := f.segs.length with hbackdef
  have htotsplit : total = total1 + back := by
    show (allSegs (frames1 ++ [f])).length = _
    rw [allSegs_concat, List.length_append]
    rfl
  set base := u.state.next_undo_segment - total with hbasedef
  have hb' : u.state.next_undo_segment - back = base + total1 := by omega
  have htot1len : total1 = (allSegs frames1).length := rfl
  set recsOf : Nat → List UndoRec :=
    fun id => (allSegs (frames1 ++ [f])).getD (id - base) [] with hrecsdef
  have hstkne : u.state.undo_stack ≠ [] := by
    rw [hstk, frameCounts_concat]
    simp
  have hback : u.state.undo_stack.getLast?.getD 0 = back := by
    rw [hstk, frameCounts_concat, List.getLast?_concat]
    rfl
  have hsegs2 : ∀ id, u.state.next_undo_segment - back ≤ id →
      id < u.state.next_undo_segment →
      storeGet store (u.create_segment_key id) = some (encodeOK (recsOf id)) ∧
      ∀ r ∈ recsOf id, recLenOK r := by
    intro id h1 h2
    rw [hb'] at h1
    have ht : id - base < total := by omega
    have hkey : base + (id - base) = id := by omega
    have := hsegs (id - base) ht
    rw [hkey] at this
    exact ⟨this.1, this.2.1⟩
  have hclass2 : ∀ k ∈ storeKeys store,
      BLe (u.create_segment_key (u.state.next_undo_segment - back)) k →
      BLt k (segNextPreOf u.undoPre) →
      ∃ id, u.state.next_undo_segment - back ≤ id ∧
        id < u.state.next_undo_segment ∧ k = u.create_segment_key id := by
    intro k hk h1 h2
    have hstep : BLe (u.create_segment_key base)
        (u.create_segment_key (u.state.next_undo_segment - back)) :=
      (create_segment_key_ble (by omega) (by omega)).mpr (by omega)
    have h1base : BLe (u.create_segment_key base) k := ble_trans hstep h1
    obtain ⟨t, ht, hkeq⟩ := hclass k hk h1base h2
    refine ⟨base + t, ?_, by omega, hkeq⟩
    rw [hkeq] at h1
    have hle : u.state.next_undo_segment - back ≤ base + t :=
      (create_segment_key_ble (by omega) (by omega)).mp h1
    exact hle
  have hsentble : ∃ ks ∈ storeKeys store, BLe (segNextPreOf u.undoPre) ks :=
    ⟨[byteOf 0xff], hsent, sent_ble_npre hpre⟩
  have hrecsOK : ∀ t, t < back → recsOf (u.state.next_undo_segment - back + t) =
      (allSegs (frames1 ++ [f])).getD (total1 + t) [] := by
    intro t ht
    show (allSegs (frames1 ++ [f])).getD (u.state.next_undo_segment - back + t - base) [] = _
    congr 1
    omega
  have hsegOKt : ∀ t, t < back →
      segOK u.undoPre ((allSegs (frames1 ++ [f])).getD (total1 + t) []) := by
    intro t ht
    exact (hsegs (total1 + t) (by omega)).2
  have hreckeys : ∀ t, t < back →
      ((recsOf (u.state.next_undo_segment - back + t)).map recKey).Nodup ∧
      ∀ r ∈ recsOf (u.state.next_undo_segment - back + t), ¬ u.undoPre <+: recKey r := by
    intro t ht
    rw [hrecsOK t ht]
    exact ⟨(hsegOKt t ht).2.1, fun r hr => ((hsegOKt t ht).2.2 r hr).1⟩
  obtain ⟨u2, store2, hundo, hwf2, hupre, htss, hfv, hrev, hstk2, hnext2,
    huser, hsegdel, hstate2, hother2⟩ :=
    undo_restores u store recsOf back hwf hstkne hback (by omega) hnext
      hsegs2 hclass2 hsentble hreckeys
  have hsk := segkey_congr hupre
  have hR : (segIdsAsc (u.state.next_undo_segment - back) back).flatMap recsOf =
      f.segs.flatten := by
    have := flatMap_segIdsAsc_eq f.segs (u.state.next_undo_segment - back) recsOf ?_
    · rw [← hbackdef] at this
      exact this
    · intro t ht
      rw [hrecsOK t ht]
      rw [allSegs_concat]
      rw [List.getD_append_right _ _ _ _ (by
        show (allSegs frames1).length ≤ total1 + t
        omega)]
      congr 1
      show total1 + t - (allSegs frames1).length = t
      omega
  have hrestore : ∀ j, ¬ u.undoPre <+: j → storeGet store2 j = storeGet f.snap j := by
    intro j hj
    rw [huser j hj]
    have hold := hfok2.1 j hj
    rw [hR]
    cases hf1 : frameFind f j with
    | some r =>
      rw [hf1] at hold
      rw [show (f.segs.flatten.find? (fun r => decide (recKey r = j))) = some r from hf1]
      exact hold
    | none =>
      rw [hf1] at hold
      rw [show (f.segs.flatten.find? (fun r => decide (recKey r = j))) = none from hf1]
      exact hold
  refine ⟨u2, store2, hundo, hupre, hrev, hrestore, hsegdel, ?_⟩
  refine ⟨hwf2, by rw [hupre]; exact hpre, ?_, ?_, ?_, ?_, ?_, ?_, ?_⟩
  · rw [hstk2, hstk, frameCounts_concat, List.dropLast_concat]
  · rw [hnext2]
    omega
  · rw [hnext2]
    omega
  · -- segments of the remaining frames
    intro t ht
    have hbase2 : u2.state.next_undo_segment - totalSegs frames1 = base := by
      rw [hnext2]
      omega
    rw [hsk, hbase2]
    have hneq : ∀ id, u.state.next_undo_segment - back ≤ id →
        id < u.state.next_undo_segment →
        u.create_segment_key (base + t) ≠ u.create_segment_key id := by
      intro id h1 h2 heq
      have := create_segment_key_inj (by omega) (by omega) heq
      omega
    rw [hother2 _ (segKey_has_undoPre u _) (create_segment_key_ne_statePre u _) hneq]
    have := hsegs t (by omega)
    rw [allSegs_concat, List.getD_append _ _ _ _ (show t < (allSegs frames1).length from ht)]
      at this
    refine ⟨this.1, ?_⟩
    rw [hupre]
    exact this.2
  · -- classification
    intro k hk h1 h2
    have hbase2 : u2.state.next_undo_segment - totalSegs frames1 = base := by
      rw [hnext2]
      omega
    rw [hsk, hbase2] at h1
    rw [hupre] at h2
    have hkpre : u.undoPre <+: k :=
      List.IsPrefix.trans ⟨[byteOf 0x80], rfl⟩ (segPre_pre_of_range h1 h2)
    have hkne : k ≠ statePreOf u.undoPre := by
      rintro rfl
      exact not_ble_segkey_statePre u _ h1
    obtain ⟨v, hv⟩ := mem_storeKeys_get hk
    by_cases hdel : ∃ id, u.state.next_undo_segment - back ≤ id ∧
        id < u.state.next_undo_segment ∧ k = u.create_segment_key id
    · obtain ⟨id, hid1, hid2, rfl⟩ := hdel
      rw [hsegdel id hid1 hid2] at hv
      cases hv
    · push_neg at hdel
      rw [hother2 k hkpre hkne (fun id ha hb => hdel id ha hb)] at hv
      obtain ⟨t, ht, hkeq⟩ := hclass k (storeGet_mem hv) h1 h2
      have ht1 : t < total1 := by
        by_contra hge
        exact hdel (base + t) (by omega) (by omega) hkeq
      refine ⟨t, ht1, ?_⟩
      rw [hsk, hbase2]
      exact hkeq
  · -- sentinel
    have hffu : ¬ u.undoPre <+: [byteOf 0xff] := undoPre_not_pre_ff hpre
    have hval := huser [byteOf 0xff] hffu
    rw [hR] at hval
    have hfind : f.segs.flatten.find? (fun r => decide (recKey r = [byteOf 0xff])) = none := by
      rw [List.find?_eq_none]
      intro r hr
      obtain ⟨seg, hseg, hrseg⟩ := List.mem_flatten.mp hr
      have hsegok : segOK u.undoPre seg := by
        have hmemall : seg ∈ allSegs (frames1 ++ [f]) := by
          unfold allSegs
          exact List.mem_flatMap.mpr ⟨f, by simp, hseg⟩
        obtain ⟨t, ht, hgt⟩ := List.mem_iff_getElem.mp hmemall
        have h9 := (hsegs t ht).2
        rw [List.getD_eq_getElem _ _ ht, hgt] at h9
        exact h9
      simp only [decide_eq_true_eq]
      exact (hsegok.2.2 r hrseg).2
    rw [hfind] at hval
    have hval2 : storeGet store2 [byteOf 0xff] = storeGet store [byteOf 0xff] := hval
    obtain ⟨v, hv⟩ := mem_storeKeys_get hsent
    rw [← hval2] at hv
    exact storeGet_mem hv
  · -- frame views
    rw [hupre]
    exact framesOKRev_congr (fun j hj => (hrestore j hj).symm) _ hfok2.2

/-- A legal starting configuration: empty undo stack, sorted store holding
the 0xff sentinel, a usable undo prefix, and no stray keys in the active
segment range. -/
def InitOK (u0 : undo_stack) (store0 : Store) : Prop :=
  storeWF store0 ∧
  (∃ b0 rest, u0.undoPre = b0 :: rest ∧ 1 ≤ (b0 : Nat) ∧ (b0 : Nat) ≤ 0xfe) ∧
  u0.state.undo_stack = [] ∧
  u0.state.next_undo_segment < U64MOD ∧
  [byteOf 0xff] ∈ storeKeys store0 ∧
  (∀ k ∈ storeKeys store0,
    ¬ (BLe (u0.create_segment_key u0.state.next_undo_segment) k ∧
       BLt k (segNextPreOf u0.undoPre)))

/-- The states reachable from an initial configuration by `push`,
`write_changes` (under the session-side conditions) and `undo`; `snaps`
lists the store snapshots of the currently open frames, oldest first. -/
inductive Reach (u0 : undo_stack) (store0 : Store) :
    undo_stack → Store → List Store → Prop
  | base : Reach u0 store0 u0 store0 []
  | push {u : undo_stack} {store : Store} {snaps : List Store} :
      Reach u0 store0 u store snaps →
      Reach u0 store0 (u.push store).1 (u.push store).2 (snaps ++ [store])
  | write {u : undo_stack} {store : Store} {snaps : List Store}
      {cache : Cache} {cl : List Bytes} {u2 : undo_stack} {store2 : Store} :
      Reach u0 store0 u store snaps →
      (∀ k ∈ cl, ¬ u.undoPre <+: k ∧ k.length < 2 ^ 32 ∧
        ∀ e, storeGet cache k = some e →
          ∀ ov, e.orig_value = some ov → ov.length < 2 ^ 32) →
      [byteOf 0xff] ∉ cl →
      cl.Nodup →
      origInv store cache →
      u.state.next_undo_segment + cl.length < U64MOD →
      undo_stack.write_changes u store cache cl = Except.ok (u2, store2) →
      Reach u0 store0 u2 store2 snaps
  | undo {u : undo_stack} {store : Store} {snaps : List Store}
      {u2 : undo_stack} {store2 : Store} :
      Reach u0 store0 u store snaps →
      u.undo store = Except.ok (u2, store2) →
      Reach u0 store0 u2 store2 snaps.dropLast

theorem initOK_inv {u0 : undo_stack} {store0 : Store} (h : InitOK u0 store0) :
    UndoInv u0 store0 [] := by
  obtain ⟨hwf, hpre, hstk, hnext, hsent, hnoseg⟩ := h
  refine ⟨hwf, hpre, hstk, Nat.zero_le _, hnext, ?_, ?_, hsent, trivial⟩
  · intro t ht
    exact absurd ht (Nat.not_lt_zero t)
  · intro k hk h1 h2
    exact absurd ⟨h1, h2⟩ (hnoseg k hk)

theorem reach_inv (u0 : undo_stack) (store0 : Store) (hinit : InitOK u0 store0) :
    ∀ {u : undo_stack} {store : Store} {snaps : List Store},
    Reach u0 store0 u store snaps →
    u.undoPre = u0.undoPre ∧
    ∃ frames, frames.map Frame.snap = snaps ∧ UndoInv u store frames := by
  intro u store snaps hreach
  induction hreach with
  | base => exact ⟨rfl, [], rfl, initOK_inv hinit⟩
  | @push u1 store1 snaps1 hr ih =>
    obtain ⟨hup, frames, hmap, hinv⟩ := ih
    refine ⟨hup, frames ++ [⟨store1, []⟩], ?_, inv_push hinv⟩
    rw [List.map_append, hmap]
    rfl
  | @write u1 store1 snaps1 cache cl u2 store2 hr hgood hff hclnd horig hbound hwc ih =>
    obtain ⟨hup, frames, hmap, hinv⟩ := ih
    rcases List.eq_nil_or_concat frames with rfl | ⟨frames1, f, rfl⟩
    · have hstk0 : u1.state.undo_stack = [] := hinv.2.2.1
      obtain ⟨store2x, hwcx, hinvx⟩ :=
        inv_wc_nostack hinv (fun k hk => (hgood k hk).1) hff
      rw [hwcx] at hwc
      injection hwc with hpair
      injection hpair with h1 h2
      subst h1
      subst h2
      exact ⟨hup, [], hmap, hinvx⟩
    · simp only [List.concat_eq_append] at hinv hmap
      obtain ⟨u2x, store2x, flushed, hwcx, huprex, hrevx, hinvx⟩ :=
        inv_write_changes hinv hgood hff hclnd horig hbound
      rw [hwcx] at hwc
      injection hwc with hpair
      injection hpair with h1 h2
      subst h1
      subst h2
      refine ⟨huprex.trans hup, frames1 ++ [⟨f.snap, f.segs ++ flushed⟩], ?_, hinvx⟩
      rw [List.map_append] at hmap ⊢
      rw [show (([⟨f.snap, f.segs ++ flushed⟩] : List Frame).map Frame.snap) = [f.snap]
        from rfl]
      rw [show (([f] : List Frame).map Frame.snap) = [f.snap] from rfl] at hmap
      exact hmap
  | @undo u1 store1 snaps1 u2 store2 hr hueq ih =>
    obtain ⟨hup, frames, hmap, hinv⟩ := ih
    rcases List.eq_nil_or_concat frames with rfl | ⟨frames1, f, rfl⟩
    · exfalso
      have hstk0 : u1.state.undo_stack = [] := hinv.2.2.1
      have herr : u1.undo store1 = Except.error "nothing to undo" := by
        unfold undo_stack.undo
        rw [if_pos hstk0]
      rw [herr] at hueq
      cases hueq
    · simp only [List.concat_eq_append] at hinv hmap
      obtain ⟨u2x, store2x, hundox, huprex, hrevx, hrest, hdel, hinvx⟩ := inv_undo hinv
      rw [hundox] at hueq
      injection hueq with hpair
      injection hpair with h1 h2
      subst h1
      subst h2
      refine ⟨huprex.trans hup, frames1, ?_, hinvx⟩
      rw [← hmap, List.map_append]
      rw [show (([f] : List Frame).map Frame.snap) = [f.snap] from rfl]
      rw [List.dropLast_concat]

/-- Claim C2: for every state reached from a clean configuration by a
sequence of `push` / `write_changes` / `undo` operations with a non-empty
undo stack (at least one open frame), calling `undo()` succeeds, restores
every non-undo key of the store to exactly its value at the matching
earlier `push` (the snapshot of the youngest open frame), decrements the
revision by one, and removes the applied undo-segment records from the
store. -/
theorem claim_C2 (u0 : undo_stack) (store0 : Store) (hinit : InitOK u0 store0)
    (u : undo_stack) (store : Store) (snaps : List Store)
    (hreach : Reach u0 store0 u store snaps) (hne : snaps ≠ []) :
    ∃ u2 store2, u.undo store = Except.ok (u2, store2) ∧
      u2.state.revision = u.state.revision - 1 ∧
      (∀ j, ¬ u0.undoPre <+: j →
        storeGet store2 j = storeGet (snaps.getLast hne) j) ∧
      (∀ id, u.state.next_undo_segment - u.state.undo_stack.getLast?.getD 0 ≤ id →
        id < u.state.next_undo_segment →
        storeGet store2 (u.create_segment_key id) = none) := by
  obtain ⟨hup, frames, hmap, hinv⟩ := reach_inv u0 store0 hinit hreach
  have hfne : frames ≠ [] := by
    rintro rfl
    rw [← hmap] at hne
    exact hne rfl
  rcases List.eq_nil_or_concat frames with rfl | ⟨frames1, f, rfl⟩
  · exact absurd rfl hfne
  · simp only [List.concat_eq_append] at hinv hmap
    have hback : u.state.undo_stack.getLast?.getD 0 = f.segs.length := by
      rw [hinv.2.2.1, frameCounts_concat, List.getLast?_concat]
      rfl
    have hlast : snaps.getLast hne = f.snap := by
      have h1 : snaps.getLast? = some f.snap := by
        rw [← hmap, List.map_append]
        rw [show (([f] : List Frame).map Frame.snap) = [f.snap] from rfl]
        exact List.getLast?_concat _
      rw [List.getLast?_eq_getLast snaps hne] at h1
      exact Option.some_injective _ h1
    obtain ⟨u2, store2, hundo, hupre2, hrev, hrest, hdel, hinv2⟩ := inv_undo hinv
    refine ⟨u2, store2, hundo, hrev, ?_, ?_⟩
    · intro j hj
      rw [hlast]
      exact hrest j (fun hc => hj (hup ▸ hc))
    · intro id h1 h2
      rw [hback] at h1
      exact hdel id h1 h2

/-- Initial configuration for the C2 witness: undo prefix `{0x10}`, fresh
state, store holding just the two sentinels. -/
def c2U0 : undo_stack := { undoPre := [byteOf 0x10], state := {} }

def c2Store0 : Store := [([byteOf 0x00], []), ([byteOf 0xff], [])]

/-- Witness for C2: after one `push` from the clean configuration, `undo`
succeeds, restores the user view of the pushed snapshot, and decrements the
revision. -/
theorem claim_C2_witness :
    ∃ u2 store2,
      ((c2U0.push c2Store0).1).undo ((c2U0.push c2Store0).2) = Except.ok (u2, store2) ∧
      u2.state.revision = ((c2U0.push c2Store0).1).state.revision - 1 ∧
      (∀ j, ¬ c2U0.undoPre <+: j →
        storeGet store2 j =
          storeGet ((([] : List Store) ++ [c2Store0]).getLast (List.cons_ne_nil _ _)) j) ∧
      (∀ id, ((c2U0.push c2Store0).1).state.next_undo_segment -
          ((c2U0.push c2Store0).1).state.undo_stack.getLast?.getD 0 ≤ id →
        id < ((c2U0.push c2Store0).1).state.next_undo_segment →
        storeGet store2 (((c2U0.push c2Store0).1).create_segment_key id) = none) :=
  claim_C2 c2U0 c2Store0
    ⟨by decide,
     ⟨byteOf 0x10, [], rfl, by decide, by decide⟩,
     rfl,
     by decide,
     by decide,
     by decide⟩
    _ _ _ (Reach.push Reach.base) (List.cons_ne_nil _ _)
